import Mathlib

set_option maxRecDepth 100000

/-!
# Verification of the Pente engine

A shallow embedding of the Pente board engine (`game_logic.py`) and of the
adversarial-search module (`ai_engine.py`), together with proofs of the
specification's claims about them.

Modelling conventions:
* Python `int` is modelled by `Int`; grid cells hold `Int` values
  (`EMPTY = 0`, `WHITE = 1`, `BLACK = 2`).
* The 19×19 grid (a Python list of lists) is `List (List Int)`; all grid
  accesses performed by the source are guarded by bounds checks, which the
  embedding reproduces (`getCell`/`setCell` are total, with the same guards).
* `captures` is a two-key dictionary in the source; it is modelled by two
  fields plus the accessor `PenteGame.captures`.
* `capture_history` is a Python list used as a stack (append/pop at the end);
  it is modelled as a Lean list whose *head* is the top of the stack.
* Mutation is modelled by explicit state passing: `make_move` returns the
  success flag together with the updated board, and the search loops thread
  the board through every apply/undo pair exactly as the imperative code does.
-/

/-! ## Constants and the grid (game_logic.py lines 1-18) -/

abbrev Coord := Int × Int

def BOARD_SIZE : Int := 19

def EMPTY : Int := 0

def WHITE : Int := 1

def BLACK : Int := 2

abbrev Grid := List (List Int)

/-- `PenteGame._is_on_board` (also the bound checks inlined in
`is_valid_move`, `get_candidate_moves` and the scan loops). -/
def isOnBoard (r c : Int) : Bool :=
  0 ≤ r && r < BOARD_SIZE && 0 ≤ c && c < BOARD_SIZE

/-- Read `grid[r][c]`.  Every read performed by the source is guarded by an
on-board check, so the out-of-range default is never observable. -/
def getCell (g : Grid) (r c : Int) : Int :=
  if isOnBoard r c then (g.getD r.toNat []).getD c.toNat EMPTY else EMPTY

/-- Write `grid[r][c] = v`.  Every write performed by the source is in
bounds; out-of-range writes are modelled as no-ops. -/
def setCell (g : Grid) (r c : Int) (v : Int) : Grid :=
  if isOnBoard r c then g.set r.toNat ((g.getD r.toNat []).set c.toNat v) else g

/-- One entry of the capture-history stack
(`game_logic.py` lines 109-114). -/
structure CaptureInfo where
  player : Int
  opponent : Int
  count : Nat
  stones : List Coord
deriving DecidableEq, Repr

/-- The board engine state: the fields set up by `PenteGame.__init__`. -/
@[ext] structure PenteGame where
  grid : Grid
  move_count : Int
  capturesW : Int
  capturesB : Int
  capture_history : List (Option CaptureInfo)
  tournament_rule : Bool
  last_move : Option Coord
  winner : Option Int
  winning_sequence : List Coord
deriving DecidableEq, Repr

/-- `self.captures[p]` (the source only ever indexes the dictionary with
`WHITE` or `BLACK`). -/
def PenteGame.captures (b : PenteGame) (p : Int) : Int :=
  if p = WHITE then b.capturesW else b.capturesB

/-- `self.captures[p] += k`. -/
def PenteGame.addCaptures (b : PenteGame) (p : Int) (k : Int) : PenteGame :=
  if p = WHITE then { b with capturesW := b.capturesW + k }
  else { b with capturesB := b.capturesB + k }

/-- `PenteGame.__init__`. -/
def initGame (tournament_rule : Bool) : PenteGame :=
  { grid := List.replicate 19 (List.replicate 19 EMPTY)
    move_count := 0
    capturesW := 0
    capturesB := 0
    capture_history := []
    tournament_rule := tournament_rule
    last_move := none
    winner := none
    winning_sequence := [] }

/-! ## Move validation (game_logic.py lines 20-26) -/

/-- `PenteGame.is_valid_move`.  The tournament-rule branch in the source is
`pass`, so validity is exactly: in bounds and target empty. -/
def PenteGame.is_valid_move (b : PenteGame) (r c : Int) (p : Int) : Bool :=
  if !(0 ≤ r && r < BOARD_SIZE && 0 ≤ c && c < BOARD_SIZE
        && decide (getCell b.grid r c = EMPTY)) then
    false
  else
    -- `if self.tournament_rule and self.move_count == 2: pass`
    true

/-! ## Capture detection (game_logic.py lines 70-116) -/

/-- `directions = [(0,1),(1,0),(1,1),(1,-1)]`. -/
def capture_directions : List (Int × Int) := [(0, 1), (1, 0), (1, 1), (1, -1)]

/-- The eight signed rays, in exactly the order the `check_and_capture` loop
examines them (each axis direction: first `+`, then `-`). -/
def signedCapDirs : List (Int × Int) :=
  [(0, 1), (0, -1), (1, 0), (-1, 0), (1, 1), (-1, -1), (1, -1), (-1, 1)]

/-- One signed-ray check of `check_and_capture`: look at offsets 1, 2, 3 from
the just-played stone; on a hit clear the two flanked cells and record them.
The state is `(grid, captured_stones, captured_count)`. -/
def capture_step (p : Int) (r c : Int) (st : Grid × List Coord × Nat)
    (d : Int × Int) : Grid × List Coord × Nat :=
  let g := st.1
  let stones := st.2.1
  let cnt := st.2.2
  let opp := 3 - p
  let r1 := r + d.1
  let c1 := c + d.2
  let r2 := r + 2 * d.1
  let c2 := c + 2 * d.2
  let r3 := r + 3 * d.1
  let c3 := c + 3 * d.2
  if isOnBoard r3 c3 then
    if getCell g r1 c1 = opp ∧ getCell g r2 c2 = opp ∧ getCell g r3 c3 = p then
      (setCell (setCell g r1 c1 EMPTY) r2 c2 EMPTY,
        stones ++ [(r1, c1), (r2, c2)], cnt + 1)
    else st
  else st

/-- `PenteGame.check_and_capture`. -/
def PenteGame.check_and_capture (b : PenteGame) (r c : Int) (p : Int) :
    PenteGame :=
  let st := signedCapDirs.foldl (capture_step p r c) (b.grid, [], 0)
  let b1 := { b with grid := st.1 }
  if 0 < st.2.2 then
    let b2 := b1.addCaptures p (st.2.2 : Int)
    let info : CaptureInfo := CaptureInfo.mk p (3 - p) st.2.2 st.2.1
    { b2 with capture_history := some info :: b2.capture_history }
  else
    { b1 with capture_history := none :: b1.capture_history }

/-! ## Win detection (game_logic.py lines 121-141) -/

/-- Scan order of the nested `for r ... for c ...` loops: all (row, col)
pairs in row-major order. -/
def allCells : List Coord :=
  (List.range 19).flatMap fun (r : Nat) =>
    (List.range 19).map fun (c : Nat) => ((r : Int), (c : Int))

def win_directions : List (Int × Int) := [(0, 1), (1, 0), (1, 1), (1, -1)]

/-- The four candidate extension cells `(r + dr*i, c + dc*i)`, `i = 1..4`. -/
def seqCells (r c dr dc : Int) : List Coord :=
  (List.range 4).map fun (i : Nat) =>
    (r + dr * ((i : Int) + 1), c + dc * ((i : Int) + 1))

/-- The `sequence` list built by `update_winner` from a given start cell and
direction: the start cell followed by up to four same-color extensions,
stopping at the first off-board or non-`p` cell (the `break`). -/
def runFrom (g : Grid) (p : Int) (r c dr dc : Int) : List Coord :=
  (r, c) ::
    (seqCells r c dr dc).takeWhile (fun z => isOnBoard z.1 z.2 && decide (getCell g z.1 z.2 = p))

/-- The first (in scan order) run of length ≥ 5 found by the
`update_winner` scan, if any. -/
def findWin (g : Grid) (p : Int) : Option (List Coord) :=
  allCells.findSome? fun z =>
    if getCell g z.1 z.2 = p then
      win_directions.findSome? fun d =>
        let s := runFrom g p z.1 z.2 d.1 d.2
        if 5 ≤ s.length then some s else none
    else none

/-- `PenteGame.update_winner`. -/
def PenteGame.update_winner (b : PenteGame) (p : Int) : PenteGame :=
  if 5 ≤ b.captures p then { b with winner := some p }
  else
    match findWin b.grid p with
    | some s => { b with winner := some p, winning_sequence := s }
    | none => b

/-! ## Apply and undo (game_logic.py lines 28-51) -/

/-- `PenteGame.make_move`: returns the success flag and the updated board. -/
def PenteGame.make_move (b : PenteGame) (r c : Int) (p : Int) :
    Bool × PenteGame :=
  if b.is_valid_move r c p then
    let b1 := { b with grid := setCell b.grid r c p
                       last_move := some (r, c)
                       move_count := b.move_count + 1 }
    let b2 := b1.check_and_capture r c p
    (true, b2.update_winner p)
  else (false, b)

/-- The restore loop of `undo_move`: put the removed stones back. -/
def restoreStones (g : Grid) (opp : Int) (stones : List Coord) : Grid :=
  stones.foldl (fun g z => setCell g z.1 z.2 opp) g

/-- `PenteGame.undo_move`. -/
def PenteGame.undo_move (b : PenteGame) (r c : Int) : PenteGame :=
  let b1 := { b with grid := setCell b.grid r c EMPTY
                     move_count := b.move_count - 1
                     winner := none
                     winning_sequence := [] }
  match b1.capture_history with
  | [] => b1
  | ci :: rest =>
    let b2 := { b1 with capture_history := rest }
    match ci with
    | none => b2
    | some info =>
      let b3 := { b2 with grid := restoreStones b2.grid info.opponent info.stones }
      b3.addCaptures info.player (-(info.count : Int))

/-! ## Candidate enumeration (game_logic.py lines 53-68, ai_engine.py
lines 327-355; both use radius 2) -/

/-- `range(-2, 3) × range(-2, 3)` in Python iteration order. -/
def neighborOffsets : List (Int × Int) :=
  (List.range 5).flatMap fun (a : Nat) =>
    (List.range 5).map fun (b : Nat) => ((a : Int) - 2, (b : Int) - 2)

/-- Adding to the candidate collection.  The source collects candidates in a
Python `set` and returns `list(candidates)`; the iteration order of that list
is unspecified (hash order).  The embedding fixes a concrete representative
order — first-insertion order — which realises the same *set* of
candidates. -/
def addCandidate (acc : List Coord) (z : Coord) : List Coord :=
  if z ∈ acc then acc else acc ++ [z]

/-- Inner loop body of the candidate scan: add `(z + d)` when it is an
on-board empty cell. -/
def neighStep (b : PenteGame) (z : Coord) (acc2 : List Coord)
    (d : Int × Int) : List Coord :=
  let nr := z.1 + d.1
  let nc := z.2 + d.2
  if isOnBoard nr nc && decide (getCell b.grid nr nc = EMPTY) then
    addCandidate acc2 (nr, nc)
  else acc2

/-- Outer loop body of the candidate scan: for an occupied cell, collect its
empty neighbours within Chebyshev radius 2. -/
def candStep (b : PenteGame) (acc : List Coord) (z : Coord) : List Coord :=
  if getCell b.grid z.1 z.2 ≠ EMPTY then neighborOffsets.foldl (neighStep b z) acc
  else acc

/-- `PenteAI._get_smart_candidates` (identical algorithm to
`PenteGame.get_candidate_moves` with radius 2). -/
def smartCandidates (b : PenteGame) : List Coord :=
  if b.move_count = 0 then [(9, 9)] else allCells.foldl (candStep b) []

/-- `PenteGame.is_full`. -/
def PenteGame.is_full (b : PenteGame) : Bool :=
  BOARD_SIZE * BOARD_SIZE ≤ b.move_count

/-! ## Well-formedness and pointwise grid reasoning -/

/-- A 19×19 grid, as produced by `__init__` and preserved by every write the
engine performs. -/
def WFGrid (g : Grid) : Prop :=
  g.length = 19 ∧ ∀ row ∈ g, row.length = 19

instance : DecidablePred WFGrid := fun g => by unfold WFGrid; infer_instance

theorem isOnBoard_iff {r c : Int} :
    isOnBoard r c = true ↔ 0 ≤ r ∧ r < 19 ∧ 0 ≤ c ∧ c < 19 := by
  simp only [isOnBoard, BOARD_SIZE, Bool.and_eq_true, decide_eq_true_eq]
  tauto

theorem WFGrid.row_len {g : Grid} (hg : WFGrid g) {i : Nat} (hi : i < 19) :
    (g.getD i []).length = 19 := by
  have hlen : i < g.length := by rw [hg.1]; exact hi
  have hrow : g.getD i [] = g[i] := by
    simp [List.getD, List.getElem?_eq_getElem hlen]
  rw [hrow]
  exact hg.2 _ (List.getElem_mem hlen)

theorem WFGrid_setCell {g : Grid} (hg : WFGrid g) (r c : Int) (v : Int) :
    WFGrid (setCell g r c v) := by
  unfold setCell
  split
  · constructor
    · simpa [List.length_set] using hg.1
    · intro row hrow
      rcases List.mem_or_eq_of_mem_set hrow with h | h
      · exact hg.2 _ h
      · subst h
        rename_i hob
        have hr : r.toNat < 19 := by
          rcases isOnBoard_iff.mp hob with ⟨h0, h1, _, _⟩
          omega
        simpa [List.length_set] using hg.row_len hr
  · exact hg

theorem getCell_oob {g : Grid} {r c : Int} (h : ¬ isOnBoard r c = true) :
    getCell g r c = EMPTY := by
  unfold getCell
  simp [h]

theorem setCell_oob {g : Grid} {r c : Int} (v : Int)
    (h : ¬ isOnBoard r c = true) : setCell g r c v = g := by
  unfold setCell
  simp [h]

theorem getCell_setCell_same {g : Grid} (hg : WFGrid g) {r c : Int}
    (h : isOnBoard r c = true) (v : Int) :
    getCell (setCell g r c v) r c = v := by
  rcases isOnBoard_iff.mp h with ⟨h0, h1, h2, h3⟩
  have hr : r.toNat < g.length := by rw [hg.1]; omega
  have hc : c.toNat < (g.getD r.toNat []).length := by
    rw [hg.row_len (by omega : r.toNat < 19)]; omega
  unfold getCell setCell
  simp only [h, if_pos]
  have : (g.set r.toNat ((g.getD r.toNat []).set c.toNat v)).getD r.toNat [] =
      (g.getD r.toNat []).set c.toNat v := by
    simp [List.getD, List.getElem?_set_eq_of_lt _ hr]
  rw [this]
  simp [List.getD, List.getElem?_set_eq_of_lt _ (by simpa [List.length_set] using hc)]

theorem getCell_setCell_ne {g : Grid} {r c r' c' : Int} (v : Int)
    (h : ¬ (r = r' ∧ c = c')) :
    getCell (setCell g r c v) r' c' = getCell g r' c' := by
  by_cases hob : isOnBoard r c = true
  · by_cases hob' : isOnBoard r' c' = true
    · rcases isOnBoard_iff.mp hob with ⟨a0, a1, a2, a3⟩
      rcases isOnBoard_iff.mp hob' with ⟨b0, b1, b2, b3⟩
      unfold getCell setCell
      simp only [hob, hob', if_pos]
      by_cases hrr : r.toNat = r'.toNat
      · have hreq : r = r' := by omega
        have hcc : c.toNat ≠ c'.toNat := by
          have : ¬ c = c' := fun hc => h ⟨hreq, hc⟩
          omega
        by_cases hr : r.toNat < g.length
        · have : (g.set r.toNat ((g.getD r.toNat []).set c.toNat v)).getD r'.toNat [] =
              (g.getD r.toNat []).set c.toNat v := by
            rw [← hrr]
            simp [List.getD, List.getElem?_set_eq_of_lt _ hr]
          rw [this, ← hrr]
          simp [List.getD, List.getElem?_set_ne hcc]
        · rw [List.set_eq_of_length_le (by omega)]
      · have : (g.set r.toNat ((g.getD r.toNat []).set c.toNat v)).getD r'.toNat [] =
            g.getD r'.toNat [] := by
          simp [List.getD, List.getElem?_set_ne hrr]
        rw [this]
    · rw [getCell_oob hob', getCell_oob hob']
  · rw [setCell_oob _ hob]

theorem getD_eq_getElem {α : Type _} (l : List α) (i : Nat) (d : α)
    (h : i < l.length) : l.getD i d = l[i] := by
  simp [List.getD, List.getElem?_eq_getElem h]

/-- Two well-formed grids agreeing on every on-board cell are equal. -/
theorem grid_ext {g g' : Grid} (hg : WFGrid g) (hg' : WFGrid g')
    (h : ∀ r c : Int, isOnBoard r c = true → getCell g r c = getCell g' r c) :
    g = g' := by
  apply List.ext_getElem (hg.1.trans hg'.1.symm)
  intro i hi hi'
  have hi19 : i < 19 := by rw [hg.1] at hi; exact hi
  apply List.ext_getElem
  · have e1 : g[i].length = 19 := hg.2 _ (List.getElem_mem hi)
    have e2 : g'[i].length = 19 := hg'.2 _ (List.getElem_mem hi')
    rw [e1, e2]
  intro j hj hj'
  have hj19 : j < 19 := by
    have e1 : g[i].length = 19 := hg.2 _ (List.getElem_mem hi)
    rw [e1] at hj; exact hj
  have hob : isOnBoard (i : Int) (j : Int) = true := isOnBoard_iff.mpr (by omega)
  have hcell := h (i : Int) (j : Int) hob
  unfold getCell at hcell
  rw [if_pos hob, if_pos hob] at hcell
  simp only [Int.toNat_ofNat] at hcell
  have r1 : g.getD i [] = g[i] := getD_eq_getElem g i [] hi
  have r2 : g'.getD i [] = g'[i] := getD_eq_getElem g' i [] hi'
  rw [r1, r2] at hcell
  rw [getD_eq_getElem _ j EMPTY hj, getD_eq_getElem _ j EMPTY hj'] at hcell
  exact hcell

/-! ## Capture-detection invariants -/

/-- Int at offset `i` along ray `d` from the just-played cell `x`. -/
def patternCell (x : Coord) (d : Int × Int) (i : Int) : Coord :=
  (x.1 + i * d.1, x.2 + i * d.2)

/-- `A O O A` along ray `d` in grid `g1` (the post-placement grid), seen from
the just-played cell: offsets 1 and 2 hold the opponent, offset 3 holds the
mover, and offset 3 is on the board. -/
def capFires (g1 : Grid) (r c : Int) (p : Int) (d : Int × Int) : Bool :=
  isOnBoard (r + 3 * d.1) (c + 3 * d.2) &&
    decide (getCell g1 (r + d.1) (c + d.2) = 3 - p) &&
    decide (getCell g1 (r + 2 * d.1) (c + 2 * d.2) = 3 - p) &&
    decide (getCell g1 (r + 3 * d.1) (c + 3 * d.2) = p)

/-- Invariant of the `check_and_capture` direction loop, relating the running
state `st` to the grid `g1` that entered the loop and the played cell `x`. -/
structure CapInv (g1 : Grid) (x : Coord) (p : Int)
    (st : Grid × List Coord × Nat) : Prop where
  wf : WFGrid st.1
  untouched : ∀ yr yc : Int, (yr, yc) ∉ st.2.1 →
    getCell st.1 yr yc = getCell g1 yr yc
  cleared : ∀ y ∈ st.2.1, getCell st.1 y.1 y.2 = EMPTY ∧
    getCell g1 y.1 y.2 = 3 - p ∧ y ≠ x ∧ isOnBoard y.1 y.2 = true
  count : st.2.1.length = 2 * st.2.2

theorem capInv_init {g1 : Grid} {x : Coord} {p : Int} (hwf : WFGrid g1) :
    CapInv g1 x p (g1, [], 0) := by
  refine ⟨hwf, fun yr yc _ => rfl, fun y hy => absurd hy (List.not_mem_nil y), rfl⟩

theorem between_onBoard {a : Int} (da : Int) (h0 : 0 ≤ a) (h1 : a < 19)
    (h2 : 0 ≤ a + 3 * da) (h3 : a + 3 * da < 19) {i : Int} (hi0 : 0 ≤ i)
    (hi3 : i ≤ 3) : 0 ≤ a + i * da ∧ a + i * da < 19 := by
  rcases Int.le_or_lt 0 da with hda | hda
  · constructor
    · nlinarith
    · nlinarith
  · constructor
    · nlinarith
    · nlinarith

theorem capInv_step {g1 : Grid} {x : Coord} {p : Int}
    {st : Grid × List Coord × Nat} {d : Int × Int}
    (hd : ¬(d.1 = 0 ∧ d.2 = 0)) (hx : isOnBoard x.1 x.2 = true)
    (h : CapInv g1 x p st) :
    CapInv g1 x p (capture_step p x.1 x.2 st d) := by
  unfold capture_step
  by_cases hob3 : isOnBoard (x.1 + 3 * d.1) (x.2 + 3 * d.2) = true
  · simp only [hob3, if_pos]
    by_cases hcond : getCell st.1 (x.1 + d.1) (x.2 + d.2) = 3 - p ∧
        getCell st.1 (x.1 + 2 * d.1) (x.2 + 2 * d.2) = 3 - p ∧
        getCell st.1 (x.1 + 3 * d.1) (x.2 + 3 * d.2) = p
    · rw [if_pos hcond]
      rcases isOnBoard_iff.mp hx with ⟨a0, a1, a2, a3⟩
      rcases isOnBoard_iff.mp hob3 with ⟨b0, b1, b2, b3⟩
      have hob1 : isOnBoard (x.1 + 1 * d.1) (x.2 + 1 * d.2) = true := by
        rw [isOnBoard_iff]
        have u := between_onBoard d.1 a0 a1 b0 b1 (by omega : (0:Int) ≤ 1) (by omega)
        have v := between_onBoard d.2 a2 a3 b2 b3 (by omega : (0:Int) ≤ 1) (by omega)
        exact ⟨u.1, u.2, v.1, v.2⟩
      have hob2 : isOnBoard (x.1 + 2 * d.1) (x.2 + 2 * d.2) = true := by
        rw [isOnBoard_iff]
        have u := between_onBoard d.1 a0 a1 b0 b1 (by omega : (0:Int) ≤ 2) (by omega)
        have v := between_onBoard d.2 a2 a3 b2 b3 (by omega : (0:Int) ≤ 2) (by omega)
        exact ⟨u.1, u.2, v.1, v.2⟩
      have hob1' : isOnBoard (x.1 + d.1) (x.2 + d.2) = true := by
        simpa [one_mul] using hob1
      have hne12 : ¬(x.1 + d.1 = x.1 + 2 * d.1 ∧ x.2 + d.2 = x.2 + 2 * d.2) := by
        intro hcc
        exact hd ⟨by omega, by omega⟩
      have hne1x : ¬((x.1 + d.1, x.2 + d.2) = x) := by
        intro hcc
        have h1 : x.1 + d.1 = x.1 := congrArg Prod.fst hcc
        have h2 : x.2 + d.2 = x.2 := congrArg Prod.snd hcc
        exact hd ⟨by omega, by omega⟩
      have hne2x : ¬((x.1 + 2 * d.1, x.2 + 2 * d.2) = x) := by
        intro hcc
        have h1 : x.1 + 2 * d.1 = x.1 := congrArg Prod.fst hcc
        have h2 : x.2 + 2 * d.2 = x.2 := congrArg Prod.snd hcc
        exact hd ⟨by omega, by omega⟩
      have hwf1 : WFGrid (setCell st.1 (x.1 + d.1) (x.2 + d.2) EMPTY) :=
        WFGrid_setCell h.wf _ _ _
      refine ⟨WFGrid_setCell hwf1 _ _ _, ?_, ?_, ?_⟩
      · intro yr yc hy
        simp only [List.mem_append, List.mem_cons, List.not_mem_nil] at hy
        push_neg at hy
        obtain ⟨hy1, hy2, hy3⟩ := hy
        have e2 : ¬(x.1 + 2 * d.1 = yr ∧ x.2 + 2 * d.2 = yc) := by
          intro hcc; exact hy3.1 (by rw [Prod.ext_iff]; exact ⟨hcc.1.symm, hcc.2.symm⟩)
        have e1 : ¬(x.1 + d.1 = yr ∧ x.2 + d.2 = yc) := by
          intro hcc; exact hy2 (by rw [Prod.ext_iff]; exact ⟨hcc.1.symm, hcc.2.symm⟩)
        rw [getCell_setCell_ne _ e2, getCell_setCell_ne _ e1]
        exact h.untouched yr yc hy1
      · intro y hy
        simp only [List.mem_append, List.mem_cons, List.not_mem_nil, or_false] at hy
        rcases hy with hy | hy | hy
        · obtain ⟨c1, c2, c3, c4⟩ := h.cleared y hy
          refine ⟨?_, c2, c3, c4⟩
          by_cases e2 : x.1 + 2 * d.1 = y.1 ∧ x.2 + 2 * d.2 = y.2
          · have : getCell (setCell (setCell st.1 (x.1 + d.1) (x.2 + d.2) EMPTY)
                (x.1 + 2 * d.1) (x.2 + 2 * d.2) EMPTY) (x.1 + 2 * d.1) (x.2 + 2 * d.2) = EMPTY :=
              getCell_setCell_same hwf1 hob2 EMPTY
            rw [← e2.1, ← e2.2]
            exact this
          · rw [getCell_setCell_ne _ e2]
            by_cases e1 : x.1 + d.1 = y.1 ∧ x.2 + d.2 = y.2
            · rw [← e1.1, ← e1.2]
              exact getCell_setCell_same h.wf hob1' EMPTY
            · rw [getCell_setCell_ne _ e1]
              exact c1
        · subst hy
          constructor
          · rw [getCell_setCell_ne _ (by
              intro hcc
              exact hd ⟨by omega, by omega⟩)]
            exact getCell_setCell_same h.wf hob1' EMPTY
          · refine ⟨?_, hne1x, by simpa using hob1'⟩
            by_cases hmem : (x.1 + d.1, x.2 + d.2) ∈ st.2.1
            · exact (h.cleared _ hmem).2.1
            · rw [← h.untouched _ _ hmem]
              exact hcond.1
        · subst hy
          constructor
          · exact getCell_setCell_same hwf1 hob2 EMPTY
          · refine ⟨?_, hne2x, by simpa using hob2⟩
            by_cases hmem : (x.1 + 2 * d.1, x.2 + 2 * d.2) ∈ st.2.1
            · exact (h.cleared _ hmem).2.1
            · rw [← h.untouched _ _ hmem]
              exact hcond.2.1
      · simp only [List.length_append, List.length_cons, List.length_nil, h.count]
        omega
    · rw [if_neg hcond]
      exact h
  · simp only [hob3]
    simpa using h

theorem capInv_fold {g1 : Grid} {x : Coord} {p : Int} :
    ∀ (dirs : List (Int × Int)) (st : Grid × List Coord × Nat),
    (∀ d ∈ dirs, ¬(d.1 = 0 ∧ d.2 = 0)) →
    isOnBoard x.1 x.2 = true → CapInv g1 x p st →
    CapInv g1 x p (dirs.foldl (capture_step p x.1 x.2) st)
  | [], st, _, _, h => h
  | d :: rest, st, hd, hx, h => by
    rw [List.foldl_cons]
    exact capInv_fold rest _ (fun e he => hd e (List.mem_cons_of_mem _ he)) hx
      (capInv_step (hd d (List.mem_cons_self d rest)) hx h)

/-- Spec-level list of the cells removed by the fired directions (two cells
per qualifying direction, in loop order). -/
def capturedCells (g1 : Grid) (r c : Int) (p : Int)
    (dirs : List (Int × Int)) : List Coord :=
  dirs.flatMap fun d =>
    if capFires g1 r c p d then [patternCell (r, c) d 1, patternCell (r, c) d 2]
    else []

theorem cap_fold_fired {g1 : Grid} {x : Coord} {p : Int} :
    ∀ (dirs : List (Int × Int)) (st : Grid × List Coord × Nat),
    CapInv g1 x p st →
    (∀ d ∈ dirs, ∀ i ∈ ([1, 2, 3] : List Int), patternCell x d i ∉ st.2.1) →
    (∀ d ∈ dirs, ∀ e ∈ dirs, d ≠ e → ∀ j ∈ ([1, 2] : List Int),
      ∀ i ∈ ([1, 2, 3] : List Int), patternCell x d j ≠ patternCell x e i) →
    dirs.Nodup →
    (∀ d ∈ dirs, ¬(d.1 = 0 ∧ d.2 = 0)) →
    isOnBoard x.1 x.2 = true →
    (dirs.foldl (capture_step p x.1 x.2) st).2.1
        = st.2.1 ++ capturedCells g1 x.1 x.2 p dirs ∧
    (dirs.foldl (capture_step p x.1 x.2) st).2.2
        = st.2.2 + (dirs.filter (capFires g1 x.1 x.2 p)).length
  | [], st, _, _, _, _, _, _ => by simp [capturedCells]
  | d :: rest, st, hinv, hfree, hpair, hnd, hnz, hx => by
    have hdmem : d ∈ d :: rest := List.mem_cons_self d rest
    have hfree1 := hfree d hdmem 1 (by simp)
    have hfree2 := hfree d hdmem 2 (by simp)
    have hfree3 := hfree d hdmem 3 (by simp)
    -- on the cells the condition reads, the running grid agrees with `g1`
    have hc1 : getCell st.1 (x.1 + d.1) (x.2 + d.2)
        = getCell g1 (x.1 + d.1) (x.2 + d.2) := by
      have := hinv.untouched (x.1 + d.1) (x.2 + d.2)
        (by simpa [patternCell, one_mul] using hfree1)
      exact this
    have hc2 : getCell st.1 (x.1 + 2 * d.1) (x.2 + 2 * d.2)
        = getCell g1 (x.1 + 2 * d.1) (x.2 + 2 * d.2) :=
      hinv.untouched _ _ (by simpa [patternCell] using hfree2)
    have hc3 : getCell st.1 (x.1 + 3 * d.1) (x.2 + 3 * d.2)
        = getCell g1 (x.1 + 3 * d.1) (x.2 + 3 * d.2) :=
      hinv.untouched _ _ (by simpa [patternCell] using hfree3)
    -- the step taken equals the spec-level decision on `g1`
    have hstep : capture_step p x.1 x.2 st d =
        if capFires g1 x.1 x.2 p d then
          (setCell (setCell st.1 (x.1 + d.1) (x.2 + d.2) EMPTY)
              (x.1 + 2 * d.1) (x.2 + 2 * d.2) EMPTY,
            st.2.1 ++ [patternCell x d 1, patternCell x d 2], st.2.2 + 1)
        else st := by
      unfold capture_step capFires
      by_cases hob3 : isOnBoard (x.1 + 3 * d.1) (x.2 + 3 * d.2) = true
      · simp only [hob3, Bool.true_and, if_pos]
        by_cases hcond : getCell g1 (x.1 + d.1) (x.2 + d.2) = 3 - p ∧
            getCell g1 (x.1 + 2 * d.1) (x.2 + 2 * d.2) = 3 - p ∧
            getCell g1 (x.1 + 3 * d.1) (x.2 + 3 * d.2) = p
        · rw [if_pos (by rw [hc1, hc2, hc3]; exact hcond)]
          have : (decide (getCell g1 (x.1 + d.1) (x.2 + d.2) = 3 - p) &&
              decide (getCell g1 (x.1 + 2 * d.1) (x.2 + 2 * d.2) = 3 - p) &&
              decide (getCell g1 (x.1 + 3 * d.1) (x.2 + 3 * d.2) = p)) = true := by
            simp [hcond.1, hcond.2.1, hcond.2.2]
          rw [if_pos this]
          simp [patternCell, one_mul]
        · rw [if_neg (by rw [hc1, hc2, hc3]; exact hcond)]
          have : ¬((decide (getCell g1 (x.1 + d.1) (x.2 + d.2) = 3 - p) &&
              decide (getCell g1 (x.1 + 2 * d.1) (x.2 + 2 * d.2) = 3 - p) &&
              decide (getCell g1 (x.1 + 3 * d.1) (x.2 + 3 * d.2) = p)) = true) := by
            simp only [Bool.and_eq_true, decide_eq_true_eq]
            tauto
          rw [if_neg this]
      · have hb : isOnBoard (x.1 + 3 * d.1) (x.2 + 3 * d.2) = false := by
          simpa using hob3
        simp only [hb]
        simp
    rw [List.foldl_cons, hstep]
    have hrest_nz : ∀ e ∈ rest, ¬(e.1 = 0 ∧ e.2 = 0) :=
      fun e he => hnz e (List.mem_cons_of_mem _ he)
    have hd_nz : ¬(d.1 = 0 ∧ d.2 = 0) := hnz d hdmem
    have hpair_rest : ∀ a ∈ rest, ∀ e ∈ rest, a ≠ e → ∀ j ∈ ([1, 2] : List Int),
        ∀ i ∈ ([1, 2, 3] : List Int), patternCell x a j ≠ patternCell x e i :=
      fun a ha e he => hpair a (List.mem_cons_of_mem _ ha) e (List.mem_cons_of_mem _ he)
    have hnd_rest : rest.Nodup := (List.nodup_cons.mp hnd).2
    have hd_notin : d ∉ rest := (List.nodup_cons.mp hnd).1
    by_cases hfire : capFires g1 x.1 x.2 p d = true
    · rw [if_pos hfire]
      have hinv' : CapInv g1 x p (capture_step p x.1 x.2 st d) :=
        capInv_step hd_nz hx hinv
      rw [hstep, if_pos hfire] at hinv'
      have hfree' : ∀ e ∈ rest, ∀ i ∈ ([1, 2, 3] : List Int),
          patternCell x e i ∉ st.2.1 ++ [patternCell x d 1, patternCell x d 2] := by
        intro e he i hi
        simp only [List.mem_append, List.mem_cons, List.not_mem_nil, or_false]
        push_neg
        have hne : d ≠ e := fun hde => hd_notin (hde ▸ he)
        refine ⟨hfree e (List.mem_cons_of_mem _ he) i hi, ?_, ?_⟩
        · intro hcc
          exact hpair d hdmem e (List.mem_cons_of_mem _ he) hne 1 (by simp) i hi hcc.symm
        · intro hcc
          exact hpair d hdmem e (List.mem_cons_of_mem _ he) hne 2 (by simp) i hi hcc.symm
      obtain ⟨ih1, ih2⟩ := cap_fold_fired rest _ hinv' hfree' hpair_rest hnd_rest hrest_nz hx
      constructor
      · rw [ih1]
        simp [capturedCells, hfire, List.append_assoc]
      · rw [ih2]
        have hf : List.filter (capFires g1 x.1 x.2 p) (d :: rest)
            = d :: List.filter (capFires g1 x.1 x.2 p) rest := by
          simp [List.filter_cons, hfire]
        rw [hf]
        first
        | (simp only [List.length_cons]; omega)
        | (simp [List.length_cons]; omega)
        | simp [List.length_cons]
    · rw [if_neg hfire]
      have hfree' : ∀ e ∈ rest, ∀ i ∈ ([1, 2, 3] : List Int),
          patternCell x e i ∉ st.2.1 :=
        fun e he => hfree e (List.mem_cons_of_mem _ he)
      obtain ⟨ih1, ih2⟩ := cap_fold_fired rest st hinv hfree' hpair_rest hnd_rest hrest_nz hx
      constructor
      · rw [ih1]
        simp [capturedCells, hfire]
      · rw [ih2]
        simp only [List.filter_cons]
        rw [if_neg (by simpa using hfire)]

/-! ## Field-effect lemmas -/

@[simp] theorem addCaptures_grid (b : PenteGame) (p : Int) (k : Int) :
    (b.addCaptures p k).grid = b.grid := by
  unfold PenteGame.addCaptures; split <;> rfl

@[simp] theorem addCaptures_move_count (b : PenteGame) (p : Int) (k : Int) :
    (b.addCaptures p k).move_count = b.move_count := by
  unfold PenteGame.addCaptures; split <;> rfl

@[simp] theorem addCaptures_history (b : PenteGame) (p : Int) (k : Int) :
    (b.addCaptures p k).capture_history = b.capture_history := by
  unfold PenteGame.addCaptures; split <;> rfl

@[simp] theorem addCaptures_last_move (b : PenteGame) (p : Int) (k : Int) :
    (b.addCaptures p k).last_move = b.last_move := by
  unfold PenteGame.addCaptures; split <;> rfl

@[simp] theorem addCaptures_winner (b : PenteGame) (p : Int) (k : Int) :
    (b.addCaptures p k).winner = b.winner := by
  unfold PenteGame.addCaptures; split <;> rfl

@[simp] theorem addCaptures_ws (b : PenteGame) (p : Int) (k : Int) :
    (b.addCaptures p k).winning_sequence = b.winning_sequence := by
  unfold PenteGame.addCaptures; split <;> rfl

@[simp] theorem addCaptures_tournament (b : PenteGame) (p : Int) (k : Int) :
    (b.addCaptures p k).tournament_rule = b.tournament_rule := by
  unfold PenteGame.addCaptures; split <;> rfl

theorem addCaptures_capturesW (b : PenteGame) (p : Int) (k : Int) :
    (b.addCaptures p k).capturesW = if p = WHITE then b.capturesW + k else b.capturesW := by
  unfold PenteGame.addCaptures; split <;> simp_all

theorem addCaptures_capturesB (b : PenteGame) (p : Int) (k : Int) :
    (b.addCaptures p k).capturesB = if p = WHITE then b.capturesB else b.capturesB + k := by
  unfold PenteGame.addCaptures; split <;> simp_all

theorem addCaptures_captures (b : PenteGame) (p : Int) (k : Int) (q : Int) :
    (b.addCaptures p k).captures q =
      if (p = WHITE ↔ q = WHITE) then b.captures q + k else b.captures q := by
  unfold PenteGame.addCaptures PenteGame.captures
  by_cases hp : p = WHITE <;> by_cases hq : q = WHITE <;> simp [hp, hq]

@[simp] theorem update_winner_grid (b : PenteGame) (p : Int) :
    (b.update_winner p).grid = b.grid := by
  unfold PenteGame.update_winner
  split
  · rfl
  · split <;> rfl

@[simp] theorem update_winner_move_count (b : PenteGame) (p : Int) :
    (b.update_winner p).move_count = b.move_count := by
  unfold PenteGame.update_winner
  split
  · rfl
  · split <;> rfl

@[simp] theorem update_winner_capturesW (b : PenteGame) (p : Int) :
    (b.update_winner p).capturesW = b.capturesW := by
  unfold PenteGame.update_winner
  split
  · rfl
  · split <;> rfl

@[simp] theorem update_winner_capturesB (b : PenteGame) (p : Int) :
    (b.update_winner p).capturesB = b.capturesB := by
  unfold PenteGame.update_winner
  split
  · rfl
  · split <;> rfl

@[simp] theorem update_winner_history (b : PenteGame) (p : Int) :
    (b.update_winner p).capture_history = b.capture_history := by
  unfold PenteGame.update_winner
  split
  · rfl
  · split <;> rfl

@[simp] theorem update_winner_last_move (b : PenteGame) (p : Int) :
    (b.update_winner p).last_move = b.last_move := by
  unfold PenteGame.update_winner
  split
  · rfl
  · split <;> rfl

@[simp] theorem update_winner_tournament (b : PenteGame) (p : Int) :
    (b.update_winner p).tournament_rule = b.tournament_rule := by
  unfold PenteGame.update_winner
  split
  · rfl
  · split <;> rfl

/-- The loop state of `check_and_capture` on board `b`. -/
def capSt (b : PenteGame) (r c : Int) (p : Int) : Grid × List Coord × Nat :=
  signedCapDirs.foldl (capture_step p r c) (b.grid, [], 0)

theorem cc_grid (b : PenteGame) (r c : Int) (p : Int) :
    (b.check_and_capture r c p).grid = (capSt b r c p).1 := by
  simp only [PenteGame.check_and_capture, capSt]
  split <;> simp

theorem cc_history (b : PenteGame) (r c : Int) (p : Int) :
    (b.check_and_capture r c p).capture_history =
      (if 0 < (capSt b r c p).2.2 then
        some (CaptureInfo.mk p (3 - p) (capSt b r c p).2.2 (capSt b r c p).2.1)
       else none) :: b.capture_history := by
  simp only [PenteGame.check_and_capture, capSt]
  split <;> simp_all

theorem cc_move_count (b : PenteGame) (r c : Int) (p : Int) :
    (b.check_and_capture r c p).move_count = b.move_count := by
  simp only [PenteGame.check_and_capture]
  split <;> simp

theorem cc_last_move (b : PenteGame) (r c : Int) (p : Int) :
    (b.check_and_capture r c p).last_move = b.last_move := by
  simp only [PenteGame.check_and_capture]
  split <;> simp

theorem cc_winner (b : PenteGame) (r c : Int) (p : Int) :
    (b.check_and_capture r c p).winner = b.winner := by
  simp only [PenteGame.check_and_capture]
  split <;> simp

theorem cc_ws (b : PenteGame) (r c : Int) (p : Int) :
    (b.check_and_capture r c p).winning_sequence = b.winning_sequence := by
  simp only [PenteGame.check_and_capture]
  split <;> simp

theorem cc_tournament (b : PenteGame) (r c : Int) (p : Int) :
    (b.check_and_capture r c p).tournament_rule = b.tournament_rule := by
  simp only [PenteGame.check_and_capture]
  split <;> simp

theorem cc_capturesW (b : PenteGame) (r c : Int) (p : Int) :
    (b.check_and_capture r c p).capturesW =
      if 0 < (capSt b r c p).2.2 ∧ p = WHITE then
        b.capturesW + ((capSt b r c p).2.2 : Int)
      else b.capturesW := by
  simp only [PenteGame.check_and_capture, capSt]
  by_cases h : 0 < (signedCapDirs.foldl (capture_step p r c) (b.grid, [], 0)).2.2
  · rw [if_pos h]
    dsimp only
    rw [addCaptures_capturesW]
    by_cases hp : p = WHITE
    · rw [if_pos hp, if_pos ⟨h, hp⟩]
    · rw [if_neg hp, if_neg (fun hc => hp hc.2)]
  · rw [if_neg h]
    dsimp only
    rw [if_neg (fun hc => h hc.1)]

theorem cc_capturesB (b : PenteGame) (r c : Int) (p : Int) :
    (b.check_and_capture r c p).capturesB =
      if 0 < (capSt b r c p).2.2 ∧ ¬(p = WHITE) then
        b.capturesB + ((capSt b r c p).2.2 : Int)
      else b.capturesB := by
  simp only [PenteGame.check_and_capture, capSt]
  by_cases h : 0 < (signedCapDirs.foldl (capture_step p r c) (b.grid, [], 0)).2.2
  · rw [if_pos h]
    dsimp only
    rw [addCaptures_capturesB]
    by_cases hp : p = WHITE
    · rw [if_pos hp, if_neg (fun hc => hc.2 hp)]
    · rw [if_neg hp, if_pos ⟨h, hp⟩]
  · rw [if_neg h]
    dsimp only
    rw [if_neg (fun hc => h hc.1)]

theorem is_valid_move_iff (b : PenteGame) (r c : Int) (p : Int) :
    b.is_valid_move r c p = true ↔
      (isOnBoard r c = true ∧ getCell b.grid r c = EMPTY) := by
  unfold PenteGame.is_valid_move
  by_cases hX : (0 ≤ r && r < BOARD_SIZE && 0 ≤ c && c < BOARD_SIZE
      && decide (getCell b.grid r c = EMPTY)) = true
  · rw [if_neg (by simp [hX])]
    simp only [Bool.and_eq_true, decide_eq_true_eq] at hX
    constructor
    · intro _
      exact ⟨isOnBoard_iff.mpr ⟨hX.1.1.1.1, hX.1.1.1.2, hX.1.1.2, hX.1.2⟩, hX.2⟩
    · intro _
      rfl
  · rw [if_pos (by simp [hX])]
    constructor
    · intro h
      exact absurd h (by simp)
    · rintro ⟨hon, hemp⟩
      exfalso
      apply hX
      rcases isOnBoard_iff.mp hon with ⟨h0, h1, h2, h3⟩
      simp [h0, h1, h2, h3, hemp, BOARD_SIZE]

theorem make_move_of_valid {b : PenteGame} {r c : Int} {p : Int}
    (h : b.is_valid_move r c p = true) :
    b.make_move r c p =
      (true,
        (({ b with grid := setCell b.grid r c p
                   last_move := some (r, c)
                   move_count := b.move_count + 1 }).check_and_capture r c p).update_winner p) := by
  unfold PenteGame.make_move
  rw [if_pos h]

theorem make_move_of_invalid {b : PenteGame} {r c : Int} {p : Int}
    (h : ¬ b.is_valid_move r c p = true) :
    b.make_move r c p = (false, b) := by
  unfold PenteGame.make_move
  rw [if_neg h]

/-! ## Undo and the apply/undo round trip -/

theorem WFGrid_restoreStones {g : Grid} (hwf : WFGrid g) (o : Int) :
    ∀ ss : List Coord, WFGrid (restoreStones g o ss) := by
  intro ss
  induction ss generalizing g with
  | nil => exact hwf
  | cons z ss ih =>
    unfold restoreStones
    rw [List.foldl_cons]
    exact ih (WFGrid_setCell hwf _ _ _)

theorem restoreStones_cons (g : Grid) (o : Int) (z : Coord) (ss : List Coord) :
    restoreStones g o (z :: ss) = restoreStones (setCell g z.1 z.2 o) o ss := rfl

theorem getCell_restoreStones_not_mem {o : Int} {yr yc : Int} :
    ∀ {ss : List Coord} {g : Grid}, (yr, yc) ∉ ss →
    getCell (restoreStones g o ss) yr yc = getCell g yr yc := by
  intro ss
  induction ss with
  | nil => intro g _; rfl
  | cons z ss ih =>
    intro g hy
    have h1 : (yr, yc) ∉ ss := fun hc => hy (List.mem_cons_of_mem _ hc)
    have h2 : ¬(z.1 = yr ∧ z.2 = yc) := by
      intro hc
      apply hy
      have hz : z = (yr, yc) := by
        rcases z with ⟨z1, z2⟩
        simp only at hc
        rw [hc.1, hc.2]
      rw [← hz]
      exact List.mem_cons_self z ss
    rw [restoreStones_cons, ih h1, getCell_setCell_ne _ h2]

theorem getCell_restoreStones_mem {o : Int} {yr yc : Int} :
    ∀ {ss : List Coord} {g : Grid}, WFGrid g → (yr, yc) ∈ ss →
    (∀ z ∈ ss, isOnBoard z.1 z.2 = true) →
    getCell (restoreStones g o ss) yr yc = o := by
  intro ss
  induction ss with
  | nil => intro g _ hy _; exact absurd hy (List.not_mem_nil _)
  | cons z ss ih =>
    intro g hwf hy hon
    by_cases hmem : (yr, yc) ∈ ss
    · rw [restoreStones_cons]
      exact ih (WFGrid_setCell hwf _ _ _) hmem
        (fun w hw => hon w (List.mem_cons_of_mem _ hw))
    · have hz : z = (yr, yc) := by
        rcases List.mem_cons.mp hy with h | h
        · exact h.symm
        · exact absurd h hmem
      have hon' : isOnBoard yr yc = true := by
        have hzz := hon z (List.mem_cons_self z ss)
        rw [hz] at hzz
        exact hzz
      rw [restoreStones_cons, getCell_restoreStones_not_mem hmem, hz]
      exact getCell_setCell_same hwf hon' o

theorem undo_move_nil {b : PenteGame} (r c : Int) (h : b.capture_history = []) :
    b.undo_move r c =
      { b with grid := setCell b.grid r c EMPTY
               move_count := b.move_count - 1
               winner := none
               winning_sequence := [] } := by
  unfold PenteGame.undo_move
  simp only [h]

theorem undo_move_none {b : PenteGame} (r c : Int) {rest}
    (h : b.capture_history = none :: rest) :
    b.undo_move r c =
      { b with grid := setCell b.grid r c EMPTY
               move_count := b.move_count - 1
               winner := none
               winning_sequence := []
               capture_history := rest } := by
  unfold PenteGame.undo_move
  simp only [h]

theorem undo_move_some {b : PenteGame} (r c : Int) {info rest}
    (h : b.capture_history = some info :: rest) :
    b.undo_move r c =
      ({ b with grid := restoreStones (setCell b.grid r c EMPTY)
                  info.opponent info.stones
                move_count := b.move_count - 1
                winner := none
                winning_sequence := []
                capture_history := rest }).addCaptures info.player
        (-(info.count : Int)) := by
  unfold PenteGame.undo_move
  simp only [h]

theorem signedCapDirs_nonzero : ∀ d ∈ signedCapDirs, ¬(d.1 = 0 ∧ d.2 = 0) := by
  decide

/-- The round trip: a successful `make_move` followed by `undo_move` on the
same cell restores every field of the board except `last_move` (which
`undo_move` does not touch) and `winner`/`winning_sequence` (which `undo_move`
overwrites with `none`/`[]` unconditionally). -/
theorem round_trip_core {b : PenteGame} {r c : Int} {p : Int}
    (hwf : WFGrid b.grid) (hv : b.is_valid_move r c p = true) :
    ((b.make_move r c p).2).undo_move r c =
      { b with last_move := some (r, c), winner := none, winning_sequence := [] } := by
  obtain ⟨hob, hemp⟩ := (is_valid_move_iff b r c p).mp hv
  rw [make_move_of_valid hv]
  set bP : PenteGame :=
    { b with grid := setCell b.grid r c p
             last_move := some (r, c)
             move_count := b.move_count + 1 } with hbP
  have hwfP : WFGrid bP.grid := WFGrid_setCell hwf r c p
  have hst : CapInv bP.grid (r, c) p (capSt bP r c p) :=
    capInv_fold signedCapDirs (bP.grid, [], 0) signedCapDirs_nonzero hob
      (capInv_init hwfP)
  set b2 : PenteGame := bP.check_and_capture r c p with hb2
  set b3 : PenteGame := b2.update_winner p with hb3
  have hhist : b3.capture_history =
      (if 0 < (capSt bP r c p).2.2 then
        some (CaptureInfo.mk p (3 - p) (capSt bP r c p).2.2 (capSt bP r c p).2.1)
       else none) :: b.capture_history := by
    rw [hb3, update_winner_history, hb2, cc_history]
  have hgrid3 : b3.grid = (capSt bP r c p).1 := by
    rw [hb3, update_winner_grid, hb2, cc_grid]
  have hmc3 : b3.move_count = b.move_count + 1 := by
    rw [hb3, update_winner_move_count, hb2, cc_move_count]
  have hlast3 : b3.last_move = some (r, c) := by
    rw [hb3, update_winner_last_move, hb2, cc_last_move]
  have htour3 : b3.tournament_rule = b.tournament_rule := by
    rw [hb3, update_winner_tournament, hb2, cc_tournament]
  have hcapW3 : b3.capturesW =
      if 0 < (capSt bP r c p).2.2 ∧ p = WHITE then
        b.capturesW + ((capSt bP r c p).2.2 : Int)
      else b.capturesW := by
    rw [hb3, update_winner_capturesW, hb2, cc_capturesW]
  have hcapB3 : b3.capturesB =
      if 0 < (capSt bP r c p).2.2 ∧ ¬(p = WHITE) then
        b.capturesB + ((capSt bP r c p).2.2 : Int)
      else b.capturesB := by
    rw [hb3, update_winner_capturesB, hb2, cc_capturesB]
  by_cases hK : 0 < (capSt bP r c p).2.2
  · -- at least one capture fired: the history entry restores the stones
    rw [if_pos hK] at hhist
    rw [undo_move_some r c hhist]
    have hgridEq : restoreStones (setCell b3.grid r c EMPTY) (3 - p)
        (capSt bP r c p).2.1 = b.grid := by
      apply grid_ext
      · exact WFGrid_restoreStones
          (WFGrid_setCell (hgrid3 ▸ hst.wf) r c EMPTY) _ _
      · exact hwf
      · intro yr yc hyob
        by_cases hymem : (yr, yc) ∈ (capSt bP r c p).2.1
        · obtain ⟨_, hcl2, hcl3, _⟩ := hst.cleared _ hymem
          rw [getCell_restoreStones_mem (WFGrid_setCell (hgrid3 ▸ hst.wf) r c EMPTY)
            hymem (fun z hz => (hst.cleared z hz).2.2.2)]
          have hyne : ¬(r = yr ∧ c = yc) := by
            intro hcc
            apply hcl3
            rw [Prod.ext_iff]
            exact ⟨hcc.1.symm, hcc.2.symm⟩
          have : getCell bP.grid yr yc = 3 - p := hcl2
          rw [show bP.grid = setCell b.grid r c p from rfl,
            getCell_setCell_ne _ hyne] at this
          rw [this]
        · rw [getCell_restoreStones_not_mem hymem]
          by_cases hyx : r = yr ∧ c = yc
          · rw [← hyx.1, ← hyx.2]
            rw [getCell_setCell_same (hgrid3 ▸ hst.wf) hob EMPTY]
            exact hemp.symm
          · rw [getCell_setCell_ne _ hyx, hgrid3, hst.untouched yr yc hymem]
            rw [show bP.grid = setCell b.grid r c p from rfl,
              getCell_setCell_ne _ hyx]
    refine PenteGame.ext ?_ ?_ ?_ ?_ ?_ ?_ ?_ ?_ ?_
    · simpa using hgridEq
    · simp [hmc3]
    · rw [addCaptures_capturesW]
      by_cases hp : p = WHITE
      · rw [if_pos hp]
        dsimp only
        rw [hcapW3, if_pos ⟨hK, hp⟩]
        simp
      · rw [if_neg hp]
        dsimp only
        rw [hcapW3, if_neg (fun hc => hp hc.2)]
    · rw [addCaptures_capturesB]
      by_cases hp : p = WHITE
      · rw [if_pos hp]
        dsimp only
        rw [hcapB3, if_neg (fun hc => hc.2 hp)]
      · rw [if_neg hp]
        dsimp only
        rw [hcapB3, if_pos ⟨hK, hp⟩]
        simp
    · simp
    · simp [htour3]
    · simp [hlast3]
    · simp
    · simp
  · -- no capture fired: the history entry is `None` and the grid is untouched
    rw [if_neg hK] at hhist
    have hS : (capSt bP r c p).2.1 = [] := by
      have hlen := hst.count
      have hzero : (capSt bP r c p).2.1.length = 0 := by omega
      exact List.eq_nil_of_length_eq_zero hzero
    rw [undo_move_none r c hhist]
    have hgridEq : setCell b3.grid r c EMPTY = b.grid := by
      apply grid_ext (WFGrid_setCell (hgrid3 ▸ hst.wf) r c EMPTY) hwf
      intro yr yc hyob
      by_cases hyx : r = yr ∧ c = yc
      · rw [← hyx.1, ← hyx.2]
        rw [getCell_setCell_same (hgrid3 ▸ hst.wf) hob EMPTY]
        exact hemp.symm
      · rw [getCell_setCell_ne _ hyx, hgrid3,
          hst.untouched yr yc (by rw [hS]; exact List.not_mem_nil _)]
        rw [show bP.grid = setCell b.grid r c p from rfl,
          getCell_setCell_ne _ hyx]
    refine PenteGame.ext ?_ ?_ ?_ ?_ ?_ ?_ ?_ ?_ ?_
    · simpa using hgridEq
    · simp [hmc3]
    · show b3.capturesW = b.capturesW
      rw [hcapW3, if_neg (fun hc => hK hc.1)]
    · show b3.capturesB = b.capturesB
      rw [hcapB3, if_neg (fun hc => hK hc.1)]
    · simp
    · simp [htour3]
    · simp [hlast3]
    · simp
    · simp

/-- With no game already decided, the round trip restores everything except
`last_move`. -/
theorem round_trip {b : PenteGame} {r c : Int} {p : Int}
    (hwf : WFGrid b.grid) (hv : b.is_valid_move r c p = true)
    (hw : b.winner = none) (hws : b.winning_sequence = []) :
    ((b.make_move r c p).2).undo_move r c = { b with last_move := some (r, c) } := by
  rw [round_trip_core hwf hv]
  cases b
  simp only at hw hws
  rw [hw, hws]

/-! ## Board construction helpers (used by concrete instances) -/

/-- Apply a list of moves `(r, c, p)`, requiring every one of them to be
accepted; `none` if any move is rejected. -/
def playAll : List (Int × Int × Int) → PenteGame → Option PenteGame
  | [], b => some b
  | m :: ms, b =>
    let res := b.make_move m.1 m.2.1 m.2.2
    if res.1 then playAll ms res.2 else none

/-- Apply a list of moves `(r, c, p)` from a fresh board, keeping whatever
`make_move` produces (rejected moves leave the board unchanged). -/
def buildBoard (ms : List (Int × Int × Int)) : PenteGame :=
  ms.foldl (fun b m => (b.make_move m.1 m.2.1 m.2.2).2) (initGame false)

/-! ## C2: the apply/undo round-trip law -/

/-- C2: for a board with a well-formed grid, applying a legal move and
immediately undoing it restores the grid, `move_count`, both capture
tallies, and the capture-history depth to their exact pre-apply values. -/
theorem C2_apply_undo_round_trip (b : PenteGame) (r c : Int) (p : Int)
    (hwf : WFGrid b.grid) (hv : b.is_valid_move r c p = true) :
    (((b.make_move r c p).2).undo_move r c).grid = b.grid ∧
    (((b.make_move r c p).2).undo_move r c).move_count = b.move_count ∧
    (((b.make_move r c p).2).undo_move r c).captures WHITE = b.captures WHITE ∧
    (((b.make_move r c p).2).undo_move r c).captures BLACK = b.captures BLACK ∧
    (((b.make_move r c p).2).undo_move r c).capture_history.length
      = b.capture_history.length := by
  rw [round_trip_core hwf hv]
  refine ⟨rfl, rfl, ?_, ?_, rfl⟩
  · unfold PenteGame.captures
    rfl
  · unfold PenteGame.captures
    rfl

/-- A concrete reachable position: White may close the trap at (5,3),
capturing the two Black stones; the round trip restores everything. -/
theorem C2_witness :
    (buildBoard [(5, 0, 1), (5, 1, 2), (5, 2, 2)]).is_valid_move 5 3 1 = true ∧
    ((((buildBoard [(5, 0, 1), (5, 1, 2), (5, 2, 2)]).make_move 5 3 1).2).undo_move 5 3).grid
      = (buildBoard [(5, 0, 1), (5, 1, 2), (5, 2, 2)]).grid :=
  ⟨by decide,
    (C2_apply_undo_round_trip (buildBoard [(5, 0, 1), (5, 1, 2), (5, 2, 2)]) 5 3 1
      (by decide) (by decide)).1⟩

/-! ## C8: validation and rejection semantics -/

/-- C8: a move is accepted iff both coordinates are in `[0, 19)` and the
target cell is empty; `make_move` returns exactly the validity verdict, and
a rejected call returns `false` and leaves the board completely unchanged. -/
theorem C8_validation_and_rejection :
    ∀ (b : PenteGame) (r c : Int) (p : Int),
      (b.is_valid_move r c p = true ↔
        (0 ≤ r ∧ r < 19 ∧ 0 ≤ c ∧ c < 19 ∧ getCell b.grid r c = EMPTY)) ∧
      ((b.make_move r c p).1 = b.is_valid_move r c p) ∧
      (b.is_valid_move r c p = false → b.make_move r c p = (false, b)) := by
  intro b r c p
  refine ⟨?_, ?_, ?_⟩
  · constructor
    · intro h
      obtain ⟨hon, he⟩ := (is_valid_move_iff b r c p).mp h
      obtain ⟨h0, h1, h2, h3⟩ := isOnBoard_iff.mp hon
      exact ⟨h0, h1, h2, h3, he⟩
    · rintro ⟨h0, h1, h2, h3, he⟩
      exact (is_valid_move_iff b r c p).mpr ⟨isOnBoard_iff.mpr ⟨h0, h1, h2, h3⟩, he⟩
  · by_cases h : b.is_valid_move r c p = true
    · rw [make_move_of_valid h, h]
    · rw [make_move_of_invalid h]
      simp only [Bool.not_eq_true] at h
      rw [h]
  · intro h
    exact make_move_of_invalid (by rw [h]; simp)

/-- Concrete rejected move: (20, 0) is out of bounds on a fresh board, and
the rejected call leaves the board unchanged. -/
theorem C8_witness :
    (initGame false).make_move 20 0 1 = (false, initGame false) :=
  (C8_validation_and_rejection (initGame false) 20 0 1).2.2 (by decide)

/-! ## C7: one history entry per apply, one pop per undo -/

/-- Boards reachable from a fresh board by accepted `make_move` calls and
LIFO-matching `undo_move` calls; `s` is the stack of moves applied and not
yet undone (most recent first). -/
inductive Reached : PenteGame → List Coord → Prop
  | init (t : Bool) : Reached (initGame t) []
  | make {b : PenteGame} {s : List Coord} {r c : Int} {p : Int} :
      Reached b s → b.is_valid_move r c p = true →
      Reached ((b.make_move r c p).2) ((r, c) :: s)
  | undo {b : PenteGame} {s : List Coord} {r c : Int} :
      Reached b ((r, c) :: s) → Reached (b.undo_move r c) s

theorem make_move_history_len {b : PenteGame} {r c : Int} {p : Int}
    (hv : b.is_valid_move r c p = true) :
    ((b.make_move r c p).2).capture_history.length
      = b.capture_history.length + 1 := by
  rw [make_move_of_valid hv]
  show ((_ : PenteGame).update_winner p).capture_history.length = _
  rw [update_winner_history, cc_history]
  simp only [List.length_cons]

theorem make_move_move_count {b : PenteGame} {r c : Int} {p : Int}
    (hv : b.is_valid_move r c p = true) :
    ((b.make_move r c p).2).move_count = b.move_count + 1 := by
  rw [make_move_of_valid hv]
  show ((_ : PenteGame).update_winner p).move_count = _
  rw [update_winner_move_count, cc_move_count]

theorem Reached.depth {b : PenteGame} {s : List Coord} (h : Reached b s) :
    b.capture_history.length = s.length ∧ b.move_count = (s.length : Int) := by
  induction h with
  | init t => exact ⟨rfl, rfl⟩
  | make hr hv ih =>
    rename_i b' s' r c p
    constructor
    · rw [make_move_history_len hv, ih.1, List.length_cons]
    · rw [make_move_move_count hv, ih.2, List.length_cons]
      push_cast
      ring
  | undo hr ih =>
    rename_i b' s' r c
    rcases hh : b'.capture_history with _ | ⟨ci, rest⟩
    · rw [hh] at ih
      simp at ih
    · have hlen : rest.length = s'.length := by
        have hx := ih.1
        rw [hh] at hx
        simpa using hx
      cases ci with
      | none =>
        rw [undo_move_none r c hh]
        refine ⟨by simpa using hlen, ?_⟩
        show b'.move_count - 1 = _
        rw [ih.2, List.length_cons]
        push_cast
        ring
      | some info =>
        rw [undo_move_some r c hh]
        constructor
        · rw [addCaptures_history]
          simpa using hlen
        · rw [addCaptures_move_count]
          show b'.move_count - 1 = _
          rw [ih.2, List.length_cons]
          push_cast
          ring

/-- C7: every accepted `make_move` pushes exactly one entry onto the capture
history, a rejected one pushes nothing (the board is unchanged), every
`undo_move` on a non-empty history pops exactly one entry, and hence on every
board built by accepted moves and LIFO-matching undos the history depth
equals `move_count`. -/
theorem C7_history_depth_invariant :
    (∀ (b : PenteGame) (r c : Int) (p : Int), b.is_valid_move r c p = true →
      ((b.make_move r c p).2).capture_history.length
        = b.capture_history.length + 1) ∧
    (∀ (b : PenteGame) (r c : Int) (p : Int), b.is_valid_move r c p = false →
      (b.make_move r c p).2 = b) ∧
    (∀ (b : PenteGame) (r c : Int), b.capture_history ≠ [] →
      ((b.undo_move r c).capture_history.length + 1
        = b.capture_history.length)) ∧
    (∀ (b : PenteGame) (s : List Coord), Reached b s →
      (b.capture_history.length : Int) = b.move_count) := by
  refine ⟨?_, ?_, ?_, ?_⟩
  · intro b r c p hv
    exact make_move_history_len hv
  · intro b r c p hv
    rw [make_move_of_invalid (by rw [hv]; simp)]
  · intro b r c hne
    rcases hh : b.capture_history with _ | ⟨ci, rest⟩
    · exact absurd hh hne
    · cases ci with
      | none =>
        rw [undo_move_none r c hh]
        simp [hh]
      | some info =>
        rw [undo_move_some r c hh, addCaptures_history]
        simp [hh]
  · intro b s h
    rw [h.depth.1, h.depth.2]

/-- Concrete instance of the depth invariant after two applies and one
matching undo. -/
theorem C7_witness :
    ((((((initGame false).make_move 9 9 1).2).make_move 9 10 2).2).undo_move
        9 10).capture_history.length
      = (((((((initGame false).make_move 9 9 1).2).make_move 9 10 2).2).undo_move
        9 10).move_count).toNat :=
  have h : Reached (((((initGame false).make_move 9 9 1).2).make_move
      9 10 2).2.undo_move 9 10) [(9, 9)] :=
    Reached.undo (Reached.make (Reached.make (Reached.init false)
      (by decide)) (by decide))
  by
    have h2 := C7_history_depth_invariant.2.2.2 _ _ h
    omega

/-! ## C3 and C10: exact capture semantics of a move -/

theorem patternCell_eq_iff {x : Coord} {d e : Int × Int} {i j : Int} :
    patternCell x d j = patternCell x e i ↔
      (j * d.1 = i * e.1 ∧ j * d.2 = i * e.2) := by
  simp [patternCell, Prod.ext_iff]

theorem signedCapDirs_scaled_pairwise :
    ∀ d ∈ signedCapDirs, ∀ e ∈ signedCapDirs, d ≠ e →
    ∀ j ∈ ([1, 2] : List Int), ∀ i ∈ ([1, 2, 3] : List Int),
    ¬(j * d.1 = i * e.1 ∧ j * d.2 = i * e.2) := by
  decide

theorem signedCapDirs_pattern_pairwise (x : Coord) :
    ∀ d ∈ signedCapDirs, ∀ e ∈ signedCapDirs, d ≠ e →
    ∀ j ∈ ([1, 2] : List Int), ∀ i ∈ ([1, 2, 3] : List Int),
    patternCell x d j ≠ patternCell x e i := by
  intro d hd e he hne j hj i hi hcc
  exact signedCapDirs_scaled_pairwise d hd e he hne j hj i hi
    (patternCell_eq_iff.mp hcc)

theorem signedCapDirs_nodup : signedCapDirs.Nodup := by decide

/-- Exact behaviour of an accepted move: the recorded capture state is the
spec-level one computed on the post-placement grid, cell by cell. -/
theorem make_move_main {b : PenteGame} {r c : Int} {p : Int}
    (hwf : WFGrid b.grid) (hv : b.is_valid_move r c p = true) :
    (∀ yr yc : Int,
      (yr, yc) ∈ capturedCells (setCell b.grid r c p) r c p signedCapDirs →
      getCell ((b.make_move r c p).2).grid yr yc = EMPTY) ∧
    (∀ yr yc : Int,
      (yr, yc) ∉ capturedCells (setCell b.grid r c p) r c p signedCapDirs →
      getCell ((b.make_move r c p).2).grid yr yc
        = getCell (setCell b.grid r c p) yr yc) ∧
    (((b.make_move r c p).2).capturesW = if p = WHITE then b.capturesW +
        ((signedCapDirs.filter (capFires (setCell b.grid r c p) r c p)).length : Int)
      else b.capturesW) ∧
    (((b.make_move r c p).2).capturesB = if p = WHITE then b.capturesB
      else b.capturesB +
        ((signedCapDirs.filter (capFires (setCell b.grid r c p) r c p)).length : Int)) := by
  obtain ⟨hob, hemp⟩ := (is_valid_move_iff b r c p).mp hv
  set bP : PenteGame :=
    { b with grid := setCell b.grid r c p
             last_move := some (r, c)
             move_count := b.move_count + 1 } with hbP
  have hwfP : WFGrid bP.grid := WFGrid_setCell hwf r c p
  have hinv : CapInv bP.grid (r, c) p (capSt bP r c p) :=
    capInv_fold signedCapDirs (bP.grid, [], 0) signedCapDirs_nonzero hob
      (capInv_init hwfP)
  have hfold := @cap_fold_fired bP.grid (r, c) p
    signedCapDirs (bP.grid, [], 0) (capInv_init hwfP)
    (fun d _ i _ => List.not_mem_nil _)
    (signedCapDirs_pattern_pairwise (r, c)) signedCapDirs_nodup
    signedCapDirs_nonzero hob
  have hstones : (capSt bP r c p).2.1
      = capturedCells (setCell b.grid r c p) r c p signedCapDirs := by
    have := hfold.1
    simpa using this
  have hcnt : (capSt bP r c p).2.2
      = (signedCapDirs.filter (capFires (setCell b.grid r c p) r c p)).length := by
    have := hfold.2
    simpa using this
  have hgrid : ((b.make_move r c p).2).grid = (capSt bP r c p).1 := by
    rw [make_move_of_valid hv]
    show ((_ : PenteGame).update_winner p).grid = _
    rw [update_winner_grid, cc_grid]
  refine ⟨?_, ?_, ?_, ?_⟩
  · intro yr yc hy
    rw [hgrid]
    rw [← hstones] at hy
    exact (hinv.cleared _ hy).1
  · intro yr yc hy
    rw [hgrid]
    rw [← hstones] at hy
    exact hinv.untouched yr yc hy
  · have hW : ((b.make_move r c p).2).capturesW =
        if 0 < (capSt bP r c p).2.2 ∧ p = WHITE then
          b.capturesW + ((capSt bP r c p).2.2 : Int)
        else b.capturesW := by
      rw [make_move_of_valid hv]
      show ((_ : PenteGame).update_winner p).capturesW = _
      rw [update_winner_capturesW, cc_capturesW]
    rw [hW]
    by_cases hp : p = WHITE
    · rw [if_pos hp]
      by_cases hK : 0 < (capSt bP r c p).2.2
      · rw [if_pos ⟨hK, hp⟩, hcnt]
      · rw [if_neg (fun hc => hK hc.1)]
        rw [← hcnt]
        omega
    · rw [if_neg hp, if_neg (fun hc => hp hc.2)]
  · have hB : ((b.make_move r c p).2).capturesB =
        if 0 < (capSt bP r c p).2.2 ∧ ¬(p = WHITE) then
          b.capturesB + ((capSt bP r c p).2.2 : Int)
        else b.capturesB := by
      rw [make_move_of_valid hv]
      show ((_ : PenteGame).update_winner p).capturesB = _
      rw [update_winner_capturesB, cc_capturesB]
    rw [hB]
    by_cases hp : p = WHITE
    · rw [if_pos hp, if_neg (fun hc => hc.2 hp)]
    · rw [if_neg hp]
      by_cases hK : 0 < (capSt bP r c p).2.2
      · rw [if_pos ⟨hK, hp⟩, hcnt]
      · rw [if_neg (fun hc => hK hc.1)]
        rw [← hcnt]
        omega

/-- C3: a legal move by `p` removes exactly the two flanked opponent stones
of every direction whose `A O O A` pattern it completes (judged on the grid
right after the stone is placed), leaves every other cell as placed, and
raises `p`'s capture tally by exactly one per qualifying direction while the
opponent's tally is untouched. -/
theorem C3_custodial_capture (b : PenteGame) (r c : Int) (p : Int)
    (hwf : WFGrid b.grid) (hp : p = WHITE ∨ p = BLACK)
    (hv : b.is_valid_move r c p = true) :
    ((b.make_move r c p).2).captures p = b.captures p +
      ((signedCapDirs.filter (capFires (setCell b.grid r c p) r c p)).length : Int) ∧
    ((b.make_move r c p).2).captures (3 - p) = b.captures (3 - p) ∧
    (∀ d ∈ signedCapDirs, capFires (setCell b.grid r c p) r c p d = true →
      getCell ((b.make_move r c p).2).grid (r + d.1) (c + d.2) = EMPTY ∧
      getCell ((b.make_move r c p).2).grid (r + 2 * d.1) (c + 2 * d.2) = EMPTY) ∧
    (∀ yr yc : Int,
      (yr, yc) ∉ capturedCells (setCell b.grid r c p) r c p signedCapDirs →
      getCell ((b.make_move r c p).2).grid yr yc
        = getCell (setCell b.grid r c p) yr yc) := by
  obtain ⟨hcl, hun, hW, hB⟩ := make_move_main hwf hv
  refine ⟨?_, ?_, ?_, hun⟩
  · rcases hp with hp | hp
    · subst hp
      show (b.make_move r c WHITE).2.capturesW = b.capturesW + _
      simpa using hW
    · subst hp
      show (b.make_move r c BLACK).2.capturesB = b.capturesB + _
      simpa [WHITE, BLACK] using hB
  · rcases hp with hp | hp
    · subst hp
      show (b.make_move r c WHITE).2.capturesB = b.capturesB
      simpa using hB
    · subst hp
      show (b.make_move r c BLACK).2.capturesW = b.capturesW
      simpa [WHITE, BLACK] using hW
  · intro d hd hfire
    constructor
    · have h1 : ((r + d.1, c + d.2) : Coord)
          ∈ capturedCells (setCell b.grid r c p) r c p signedCapDirs := by
        unfold capturedCells
        rw [List.mem_flatMap]
        refine ⟨d, hd, ?_⟩
        rw [if_pos hfire]
        simp [patternCell]
      exact hcl _ _ h1
    · have h2 : ((r + 2 * d.1, c + 2 * d.2) : Coord)
          ∈ capturedCells (setCell b.grid r c p) r c p signedCapDirs := by
        unfold capturedCells
        rw [List.mem_flatMap]
        refine ⟨d, hd, ?_⟩
        rw [if_pos hfire]
        simp [patternCell]
      exact hcl _ _ h2

/-- C10: a move never clears the mover's own stones: the played cell gets
`p`, stones of `p` elsewhere survive, and the only other cells that change
held the opponent's colour and were cleared by a capture. -/
theorem C10_no_self_capture (b : PenteGame) (r c : Int) (p : Int)
    (hwf : WFGrid b.grid) (hv : b.is_valid_move r c p = true) :
    getCell ((b.make_move r c p).2).grid r c = p ∧
    (∀ yr yc : Int, ¬(yr = r ∧ yc = c) → getCell b.grid yr yc = p →
      getCell ((b.make_move r c p).2).grid yr yc = p) ∧
    (∀ yr yc : Int,
      getCell ((b.make_move r c p).2).grid yr yc ≠ getCell b.grid yr yc →
      (yr = r ∧ yc = c ∧ getCell ((b.make_move r c p).2).grid yr yc = p) ∨
      (getCell b.grid yr yc = 3 - p ∧
        getCell ((b.make_move r c p).2).grid yr yc = EMPTY)) := by
  obtain ⟨hob, hemp⟩ := (is_valid_move_iff b r c p).mp hv
  obtain ⟨hcl, hun, _, _⟩ := make_move_main hwf hv
  set bP : PenteGame :=
    { b with grid := setCell b.grid r c p
             last_move := some (r, c)
             move_count := b.move_count + 1 } with hbP
  have hwfP : WFGrid bP.grid := WFGrid_setCell hwf r c p
  have hinv : CapInv bP.grid (r, c) p (capSt bP r c p) :=
    capInv_fold signedCapDirs (bP.grid, [], 0) signedCapDirs_nonzero hob
      (capInv_init hwfP)
  have hfold := @cap_fold_fired bP.grid (r, c) p
    signedCapDirs (bP.grid, [], 0) (capInv_init hwfP)
    (fun d _ i _ => List.not_mem_nil _)
    (signedCapDirs_pattern_pairwise (r, c)) signedCapDirs_nodup
    signedCapDirs_nonzero hob
  have hstones : (capSt bP r c p).2.1
      = capturedCells (setCell b.grid r c p) r c p signedCapDirs := by
    have := hfold.1
    simpa using this
  have hrc_notin : ((r, c) : Coord)
      ∉ capturedCells (setCell b.grid r c p) r c p signedCapDirs := by
    rw [← hstones]
    intro hmem
    exact (hinv.cleared _ hmem).2.2.1 rfl
  have hplayed : getCell ((b.make_move r c p).2).grid r c = p := by
    rw [hun r c hrc_notin]
    exact getCell_setCell_same hwf hob p
  refine ⟨hplayed, ?_, ?_⟩
  · intro yr yc hne hyp
    by_cases hmem : ((yr, yc) : Coord)
        ∈ capturedCells (setCell b.grid r c p) r c p signedCapDirs
    · exfalso
      rw [← hstones] at hmem
      have h3p : getCell bP.grid yr yc = 3 - p := (hinv.cleared _ hmem).2.1
      rw [show bP.grid = setCell b.grid r c p from rfl,
        getCell_setCell_ne _ (fun hc => hne ⟨hc.1.symm, hc.2.symm⟩)] at h3p
      rw [hyp] at h3p
      exact absurd h3p (by intro hcc; omega)
    · rw [hun yr yc hmem,
        getCell_setCell_ne _ (fun hc => hne ⟨hc.1.symm, hc.2.symm⟩)]
      exact hyp
  · intro yr yc hchanged
    by_cases hyx : yr = r ∧ yc = c
    · left
      refine ⟨hyx.1, hyx.2, ?_⟩
      rw [hyx.1, hyx.2]
      exact hplayed
    · right
      by_cases hmem : ((yr, yc) : Coord)
          ∈ capturedCells (setCell b.grid r c p) r c p signedCapDirs
      · constructor
        · rw [← hstones] at hmem
          have h3p : getCell bP.grid yr yc = 3 - p := (hinv.cleared _ hmem).2.1
          rw [show bP.grid = setCell b.grid r c p from rfl,
            getCell_setCell_ne _ (fun hc => hyx ⟨hc.1.symm, hc.2.symm⟩)] at h3p
          exact h3p
        · exact hcl yr yc hmem
      · exfalso
        apply hchanged
        rw [hun yr yc hmem,
          getCell_setCell_ne _ (fun hc => hyx ⟨hc.1.symm, hc.2.symm⟩)]

/-- A capture in play: White closes the `W B B W` trap on row 5 and gains
exactly one pair. -/
theorem C3_witness :
    (((buildBoard [(5, 0, 1), (5, 1, 2), (5, 2, 2)]).make_move 5 3 1).2).captures 1
      = (buildBoard [(5, 0, 1), (5, 1, 2), (5, 2, 2)]).captures 1 +
        ((signedCapDirs.filter
          (capFires (setCell (buildBoard [(5, 0, 1), (5, 1, 2), (5, 2, 2)]).grid 5 3 1)
            5 3 1)).length : Int) :=
  (C3_custodial_capture (buildBoard [(5, 0, 1), (5, 1, 2), (5, 2, 2)]) 5 3 1
    (by decide) (Or.inl rfl) (by decide)).1

/-- No self-capture: White plays into the middle of a Black flanking pair
(`B W W B`) and its earlier stone at (5,1) survives. -/
theorem C10_witness :
    getCell (((buildBoard [(5, 0, 2), (5, 1, 1), (5, 3, 2)]).make_move 5 2 1).2).grid 5 1 = 1 :=
  (C10_no_self_capture (buildBoard [(5, 0, 2), (5, 1, 1), (5, 3, 2)]) 5 2 1
    (by decide) (by decide)).2.1 5 1 (by decide) (by decide)

/-! ## C6: five-in-a-row detection -/

theorem mem_allCells {a bq : Int} (h0 : 0 ≤ a) (h1 : a < 19) (h2 : 0 ≤ bq)
    (h3 : bq < 19) : (a, bq) ∈ allCells := by
  unfold allCells
  rw [List.mem_flatMap]
  refine ⟨a.toNat, by rw [List.mem_range]; omega, ?_⟩
  rw [List.mem_map]
  refine ⟨bq.toNat, by rw [List.mem_range]; omega, ?_⟩
  rw [Prod.ext_iff]
  constructor
  · simp [Int.toNat_of_nonneg h0]
  · simp [Int.toNat_of_nonneg h2]

theorem seqCells_length (r c dr dc : Int) : (seqCells r c dr dc).length = 4 := by
  simp [seqCells]

theorem runFrom_length_le (g : Grid) (p r c dr dc : Int) :
    (runFrom g p r c dr dc).length ≤ 5 := by
  unfold runFrom
  rw [List.length_cons]
  have hp : (seqCells r c dr dc).takeWhile
      (fun z => isOnBoard z.1 z.2 && decide (getCell g z.1 z.2 = p))
      <+: seqCells r c dr dc := List.takeWhile_prefix _
  have h := hp.length_le
  rw [seqCells_length] at h
  omega

theorem runFrom_full {g : Grid} {p r c dr dc : Int}
    (h : ∀ i : Nat, i < 5 → isOnBoard (r + dr * i) (c + dc * i) = true ∧
      getCell g (r + dr * i) (c + dc * i) = p) :
    runFrom g p r c dr dc = (r, c) :: seqCells r c dr dc := by
  unfold runFrom
  congr 1
  apply List.takeWhile_eq_self_iff.mpr
  intro z hz
  unfold seqCells at hz
  rw [List.mem_map] at hz
  obtain ⟨i, hi, hzi⟩ := hz
  rw [List.mem_range] at hi
  have hcast : ((i : Int) + 1) = ((i + 1 : Nat) : Int) := by push_cast; ring
  have := h (i + 1) (by omega)
  rw [← hzi]
  simp only [hcast]
  rw [Bool.and_eq_true, decide_eq_true_eq]
  exact ⟨this.1, this.2⟩

theorem runFrom_of_five {g : Grid} {p r c dr dc : Int}
    (h : 5 ≤ (runFrom g p r c dr dc).length) :
    runFrom g p r c dr dc = (r, c) :: seqCells r c dr dc := by
  unfold runFrom at h ⊢
  congr 1
  have hpre : (seqCells r c dr dc).takeWhile
      (fun z => isOnBoard z.1 z.2 && decide (getCell g z.1 z.2 = p))
      <+: seqCells r c dr dc := List.takeWhile_prefix _
  apply hpre.eq_of_length
  have hle := hpre.length_le
  rw [List.length_cons] at h
  rw [seqCells_length] at hle ⊢
  omega

theorem runFrom_cells {g : Grid} {p r c dr dc : Int}
    (hhead : getCell g r c = p) :
    ∀ z ∈ runFrom g p r c dr dc, getCell g z.1 z.2 = p := by
  intro z hz
  unfold runFrom at hz
  rcases List.mem_cons.mp hz with hz | hz
  · rw [hz]
    exact hhead
  · have := List.mem_takeWhile_imp hz
    rw [Bool.and_eq_true, decide_eq_true_eq] at this
    exact this.2

theorem findWin_some_spec {g : Grid} {p : Int} {s : List Coord}
    (h : findWin g p = some s) :
    ∃ a bq dr dc : Int, ((dr, dc) ∈ win_directions) ∧ getCell g a bq = p ∧
      s = runFrom g p a bq dr dc ∧ 5 ≤ s.length := by
  obtain ⟨z, hz, hfz⟩ := List.exists_of_findSome?_eq_some h
  by_cases hc : getCell g z.1 z.2 = p
  · rw [if_pos hc] at hfz
    obtain ⟨d, hd, hfd⟩ := List.exists_of_findSome?_eq_some hfz
    by_cases hlen : 5 ≤ (runFrom g p z.1 z.2 d.1 d.2).length
    · rw [if_pos hlen] at hfd
      obtain rfl : runFrom g p z.1 z.2 d.1 d.2 = s := by
        injection hfd
      exact ⟨z.1, z.2, d.1, d.2, by simpa using hd, hc, rfl, hlen⟩
    · rw [if_neg hlen] at hfd
      cases hfd
  · rw [if_neg hc] at hfz
    cases hfz

theorem findWin_isSome_of_run {g : Grid} {p a bq dr dc : Int}
    (hd : (dr, dc) ∈ win_directions)
    (hrun : ∀ i : Nat, i < 5 → isOnBoard (a + dr * i) (bq + dc * i) = true ∧
      getCell g (a + dr * i) (bq + dc * i) = p) :
    ∃ s, findWin g p = some s := by
  cases hf : findWin g p with
  | some s => exact ⟨s, rfl⟩
  | none =>
    exfalso
    have h0 := hrun 0 (by omega)
    simp only [Nat.cast_zero, mul_zero, add_zero] at h0
    obtain ⟨hob0, hcell0⟩ := h0
    obtain ⟨ha0, ha1, hb0, hb1⟩ := isOnBoard_iff.mp hob0
    have hmem : ((a, bq) : Coord) ∈ allCells := mem_allCells ha0 ha1 hb0 hb1
    have hnone := List.findSome?_eq_none_iff.mp hf (a, bq) hmem
    rw [if_pos hcell0] at hnone
    have hdir := List.findSome?_eq_none_iff.mp hnone (dr, dc) hd
    have hfull : runFrom g p a bq dr dc = (a, bq) :: seqCells a bq dr dc :=
      runFrom_full hrun
    have hlen : 5 ≤ (runFrom g p a bq dr dc).length := by
      rw [hfull, List.length_cons, seqCells_length]
    rw [if_pos hlen] at hdir
    cases hdir

theorem update_winner_captures (b : PenteGame) (p q : Int) :
    (b.update_winner p).captures q = b.captures q := by
  by_cases hq : q = WHITE <;>
    simp [PenteGame.captures, hq, update_winner_capturesW, update_winner_capturesB]

theorem update_winner_high_caps {b : PenteGame} {p : Int}
    (hc : 5 ≤ b.captures p) : b.update_winner p = { b with winner := some p } := by
  unfold PenteGame.update_winner
  rw [if_pos hc]

theorem update_winner_low_caps {b : PenteGame} {p : Int} {s : List Coord}
    (hc : ¬ 5 ≤ b.captures p) (hf : findWin b.grid p = some s) :
    b.update_winner p = { b with winner := some p, winning_sequence := s } := by
  unfold PenteGame.update_winner
  rw [if_neg hc, hf]

theorem update_winner_no_win {b : PenteGame} {p : Int}
    (hc : ¬ 5 ≤ b.captures p) (hf : findWin b.grid p = none) :
    b.update_winner p = b := by
  unfold PenteGame.update_winner
  rw [if_neg hc, hf]

/-- C6 (amended): a legal move that leaves five consecutive own-colour
stones along one of the four scan directions always sets `winner` to the
mover; and whenever the mover's post-move capture tally is below 5 (so the
capture-win branch did not fire first) `winning_sequence` is set to the
first run found in scan order: five aligned consecutive cells, all holding
the mover's colour. -/
theorem C6_five_in_a_row (b : PenteGame) (r c : Int) (p : Int)
    (hv : b.is_valid_move r c p = true) (a bq dr dc : Int)
    (hd : (dr, dc) ∈ win_directions)
    (hrun : ∀ i : Nat, i < 5 →
      isOnBoard (a + dr * i) (bq + dc * i) = true ∧
      getCell ((b.make_move r c p).2).grid (a + dr * i) (bq + dc * i) = p) :
    ((b.make_move r c p).2).winner = some p ∧
    (¬ 5 ≤ ((b.make_move r c p).2).captures p →
      ∃ a' bq' dr' dc' : Int, ((dr', dc') ∈ win_directions) ∧
        ((b.make_move r c p).2).winning_sequence
          = (a', bq') :: seqCells a' bq' dr' dc' ∧
        ((b.make_move r c p).2).winning_sequence.length = 5 ∧
        ∀ z ∈ ((b.make_move r c p).2).winning_sequence,
          getCell ((b.make_move r c p).2).grid z.1 z.2 = p) := by
  rw [make_move_of_valid hv] at hrun ⊢
  set b2 : PenteGame :=
    ({ b with grid := setCell b.grid r c p
              last_move := some (r, c)
              move_count := b.move_count + 1 }).check_and_capture r c p with hb2
  show ((b2.update_winner p).winner = some p ∧ _)
  have hgrid : (b2.update_winner p).grid = b2.grid := update_winner_grid b2 p
  have hrunb2 : ∀ i : Nat, i < 5 →
      isOnBoard (a + dr * i) (bq + dc * i) = true ∧
      getCell b2.grid (a + dr * i) (bq + dc * i) = p := by
    intro i hi
    have := hrun i hi
    rwa [show ((true, b2.update_winner p).2) = b2.update_winner p from rfl,
      hgrid] at this
  by_cases hcap : 5 ≤ b2.captures p
  · rw [update_winner_high_caps hcap]
    refine ⟨rfl, ?_⟩
    intro hc
    exfalso
    apply hc
    show 5 ≤ ({ b2 with winner := some p } : PenteGame).captures p
    have : ({ b2 with winner := some p } : PenteGame).captures p
        = b2.captures p := by
      by_cases hq : p = WHITE <;> simp [PenteGame.captures, hq]
    rw [this]
    exact hcap
  · obtain ⟨s, hf⟩ := findWin_isSome_of_run hd hrunb2
    obtain ⟨a', bq', dr', dc', hd', hcell', hs, hlen⟩ := findWin_some_spec hf
    rw [update_winner_low_caps hcap hf]
    refine ⟨rfl, ?_⟩
    intro _
    refine ⟨a', bq', dr', dc', hd', ?_, ?_, ?_⟩
    · show s = _
      rw [hs]
      exact runFrom_of_five (hs ▸ hlen)
    · show s.length = 5
      rw [hs, runFrom_of_five (hs ▸ hlen), List.length_cons, seqCells_length]
    · intro z hz
      show getCell b2.grid z.1 z.2 = p
      rw [hs] at hz
      exact runFrom_cells hcell' z hz

/-- An ordinary five-in-a-row win: completing (0,0)..(0,4) sets the winner. -/
theorem C6_witness :
    (((buildBoard [(0, 0, 1), (0, 1, 1), (0, 2, 1), (0, 3, 1)]).make_move 0 4 1).2).winner
      = some 1 :=
  (C6_five_in_a_row (buildBoard [(0, 0, 1), (0, 1, 1), (0, 2, 1), (0, 3, 1)])
    0 4 1 (by decide) 0 0 0 1 (by decide) (by decide)).1

/-- A legal game in which White's final stone simultaneously completes a
five-in-a-row on row 0 and makes the fifth capture: four capture sites are
built and closed, four stones are laid on row 0, and the last move (0,4)
both finishes the row and captures the pair (1,4),(2,4). -/
def c6Moves : List (Int × Int × Int) :=
  [(5, 0, 1), (5, 1, 2), (5, 2, 2), (5, 3, 1),
   (8, 0, 1), (8, 1, 2), (8, 2, 2), (8, 3, 1),
   (11, 0, 1), (11, 1, 2), (11, 2, 2), (11, 3, 1),
   (14, 0, 1), (14, 1, 2), (14, 2, 2), (14, 3, 1),
   (0, 0, 1), (0, 1, 1), (0, 2, 1), (0, 3, 1),
   (1, 4, 2), (2, 4, 2), (3, 4, 1), (0, 4, 1)]

/-- C6 as stated is false: after this legal sequence the board has five
consecutive White stones on row 0 and `winner = WHITE`, but
`winning_sequence` is empty (length 0, not ≥ 5), because the capture-count
branch of `update_winner` returns before the run scan can record the
sequence. -/
theorem C6_counterexample :
    (playAll c6Moves (initGame false)).isSome = true ∧
    (∀ j : Nat, j < 5 → getCell (buildBoard c6Moves).grid 0 (j : Int) = 1) ∧
    (buildBoard c6Moves).winner = some 1 ∧
    (buildBoard c6Moves).winning_sequence = [] := by
  refine ⟨by decide, by decide, by decide, by decide⟩

/-! ## The search engine (ai_engine.py)

Python floats (with `math.inf` as the initial alpha/beta window) are
modelled by `WithBot (WithTop ℚ)`: finite scores are exact rationals — the
heuristic weights 1.5, 0.8, 1.2 are idealised as the exact rationals 3/2,
4/5, 6/5 — and `⊥`/`⊤` stand for `-inf`/`+inf`.  The mutable
`nodes_explored` counter is modelled by returning the number of recursive
search calls performed in the subtree (the source increments the counter
once at each entry of `_minimax_recursive`/`_alphabeta_recursive`).  The
shared mutable board is threaded: each loop iteration applies the move,
recurses (obtaining the board the recursion left behind), and undoes it. -/

abbrev V := WithBot (WithTop ℚ)

def qv (q : ℚ) : V := ((q : WithTop ℚ) : V)

def WIN_SCORE : ℚ := 10000000

def OPEN_FOUR : ℚ := 100000

def CLOSED_FOUR : ℚ := 50000

def OPEN_THREE : ℚ := 10000

def CLOSED_THREE : ℚ := 1000

def OPEN_TWO : ℚ := 100

def CAPTURE_SCORE : ℚ := 50000

/-- The AI configuration (`PenteAI.__init__`). -/
structure PenteAI where
  mode : String
  player_color : Int
  opponent_color : Int
  depth : Nat

/-- `PenteAI.__init__` sets `opponent_color = 3 - player_color`. -/
def PenteAI.init (mode : String) (player_color : Int) (depth : Nat) : PenteAI :=
  ⟨mode, player_color, 3 - player_color, depth⟩

/-- `PenteAI._score_sequence`: the contiguous run length from `(r, c)` along
`(dr, dc)` (up to 5; the `gaps` counter in the source is dead code since the
loop breaks immediately), endpoint openness, and the score table. -/
def score_sequence (g : Grid) (r c dr dc : Int) (p : Int) : ℚ :=
  let len : Nat :=
    (((List.range 5).map fun (i : Nat) =>
        (r + dr * (i : Int), c + dc * (i : Int))).takeWhile
      (fun z => isOnBoard z.1 z.2 && decide (getCell g z.1 z.2 = p))).length
  let open_start : Bool :=
    isOnBoard (r - dr) (c - dc) && decide (getCell g (r - dr) (c - dc) = EMPTY)
  let open_end : Bool :=
    isOnBoard (r + dr * (len : Int)) (c + dc * (len : Int)) &&
      decide (getCell g (r + dr * (len : Int)) (c + dc * (len : Int)) = EMPTY)
  if len = 5 then WIN_SCORE
  else if len = 4 then
    (if open_start && open_end then OPEN_FOUR
     else if open_start || open_end then CLOSED_FOUR else 0)
  else if len = 3 then
    (if open_start && open_end then OPEN_THREE
     else if open_start || open_end then CLOSED_THREE else 0)
  else if len = 2 then
    (if open_start && open_end then OPEN_TWO else 0)
  else 0

/-- `PenteAI._evaluate_patterns` (its `directions` list coincides with
`win_directions`). -/
def evaluate_patterns (g : Grid) (p : Int) : ℚ :=
  allCells.foldl
    (fun s z =>
      if getCell g z.1 z.2 = p then
        win_directions.foldl
          (fun s2 d =>
            let pr := z.1 - d.1
            let pc0 := z.2 - d.2
            if isOnBoard pr pc0 && decide (getCell g pr pc0 = p) then s2
            else s2 + score_sequence g z.1 z.2 d.1 d.2 p)
          s
      else s)
    0

/-- `PenteAI.heuristic_1` (weights 1.5 and 0.8 idealised as exact
rationals). -/
def heuristic_1 (b : PenteGame) (p : Int) : ℚ :=
  ((b.captures p - b.captures (3 - p) : Int) : ℚ) * CAPTURE_SCORE
    + (3 / 2 : ℚ) * evaluate_patterns b.grid p
    - (4 / 5 : ℚ) * evaluate_patterns b.grid (3 - p)

/-- The centre-control loop of `heuristic_2`. -/
def centrality (g : Grid) (p : Int) : ℚ :=
  allCells.foldl
    (fun s z =>
      if getCell g z.1 z.2 = p then
        s + ((20 - (|z.1 - BOARD_SIZE / 2| + |z.2 - BOARD_SIZE / 2|) : Int) : ℚ)
      else s)
    0

/-- `PenteAI.heuristic_2` (`CAPTURE_SCORE // 2 = 25000` is exact; the
weights 1.0 and 1.2 idealised as exact rationals). -/
def heuristic_2 (b : PenteGame) (p : Int) : ℚ :=
  if b.winner = some p then WIN_SCORE
  else if b.winner = some (3 - p) then -WIN_SCORE
  else
    ((b.captures p - b.captures (3 - p) : Int) : ℚ) * (CAPTURE_SCORE / 2)
      + centrality b.grid p
      + 1 * evaluate_patterns b.grid p
      - (6 / 5 : ℚ) * evaluate_patterns b.grid (3 - p)

/-- The candidate loop of `_minimax_recursive`.  `child` runs the recursion
one ply deeper and reports (value, nodes explored, board left behind); the
loop threads the shared board through each apply/undo pair and keeps the
strictly-better value and move. -/
def mmLoop (child : PenteGame → V × Nat × PenteGame) (mover : Int)
    (maxi : Bool) :
    List Coord → PenteGame → V → Option Coord → Nat →
      V × Option Coord × Nat × PenteGame
  | [], b, best, bm, n => (best, bm, n, b)
  | z :: rest, b, best, bm, n =>
    let bChild := (b.make_move z.1 z.2 mover).2
    let res := child bChild
    let b' := res.2.2.undo_move z.1 z.2
    if (if maxi then best < res.1 else res.1 < best) then
      mmLoop child mover maxi rest b' res.1 (some z) (n + res.2.1)
    else
      mmLoop child mover maxi rest b' best bm (n + res.2.1)

/-- `PenteAI._minimax_recursive`, returning (value, best move, nodes
explored in this subtree, board left behind). -/
def mmRec (h : PenteGame → ℚ) (pc : Int) (d : Nat) (b : PenteGame)
    (maxi : Bool) : V × Option Coord × Nat × PenteGame :=
  if b.winner = some pc then (qv WIN_SCORE, none, 1, b)
  else if b.winner = some (3 - pc) then (qv (-WIN_SCORE), none, 1, b)
  else
    match d with
    | 0 => (qv (h b), none, 1, b)
    | d' + 1 =>
      match smartCandidates b with
      | [] => (qv 0, none, 1, b)
      | z0 :: zs =>
        let mover := if maxi then pc else 3 - pc
        let child := fun bb =>
          let rres := mmRec h pc d' bb (!maxi)
          (rres.1, rres.2.2.1, rres.2.2.2)
        let lres := mmLoop child mover maxi (z0 :: zs) b
          (if maxi then (⊥ : V) else (⊤ : V)) (some z0) 0
        (lres.1, lres.2.1, 1 + lres.2.2.1, lres.2.2.2)

/-- The candidate loop of `_alphabeta_recursive`: same shape as `mmLoop`
with the `alpha`/`beta` bounds threaded and the `beta <= alpha` cutoff
taken after updating the bound with the child's value. -/
def abLoop (child : PenteGame → V → V → V × Nat × PenteGame) (mover : Int)
    (maxi : Bool) :
    List Coord → PenteGame → V → V → V → Option Coord → Nat →
      V × Option Coord × Nat × PenteGame
  | [], b, _, _, best, bm, n => (best, bm, n, b)
  | z :: rest, b, alpha, beta, best, bm, n =>
    let bChild := (b.make_move z.1 z.2 mover).2
    let res := child bChild alpha beta
    let b' := res.2.2.undo_move z.1 z.2
    let best' := if (if maxi then best < res.1 else res.1 < best) then res.1 else best
    let bm' := if (if maxi then best < res.1 else res.1 < best) then some z else bm
    let alpha' := if maxi then max alpha res.1 else alpha
    let beta' := if maxi then beta else min beta res.1
    if beta' ≤ alpha' then (best', bm', n + res.2.1, b')
    else abLoop child mover maxi rest b' alpha' beta' best' bm' (n + res.2.1)

/-- `PenteAI._alphabeta_recursive`. -/
def abRec (h : PenteGame → ℚ) (pc : Int) (d : Nat) (b : PenteGame)
    (alpha beta : V) (maxi : Bool) : V × Option Coord × Nat × PenteGame :=
  if b.winner = some pc then (qv WIN_SCORE, none, 1, b)
  else if b.winner = some (3 - pc) then (qv (-WIN_SCORE), none, 1, b)
  else
    match d with
    | 0 => (qv (h b), none, 1, b)
    | d' + 1 =>
      match smartCandidates b with
      | [] => (qv 0, none, 1, b)
      | z0 :: zs =>
        let mover := if maxi then pc else 3 - pc
        let child := fun bb a bt =>
          let rres := abRec h pc d' bb a bt (!maxi)
          (rres.1, rres.2.2.1, rres.2.2.2)
        let lres := abLoop child mover maxi (z0 :: zs) b alpha beta
          (if maxi then (⊥ : V) else (⊤ : V)) (some z0) 0
        (lres.1, lres.2.1, 1 + lres.2.2.1, lres.2.2.2)

/-- One scan phase of `_find_immediate_forced_move`: simulate `color`
playing each candidate, return the first that makes `color` the winner
(after undoing it); the board is threaded through every apply/undo pair. -/
def forcedPhase (color : Int) :
    List Coord → PenteGame → Option Coord × PenteGame
  | [], b => (none, b)
  | z :: rest, b =>
    let b1 := (b.make_move z.1 z.2 color).2
    if b1.winner = some color then (some z, b1.undo_move z.1 z.2)
    else forcedPhase color rest (b1.undo_move z.1 z.2)

/-- `PenteAI._find_immediate_forced_move`: the candidate list is computed
once and used by both phases (own immediate win first, then blocking the
opponent's immediate win). -/
def findForcedMove (ai : PenteAI) (b : PenteGame) :
    Option Coord × PenteGame :=
  let cands := smartCandidates b
  match forcedPhase ai.player_color cands b with
  | (some z, b') => (some z, b')
  | (none, b') => forcedPhase ai.opponent_color cands b'

/-- `PenteAI.get_best_move`, returning the chosen move together with the
board the search leaves behind.  A found forced move (a nonempty Python
tuple, hence always truthy) is returned immediately; otherwise the
configured search runs, with `alphabeta_h2` as the fallback for unknown
mode strings. -/
def PenteAI.get_best_move (ai : PenteAI) (b : PenteGame) :
    Option Coord × PenteGame :=
  match findForcedMove ai b with
  | (some z, b') => (some z, b')
  | (none, b') =>
    if ai.mode = "minimax_h1" then
      let rres := mmRec (fun bb => heuristic_1 bb ai.player_color)
        ai.player_color ai.depth b' true
      (rres.2.1, rres.2.2.2)
    else if ai.mode = "minimax_h2" then
      let rres := mmRec (fun bb => heuristic_2 bb ai.player_color)
        ai.player_color ai.depth b' true
      (rres.2.1, rres.2.2.2)
    else if ai.mode = "alphabeta_h1" then
      let rres := abRec (fun bb => heuristic_1 bb ai.player_color)
        ai.player_color ai.depth b' ⊥ ⊤ true
      (rres.2.1, rres.2.2.2)
    else
      let rres := abRec (fun bb => heuristic_2 bb ai.player_color)
        ai.player_color ai.depth b' ⊥ ⊤ true
      (rres.2.1, rres.2.2.2)

/-! ## C4: the one-ply forced-move short-circuit -/

theorem foldl_invariant {α σ : Type _} (P : σ → Prop) (f : σ → α → σ) :
    ∀ (l : List α) (s : σ), P s → (∀ s a, P s → P (f s a)) → P (l.foldl f s)
  | [], s, h, _ => h
  | a :: l, s, h, hs => foldl_invariant P f l (f s a) (hs s a h) hs

/-- On a non-empty board every smart candidate is an on-board empty cell. -/
theorem smartCandidates_good {b : PenteGame} (hmc : ¬ b.move_count = 0) :
    ∀ z ∈ smartCandidates b,
      isOnBoard z.1 z.2 = true ∧ getCell b.grid z.1 z.2 = EMPTY := by
  unfold smartCandidates
  rw [if_neg hmc]
  exact foldl_invariant
    (fun acc => ∀ z ∈ acc,
      isOnBoard z.1 z.2 = true ∧ getCell b.grid z.1 z.2 = EMPTY)
    (candStep b) allCells []
    (fun z hz => absurd hz (List.not_mem_nil z))
    (fun acc w hacc => by
      unfold candStep
      split
      · exact foldl_invariant
          (fun acc2 => ∀ z ∈ acc2,
            isOnBoard z.1 z.2 = true ∧ getCell b.grid z.1 z.2 = EMPTY)
          (neighStep b w) neighborOffsets acc hacc
          (fun acc2 d hacc2 => by
            unfold neighStep
            by_cases hd : (isOnBoard (w.1 + d.1) (w.2 + d.2) &&
                decide (getCell b.grid (w.1 + d.1) (w.2 + d.2) = EMPTY)) = true
            · rw [if_pos hd]
              unfold addCandidate
              split
              · exact hacc2
              · intro z hz
                rcases List.mem_append.mp hz with hz | hz
                · exact hacc2 z hz
                · rw [List.mem_singleton] at hz
                  subst hz
                  rw [Bool.and_eq_true, decide_eq_true_eq] at hd
                  exact hd
            · rw [if_neg hd]
              exact hacc2)
      · exact hacc)

/-- Every smart candidate is a legal move (in the empty-board case because
the winning-candidate assumption forces the centre cell to be empty). -/
theorem smartCandidates_valid {b : PenteGame} {p : Int}
    (hex : ∃ z ∈ smartCandidates b,
      ((b.make_move z.1 z.2 p).2).winner = some p)
    (hw : b.winner = none) :
    ∀ z ∈ smartCandidates b, b.is_valid_move z.1 z.2 p = true := by
  by_cases hmc : b.move_count = 0
  · have hcands : smartCandidates b = [(9, 9)] := by
      unfold smartCandidates
      rw [if_pos hmc]
    intro z hz
    rw [hcands, List.mem_singleton] at hz
    subst hz
    by_cases hv : b.is_valid_move 9 9 p = true
    · exact hv
    · exfalso
      obtain ⟨z0, hz0, hwin⟩ := hex
      rw [hcands, List.mem_singleton] at hz0
      subst hz0
      have hwin' : ((b.make_move 9 9 p).2).winner = some p := hwin
      rw [make_move_of_invalid hv] at hwin'
      have : b.winner = some p := hwin'
      rw [hw] at this
      cases this
  · intro z hz
    obtain ⟨hob, hemp⟩ := smartCandidates_good hmc z hz
    exact (is_valid_move_iff b z.1 z.2 p).mpr ⟨hob, hemp⟩

/-- `make_move` does not read `last_move`: overwriting it first changes
nothing about an accepted move. -/
theorem make_move_last_irrelevant {b : PenteGame} {r c : Int} {p : Int}
    (hv : b.is_valid_move r c p = true) (l : Option Coord) :
    ({ b with last_move := l } : PenteGame).make_move r c p
      = b.make_move r c p := by
  have hv' : ({ b with last_move := l } : PenteGame).is_valid_move r c p = true := hv
  rw [make_move_of_valid hv', make_move_of_valid hv]

/-- The win-scan phase of the forced-move check: if some candidate wins on
the spot for `p`, the phase returns the first such candidate. -/
theorem forcedPhase_finds {p : Int} :
    ∀ (cands : List Coord) (b : PenteGame),
    WFGrid b.grid → b.winner = none → b.winning_sequence = [] →
    (∀ z ∈ cands, b.is_valid_move z.1 z.2 p = true) →
    (∃ z ∈ cands, ((b.make_move z.1 z.2 p).2).winner = some p) →
    ∃ z, (forcedPhase p cands b).1 = some z ∧ z ∈ cands ∧
      ((b.make_move z.1 z.2 p).2).winner = some p
  | [], b, _, _, _, _, hex => by
    obtain ⟨z, hz, _⟩ := hex
    exact absurd hz (List.not_mem_nil z)
  | z :: rest, b, hwf, hw, hws, hv, hex => by
    unfold forcedPhase
    by_cases hwin : ((b.make_move z.1 z.2 p).2).winner = some p
    · rw [if_pos hwin]
      exact ⟨z, rfl, List.mem_cons_self z rest, hwin⟩
    · rw [if_neg hwin]
      have hvz := hv z (List.mem_cons_self z rest)
      have hundo : ((b.make_move z.1 z.2 p).2).undo_move z.1 z.2
          = { b with last_move := some (z.1, z.2) } := round_trip hwf hvz hw hws
      rw [hundo]
      have hex' : ∃ w ∈ rest,
          ((({ b with last_move := some (z.1, z.2) } : PenteGame).make_move
            w.1 w.2 p).2).winner = some p := by
        obtain ⟨w, hwmem, hwwin⟩ := hex
        rcases List.mem_cons.mp hwmem with hwz | hwmem'
        · exfalso
          subst hwz
          exact hwin hwwin
        · refine ⟨w, hwmem', ?_⟩
          rw [make_move_last_irrelevant (hv w hwmem) (some (z.1, z.2))]
          exact hwwin
      have hv' : ∀ w ∈ rest,
          ({ b with last_move := some (z.1, z.2) } : PenteGame).is_valid_move
            w.1 w.2 p = true :=
        fun w hwm => hv w (List.mem_cons_of_mem _ hwm)
      obtain ⟨w, hw1, hw2, hw3⟩ := forcedPhase_finds rest
        { b with last_move := some (z.1, z.2) } hwf hw hws hv' hex'
      refine ⟨w, hw1, List.mem_cons_of_mem _ hw2, ?_⟩
      rwa [make_move_last_irrelevant (hv w (List.mem_cons_of_mem _ hw2))
        (some (z.1, z.2))] at hw3

/-- C4: whenever some smart candidate gives the searching colour an
immediate win, `get_best_move` returns such a winning candidate — for every
mode string and every depth, because the forced-move scan runs before any
deeper search. -/
theorem C4_immediate_win_found (ai : PenteAI) (b : PenteGame)
    (hwf : WFGrid b.grid) (hw : b.winner = none)
    (hws : b.winning_sequence = [])
    (hex : ∃ z ∈ smartCandidates b,
      ((b.make_move z.1 z.2 ai.player_color).2).winner
        = some ai.player_color) :
    ∃ z, (ai.get_best_move b).1 = some z ∧ z ∈ smartCandidates b ∧
      ((b.make_move z.1 z.2 ai.player_color).2).winner
        = some ai.player_color := by
  have hv := smartCandidates_valid hex hw
  obtain ⟨z, hz1, hz2, hz3⟩ := forcedPhase_finds (smartCandidates b) b
    hwf hw hws hv hex
  rcases hph : forcedPhase ai.player_color (smartCandidates b) b with ⟨mres, bres⟩
  rw [hph] at hz1
  simp only at hz1
  subst hz1
  refine ⟨z, ?_, hz2, hz3⟩
  simp only [PenteAI.get_best_move, findForcedMove]
  rw [hph]

/-- Concrete forced win: White has an open four on row 9; whatever the
configured mode and depth, `get_best_move` returns a move that wins on the
spot. -/
theorem C4_witness :
    ∃ z, ((PenteAI.init "minimax_h2" 1 2).get_best_move
        (buildBoard [(9, 5, 1), (9, 6, 1), (9, 7, 1), (9, 8, 1)])).1 = some z ∧
      z ∈ smartCandidates (buildBoard [(9, 5, 1), (9, 6, 1), (9, 7, 1), (9, 8, 1)]) ∧
      (((buildBoard [(9, 5, 1), (9, 6, 1), (9, 7, 1), (9, 8, 1)]).make_move z.1 z.2
          (PenteAI.init "minimax_h2" 1 2).player_color).2).winner
        = some (PenteAI.init "minimax_h2" 1 2).player_color :=
  C4_immediate_win_found (PenteAI.init "minimax_h2" 1 2)
    (buildBoard [(9, 5, 1), (9, 6, 1), (9, 7, 1), (9, 8, 1)])
    (by decide) (by decide) (by decide) (by decide)

/-! ## C1: board restoration across a whole `get_best_move` call -/

/-- Conditions under which the search machinery is well-behaved: a
well-formed grid, a non-negative move counter whose zero case has the
centre cell free (so the lone centre candidate is playable), a winner drawn
from the two real colours, and an empty winning sequence while the game is
undecided. -/
def SearchOK (b : PenteGame) : Prop :=
  WFGrid b.grid ∧ 0 ≤ b.move_count ∧
  (b.move_count = 0 → getCell b.grid 9 9 = EMPTY) ∧
  (b.winner = none ∨ b.winner = some 1 ∨ b.winner = some 2) ∧
  (b.winner = none → b.winning_sequence = [])

theorem update_winner_cases (b : PenteGame) (p : Int) :
    b.update_winner p = { b with winner := some p } ∨
    (∃ s, b.update_winner p = { b with winner := some p, winning_sequence := s }) ∨
    b.update_winner p = b := by
  unfold PenteGame.update_winner
  split
  · exact Or.inl rfl
  · cases hf : findWin b.grid p with
    | some s => exact Or.inr (Or.inl ⟨s, rfl⟩)
    | none => exact Or.inr (Or.inr rfl)

theorem make_move_WF {b : PenteGame} {r c : Int} {p : Int}
    (hwf : WFGrid b.grid) (hv : b.is_valid_move r c p = true) :
    WFGrid ((b.make_move r c p).2).grid := by
  obtain ⟨hob, _⟩ := (is_valid_move_iff b r c p).mp hv
  set bP : PenteGame :=
    { b with grid := setCell b.grid r c p
             last_move := some (r, c)
             move_count := b.move_count + 1 } with hbP
  have hinv : CapInv bP.grid (r, c) p (capSt bP r c p) :=
    capInv_fold signedCapDirs (bP.grid, [], 0) signedCapDirs_nonzero hob
      (capInv_init (WFGrid_setCell hwf r c p))
  have hgrid : ((b.make_move r c p).2).grid = (capSt bP r c p).1 := by
    rw [make_move_of_valid hv]
    show ((_ : PenteGame).update_winner p).grid = _
    rw [update_winner_grid, cc_grid]
  rw [hgrid]
  exact hinv.wf

theorem make_move_winner_none {b : PenteGame} {r c : Int} {p : Int}
    (hv : b.is_valid_move r c p = true) :
    ((b.make_move r c p).2).winner = some p ∨
    (((b.make_move r c p).2).winner = b.winner ∧
      ((b.make_move r c p).2).winning_sequence = b.winning_sequence) := by
  rw [make_move_of_valid hv]
  show ((_ : PenteGame).update_winner p).winner = some p ∨ _
  set b2 : PenteGame :=
    ({ b with grid := setCell b.grid r c p
              last_move := some (r, c)
              move_count := b.move_count + 1 }).check_and_capture r c p with hb2
  rcases update_winner_cases b2 p with hcase | ⟨s, hcase⟩ | hcase
  · rw [hcase]
    exact Or.inl rfl
  · rw [hcase]
    exact Or.inl rfl
  · rw [hcase]
    refine Or.inr ⟨?_, ?_⟩
    · rw [hb2, cc_winner]
    · rw [hb2, cc_ws]

theorem make_move_SearchOK {b : PenteGame} {r c : Int} {p : Int}
    (hok : SearchOK b) (hw : b.winner = none)
    (hv : b.is_valid_move r c p = true) (hp : p = 1 ∨ p = 2) :
    SearchOK ((b.make_move r c p).2) := by
  obtain ⟨hwf, hmc, _, _, hws⟩ := hok
  refine ⟨make_move_WF hwf hv, ?_, ?_, ?_, ?_⟩
  · rw [make_move_move_count hv]
    omega
  · rw [make_move_move_count hv]
    omega
  · rcases make_move_winner_none hv with hcase | ⟨hcase, _⟩
    · rcases hp with hp | hp
      · rw [hcase, hp]
        exact Or.inr (Or.inl rfl)
      · rw [hcase, hp]
        exact Or.inr (Or.inr rfl)
    · rw [hcase, hw]
      exact Or.inl rfl
  · intro hwnone
    rcases make_move_winner_none hv with hcase | ⟨_, hcase⟩
    · rw [hcase] at hwnone
      cases hwnone
    · rw [hcase]
      exact hws hw

/-- `SearchOK` ignores `last_move`. -/
theorem SearchOK_last {b : PenteGame} (l : Option Coord) (h : SearchOK b) :
    SearchOK ({ b with last_move := l } : PenteGame) := h

/-- Candidate validity under the `SearchOK` conditions, for any colour
(`is_valid_move` ignores the player argument). -/
theorem smartCandidates_valid_all {b : PenteGame} (p : Int)
    (hc : b.move_count = 0 → getCell b.grid 9 9 = EMPTY) :
    ∀ z ∈ smartCandidates b, b.is_valid_move z.1 z.2 p = true := by
  by_cases hmc : b.move_count = 0
  · have hcands : smartCandidates b = [(9, 9)] := by
      unfold smartCandidates
      rw [if_pos hmc]
    intro z hz
    rw [hcands, List.mem_singleton] at hz
    subst hz
    exact (is_valid_move_iff b 9 9 p).mpr ⟨by decide, hc hmc⟩
  · intro z hz
    obtain ⟨hob, hemp⟩ := smartCandidates_good hmc z hz
    exact (is_valid_move_iff b z.1 z.2 p).mpr ⟨hob, hemp⟩

theorem addCaptures_last {X : PenteGame} (l : Option Coord) (p : Int) (k : Int) :
    ({ X with last_move := l } : PenteGame).addCaptures p k
      = { X.addCaptures p k with last_move := l } := by
  unfold PenteGame.addCaptures
  split <;> rfl

/-- `undo_move` neither reads nor writes `last_move`. -/
theorem undo_move_last (X : PenteGame) (l : Option Coord) (r c : Int) :
    ({ X with last_move := l } : PenteGame).undo_move r c
      = { X.undo_move r c with last_move := l } := by
  rcases X with ⟨g, mc, cw, cb, hist, t, lm, w, ws⟩
  cases hist with
  | nil => rfl
  | cons ci rest =>
    cases ci with
    | none => rfl
    | some info =>
      unfold PenteGame.undo_move
      dsimp only
      unfold PenteGame.addCaptures
      split <;> rfl

/-- The minimax candidate loop hands back the board it received, up to
`last_move`, provided every candidate is legal on the base board and the
one-deeper recursion does the same. -/
theorem mmLoop_board {child : PenteGame → V × Nat × PenteGame} {mover : Int}
    {maxi : Bool} {b : PenteGame} (hok : SearchOK b) (hw : b.winner = none)
    (hws : b.winning_sequence = []) (hmover : mover = 1 ∨ mover = 2)
    (hchild : ∀ bb, SearchOK bb →
      ∃ lc, (child bb).2.2 = { bb with last_move := lc }) :
    ∀ (cands : List Coord) (l : Option Coord) (best : V) (bm : Option Coord)
      (n : Nat),
    (∀ z ∈ cands, b.is_valid_move z.1 z.2 mover = true) →
    ∃ l', (mmLoop child mover maxi cands { b with last_move := l }
      best bm n).2.2.2 = { b with last_move := l' }
  | [], l, best, bm, n, _ => ⟨l, rfl⟩
  | z :: rest, l, best, bm, n, hv => by
    simp only [mmLoop]
    have hvz := hv z (List.mem_cons_self z rest)
    rw [make_move_last_irrelevant hvz l]
    obtain ⟨lc, hlc⟩ := hchild ((b.make_move z.1 z.2 mover).2)
      (make_move_SearchOK hok hw hvz hmover)
    rw [hlc, undo_move_last, round_trip hok.1 hvz hw hws]
    split <;> split <;>
      exact mmLoop_board hok hw hws hmover hchild rest lc _ _ _
        (fun w hwm => hv w (List.mem_cons_of_mem _ hwm))

/-- Same statement for the alpha-beta loop (the early cutoff also returns a
board of the required shape). -/
theorem abLoop_board {child : PenteGame → V → V → V × Nat × PenteGame}
    {mover : Int} {maxi : Bool} {b : PenteGame} (hok : SearchOK b)
    (hw : b.winner = none) (hws : b.winning_sequence = [])
    (hmover : mover = 1 ∨ mover = 2)
    (hchild : ∀ bb alpha beta, SearchOK bb →
      ∃ lc, (child bb alpha beta).2.2 = { bb with last_move := lc }) :
    ∀ (cands : List Coord) (l : Option Coord) (alpha beta best : V)
      (bm : Option Coord) (n : Nat),
    (∀ z ∈ cands, b.is_valid_move z.1 z.2 mover = true) →
    ∃ l', (abLoop child mover maxi cands { b with last_move := l }
      alpha beta best bm n).2.2.2 = { b with last_move := l' }
  | [], l, alpha, beta, best, bm, n, _ => ⟨l, rfl⟩
  | z :: rest, l, alpha, beta, best, bm, n, hv => by
    simp only [abLoop]
    have hvz := hv z (List.mem_cons_self z rest)
    rw [make_move_last_irrelevant hvz l]
    obtain ⟨lc, hlc⟩ := hchild ((b.make_move z.1 z.2 mover).2) alpha beta
      (make_move_SearchOK hok hw hvz hmover)
    rw [hlc, undo_move_last, round_trip hok.1 hvz hw hws]
    repeat' split
    all_goals first
      | exact ⟨lc, rfl⟩
      | exact abLoop_board hok hw hws hmover hchild rest lc _ _ _ _ _
          (fun w hwm => hv w (List.mem_cons_of_mem _ hwm))

theorem winner_none_of_not_terminal {b : PenteGame} {pc : Int}
    (hpc : pc = 1 ∨ pc = 2)
    (hok : b.winner = none ∨ b.winner = some 1 ∨ b.winner = some 2)
    (h1 : ¬ b.winner = some pc) (h2 : ¬ b.winner = some (3 - pc)) :
    b.winner = none := by
  rcases hok with h | h | h
  · exact h
  · rcases hpc with hpc | hpc
    · exact absurd (hpc ▸ h) h1
    · exact absurd (by rw [h, hpc]; norm_num) h2
  · rcases hpc with hpc | hpc
    · exact absurd (by rw [h, hpc]; norm_num) h2
    · exact absurd (hpc ▸ h) h1

/-- The minimax recursion returns the board it was given, up to
`last_move`. -/
theorem mmRec_board (h : PenteGame → ℚ) {pc : Int} (hpc : pc = 1 ∨ pc = 2) :
    ∀ (d : Nat) (b : PenteGame) (maxi : Bool), SearchOK b →
    ∃ l, (mmRec h pc d b maxi).2.2.2 = { b with last_move := l } := by
  intro d
  induction d with
  | zero =>
    intro b maxi hok
    unfold mmRec
    split
    · exact ⟨b.last_move, rfl⟩
    · split
      · exact ⟨b.last_move, rfl⟩
      · exact ⟨b.last_move, rfl⟩
  | succ d' ih =>
    intro b maxi hok
    unfold mmRec
    split
    · exact ⟨b.last_move, rfl⟩
    · split
      · exact ⟨b.last_move, rfl⟩
      · rename_i hnw1 hnw2
        have hw : b.winner = none :=
          winner_none_of_not_terminal hpc hok.2.2.2.1 hnw1 hnw2
        have hws : b.winning_sequence = [] := hok.2.2.2.2 hw
        cases hcand : smartCandidates b with
        | nil => exact ⟨b.last_move, rfl⟩
        | cons z0 zs =>
          have hv : ∀ z ∈ z0 :: zs,
              b.is_valid_move z.1 z.2 (if maxi then pc else 3 - pc) = true := by
            rw [← hcand]
            exact smartCandidates_valid_all _ hok.2.2.1
          have hmover : (if maxi then pc else 3 - pc) = 1 ∨
              (if maxi then pc else 3 - pc) = 2 := by
            rcases hpc with hpc | hpc <;> cases maxi <;> simp [hpc] <;> omega
          have hchild : ∀ bb, SearchOK bb →
              ∃ lc, ((fun bb => (let rres := mmRec h pc d' bb (!maxi);
                (rres.1, rres.2.2.1, rres.2.2.2))) bb).2.2
                = { bb with last_move := lc } :=
            fun bb hbb => ih bb (!maxi) hbb
          obtain ⟨l', hl'⟩ := mmLoop_board hok hw hws hmover hchild
            (z0 :: zs) b.last_move (if maxi then (⊥ : V) else (⊤ : V))
            (some z0) 0 hv
          exact ⟨l', hl'⟩

/-- The alpha-beta recursion returns the board it was given, up to
`last_move`. -/
theorem abRec_board (h : PenteGame → ℚ) {pc : Int} (hpc : pc = 1 ∨ pc = 2) :
    ∀ (d : Nat) (b : PenteGame) (alpha beta : V) (maxi : Bool), SearchOK b →
    ∃ l, (abRec h pc d b alpha beta maxi).2.2.2 = { b with last_move := l } := by
  intro d
  induction d with
  | zero =>
    intro b alpha beta maxi hok
    unfold abRec
    split
    · exact ⟨b.last_move, rfl⟩
    · split
      · exact ⟨b.last_move, rfl⟩
      · exact ⟨b.last_move, rfl⟩
  | succ d' ih =>
    intro b alpha beta maxi hok
    unfold abRec
    split
    · exact ⟨b.last_move, rfl⟩
    · split
      · exact ⟨b.last_move, rfl⟩
      · rename_i hnw1 hnw2
        have hw : b.winner = none :=
          winner_none_of_not_terminal hpc hok.2.2.2.1 hnw1 hnw2
        have hws : b.winning_sequence = [] := hok.2.2.2.2 hw
        cases hcand : smartCandidates b with
        | nil => exact ⟨b.last_move, rfl⟩
        | cons z0 zs =>
          have hv : ∀ z ∈ z0 :: zs,
              b.is_valid_move z.1 z.2 (if maxi then pc else 3 - pc) = true := by
            rw [← hcand]
            exact smartCandidates_valid_all _ hok.2.2.1
          have hmover : (if maxi then pc else 3 - pc) = 1 ∨
              (if maxi then pc else 3 - pc) = 2 := by
            rcases hpc with hpc | hpc <;> cases maxi <;> simp [hpc] <;> omega
          have hchild : ∀ bb alpha' beta', SearchOK bb →
              ∃ lc, ((fun bb a bt => (let rres := abRec h pc d' bb a bt (!maxi);
                (rres.1, rres.2.2.1, rres.2.2.2))) bb alpha' beta').2.2
                = { bb with last_move := lc } :=
            fun bb a bt hbb => ih bb a bt (!maxi) hbb
          obtain ⟨l', hl'⟩ := abLoop_board hok hw hws hmover hchild
            (z0 :: zs) b.last_move alpha beta
            (if maxi then (⊥ : V) else (⊤ : V)) (some z0) 0 hv
          exact ⟨l', hl'⟩

/-- The forced-move scan phases return the board they received, up to
`last_move`. -/
theorem forcedPhase_board (p : Int) (b : PenteGame) (hwf : WFGrid b.grid)
    (hw : b.winner = none) (hws : b.winning_sequence = []) :
    ∀ (cands : List Coord) (l : Option Coord),
    (∀ z ∈ cands, b.is_valid_move z.1 z.2 p = true) →
    ∃ l', (forcedPhase p cands { b with last_move := l }).2
      = { b with last_move := l' }
  | [], l, _ => ⟨l, rfl⟩
  | z :: rest, l, hv => by
    simp only [forcedPhase]
    have hvz := hv z (List.mem_cons_self z rest)
    rw [make_move_last_irrelevant hvz l]
    split
    · exact ⟨some (z.1, z.2), by rw [round_trip hwf hvz hw hws]⟩
    · rw [round_trip hwf hvz hw hws]
      exact forcedPhase_board p b hwf hw hws rest (some (z.1, z.2))
        (fun w hwm => hv w (List.mem_cons_of_mem _ hwm))

/-- C1 (amended): `get_best_move` restores every board field except
`last_move` — given a game in progress (no winner yet, empty winning
sequence, a well-formed grid, a non-negative move counter, and a free
centre on a stoneless board) and a properly configured player colour. -/
theorem C1_board_restored (ai : PenteAI) (b : PenteGame)
    (hpc : ai.player_color = 1 ∨ ai.player_color = 2)
    (hwf : WFGrid b.grid) (hw : b.winner = none)
    (hws : b.winning_sequence = []) (hmc : 0 ≤ b.move_count)
    (hcenter : b.move_count = 0 → getCell b.grid 9 9 = EMPTY) :
    ((ai.get_best_move b).2).grid = b.grid ∧
    ((ai.get_best_move b).2).move_count = b.move_count ∧
    ((ai.get_best_move b).2).capturesW = b.capturesW ∧
    ((ai.get_best_move b).2).capturesB = b.capturesB ∧
    ((ai.get_best_move b).2).capture_history = b.capture_history ∧
    ((ai.get_best_move b).2).tournament_rule = b.tournament_rule ∧
    ((ai.get_best_move b).2).winner = b.winner ∧
    ((ai.get_best_move b).2).winning_sequence = b.winning_sequence := by
  have hok : SearchOK b := ⟨hwf, hmc, hcenter, Or.inl hw, fun _ => hws⟩
  suffices hsh : ∃ l, (ai.get_best_move b).2 = { b with last_move := l } by
    obtain ⟨l, hl⟩ := hsh
    rw [hl]
    exact ⟨rfl, rfl, rfl, rfl, rfl, rfl, rfl, rfl⟩
  have hv1 : ∀ z ∈ smartCandidates b,
      b.is_valid_move z.1 z.2 ai.player_color = true :=
    smartCandidates_valid_all _ hcenter
  obtain ⟨l1, hl1⟩ := forcedPhase_board ai.player_color b hwf hw hws
    (smartCandidates b) b.last_move hv1
  simp only [PenteAI.get_best_move, findForcedMove]
  rcases hph : forcedPhase ai.player_color (smartCandidates b) b
    with ⟨m1, b1⟩
  have hb1 : b1 = { b with last_move := l1 } := by
    have hl1' : (forcedPhase ai.player_color (smartCandidates b) b).2
        = { b with last_move := l1 } := hl1
    rw [hph] at hl1'
    exact hl1'
  cases m1 with
  | some z => exact ⟨l1, hb1⟩
  | none =>
    subst hb1
    have hv2 : ∀ z ∈ smartCandidates b,
        ({ b with last_move := l1 } : PenteGame).is_valid_move z.1 z.2
          ai.opponent_color = true := hv1
    obtain ⟨l2, hl2⟩ := forcedPhase_board ai.opponent_color
      { b with last_move := l1 } hwf hw hws (smartCandidates b) l1 hv2
    have hl2' : (forcedPhase ai.opponent_color (smartCandidates b)
        { b with last_move := l1 }).2
        = ({ b with last_move := l2 } : PenteGame) := hl2
    show ∃ l,
      (match forcedPhase ai.opponent_color (smartCandidates b)
          { b with last_move := l1 } with
        | (some z, b') => (some z, b')
        | (none, b') =>
          if ai.mode = "minimax_h1" then
            let rres := mmRec (fun bb => heuristic_1 bb ai.player_color)
              ai.player_color ai.depth b' true
            (rres.2.1, rres.2.2.2)
          else if ai.mode = "minimax_h2" then
            let rres := mmRec (fun bb => heuristic_2 bb ai.player_color)
              ai.player_color ai.depth b' true
            (rres.2.1, rres.2.2.2)
          else if ai.mode = "alphabeta_h1" then
            let rres := abRec (fun bb => heuristic_1 bb ai.player_color)
              ai.player_color ai.depth b' ⊥ ⊤ true
            (rres.2.1, rres.2.2.2)
          else
            let rres := abRec (fun bb => heuristic_2 bb ai.player_color)
              ai.player_color ai.depth b' ⊥ ⊤ true
            (rres.2.1, rres.2.2.2)).2
        = { b with last_move := l }
    rcases hph2 : forcedPhase ai.opponent_color (smartCandidates b)
      { b with last_move := l1 } with ⟨m2, b2⟩
    have hb2 : b2 = { b with last_move := l2 } := by
      rw [hph2] at hl2'
      exact hl2'
    cases m2 with
    | some z => exact ⟨l2, hb2⟩
    | none =>
      subst hb2
      have hok2 : SearchOK ({ b with last_move := l2 } : PenteGame) :=
        SearchOK_last l2 hok
      show ∃ l,
        ((if ai.mode = "minimax_h1" then
            let rres := mmRec (fun bb => heuristic_1 bb ai.player_color)
              ai.player_color ai.depth { b with last_move := l2 } true
            (rres.2.1, rres.2.2.2)
          else if ai.mode = "minimax_h2" then
            let rres := mmRec (fun bb => heuristic_2 bb ai.player_color)
              ai.player_color ai.depth { b with last_move := l2 } true
            (rres.2.1, rres.2.2.2)
          else if ai.mode = "alphabeta_h1" then
            let rres := abRec (fun bb => heuristic_1 bb ai.player_color)
              ai.player_color ai.depth { b with last_move := l2 } ⊥ ⊤ true
            (rres.2.1, rres.2.2.2)
          else
            let rres := abRec (fun bb => heuristic_2 bb ai.player_color)
              ai.player_color ai.depth { b with last_move := l2 } ⊥ ⊤ true
            (rres.2.1, rres.2.2.2)) : Option Coord × PenteGame).2
          = { b with last_move := l }
      split
      · obtain ⟨l3, hl3⟩ := mmRec_board
          (fun bb => heuristic_1 bb ai.player_color) hpc ai.depth
          { b with last_move := l2 } true hok2
        exact ⟨l3, hl3⟩
      · split
        · obtain ⟨l3, hl3⟩ := mmRec_board
            (fun bb => heuristic_2 bb ai.player_color) hpc ai.depth
            { b with last_move := l2 } true hok2
          exact ⟨l3, hl3⟩
        · split
          · obtain ⟨l3, hl3⟩ := abRec_board
              (fun bb => heuristic_1 bb ai.player_color) hpc ai.depth
              { b with last_move := l2 } ⊥ ⊤ true hok2
            exact ⟨l3, hl3⟩
          · obtain ⟨l3, hl3⟩ := abRec_board
              (fun bb => heuristic_2 bb ai.player_color) hpc ai.depth
              { b with last_move := l2 } ⊥ ⊤ true hok2
            exact ⟨l3, hl3⟩

/-- Witness for C1: a concrete one-stone position and a configured AI on
which the restoration theorem applies, with every hypothesis discharged by
computation. -/
theorem C1_witness :
    (((PenteAI.init "alphabeta_h2" 1 2).get_best_move
        (buildBoard [(9, 9, 1)])).2).grid = (buildBoard [(9, 9, 1)]).grid ∧
    (((PenteAI.init "alphabeta_h2" 1 2).get_best_move
        (buildBoard [(9, 9, 1)])).2).move_count
      = (buildBoard [(9, 9, 1)]).move_count ∧
    (((PenteAI.init "alphabeta_h2" 1 2).get_best_move
        (buildBoard [(9, 9, 1)])).2).capturesW
      = (buildBoard [(9, 9, 1)]).capturesW ∧
    (((PenteAI.init "alphabeta_h2" 1 2).get_best_move
        (buildBoard [(9, 9, 1)])).2).capturesB
      = (buildBoard [(9, 9, 1)]).capturesB ∧
    (((PenteAI.init "alphabeta_h2" 1 2).get_best_move
        (buildBoard [(9, 9, 1)])).2).capture_history
      = (buildBoard [(9, 9, 1)]).capture_history ∧
    (((PenteAI.init "alphabeta_h2" 1 2).get_best_move
        (buildBoard [(9, 9, 1)])).2).tournament_rule
      = (buildBoard [(9, 9, 1)]).tournament_rule ∧
    (((PenteAI.init "alphabeta_h2" 1 2).get_best_move
        (buildBoard [(9, 9, 1)])).2).winner = (buildBoard [(9, 9, 1)]).winner ∧
    (((PenteAI.init "alphabeta_h2" 1 2).get_best_move
        (buildBoard [(9, 9, 1)])).2).winning_sequence
      = (buildBoard [(9, 9, 1)]).winning_sequence :=
  C1_board_restored (PenteAI.init "alphabeta_h2" 1 2) (buildBoard [(9, 9, 1)])
    (Or.inl rfl) (by decide) (by decide) (by decide) (by decide) (by decide)

/-- Counterexample for C1 as stated: `get_best_move` does NOT always leave
the game state exactly as it found it, because `undo_move` never restores
`last_move`.  On a board whose last move was (9,8), the forced-move scan
finds an immediate win elsewhere and leaves `last_move` pointing at the
simulated candidate. -/
theorem C1_counterexample :
    ¬ ((((PenteAI.init "minimax_h2" 1 2).get_best_move
        (buildBoard [(9, 5, 1), (9, 6, 1), (9, 7, 1), (9, 8, 1)])).2).last_move
      = (buildBoard [(9, 5, 1), (9, 6, 1), (9, 7, 1), (9, 8, 1)]).last_move) := by
  decide

/-! ## C9: the candidate list fed to the searches -/

theorem foldl_mem_of_mem {α σ : Type _} (P : σ → Prop) (f : σ → α → σ)
    (hmono : ∀ s a, P s → P (f s a)) (a : α) (hins : ∀ s, P (f s a)) :
    ∀ (l : List α), a ∈ l → ∀ s : σ, P (l.foldl f s)
  | [], h, _ => absurd h (List.not_mem_nil a)
  | e :: t, h, s => by
    rcases List.mem_cons.mp h with rfl | ht
    · exact foldl_invariant P f t (f s a) (hins s) hmono
    · exact foldl_mem_of_mem P f hmono a hins t ht (f s e)

theorem mem_neighborOffsets {d : Int × Int} (h1 : -2 ≤ d.1) (h2 : d.1 ≤ 2)
    (h3 : -2 ≤ d.2) (h4 : d.2 ≤ 2) : d ∈ neighborOffsets := by
  unfold neighborOffsets
  rw [List.mem_flatMap]
  refine ⟨(d.1 + 2).toNat, by rw [List.mem_range]; omega, ?_⟩
  rw [List.mem_map]
  refine ⟨(d.2 + 2).toNat, by rw [List.mem_range]; omega, ?_⟩
  rw [Prod.ext_iff]
  refine ⟨?_, ?_⟩ <;> dsimp only <;> omega

theorem addCandidate_self {acc : List Coord} {z : Coord} :
    z ∈ addCandidate acc z := by
  unfold addCandidate
  split
  · rename_i h
    exact h
  · exact List.mem_append_right _ (by simp)

theorem addCandidate_mono {acc : List Coord} {z w : Coord} (h : w ∈ acc) :
    w ∈ addCandidate acc z := by
  unfold addCandidate
  split
  · exact h
  · exact List.mem_append_left _ h

theorem neighStep_mono {b : PenteGame} {s : Coord} {acc : List Coord}
    {d : Int × Int} {w : Coord} (h : w ∈ acc) : w ∈ neighStep b s acc d := by
  simp only [neighStep]
  split
  · exact addCandidate_mono h
  · exact h

theorem neighStep_ins {b : PenteGame} {s : Coord} {acc : List Coord}
    {d : Int × Int} (hob : isOnBoard (s.1 + d.1) (s.2 + d.2) = true)
    (hemp : getCell b.grid (s.1 + d.1) (s.2 + d.2) = EMPTY) :
    (s.1 + d.1, s.2 + d.2) ∈ neighStep b s acc d := by
  simp only [neighStep]
  rw [if_pos]
  · exact addCandidate_self
  · rw [Bool.and_eq_true]
    exact ⟨hob, decide_eq_true hemp⟩

theorem candStep_mono {b : PenteGame} {acc : List Coord} {s w : Coord}
    (h : w ∈ acc) : w ∈ candStep b acc s := by
  unfold candStep
  split
  · exact foldl_invariant (fun l => w ∈ l) (neighStep b s) neighborOffsets acc
      h (fun acc2 d h2 => neighStep_mono h2)
  · exact h

theorem candStep_ins {b : PenteGame} {acc : List Coord} {s w : Coord}
    (hs : ¬ getCell b.grid s.1 s.2 = EMPTY) (d : Int × Int)
    (hd : d ∈ neighborOffsets) (hw : w = (s.1 + d.1, s.2 + d.2))
    (hob : isOnBoard w.1 w.2 = true)
    (hemp : getCell b.grid w.1 w.2 = EMPTY) :
    w ∈ candStep b acc s := by
  unfold candStep
  rw [if_pos hs]
  subst hw
  exact foldl_mem_of_mem (fun l => (s.1 + d.1, s.2 + d.2) ∈ l) (neighStep b s)
    (fun acc2 d2 h2 => neighStep_mono h2) d
    (fun acc2 => neighStep_ins hob hemp) neighborOffsets hd acc

theorem addCandidate_nodup {acc : List Coord} (h : acc.Nodup) (z : Coord) :
    (addCandidate acc z).Nodup := by
  unfold addCandidate
  split
  · exact h
  · rename_i hz
    rw [List.nodup_append]
    refine ⟨h, List.nodup_singleton z, ?_⟩
    intro x hx hxz
    rw [List.mem_singleton] at hxz
    subst hxz
    exact hz hx

theorem neighStep_nodup {b : PenteGame} {s : Coord} {acc : List Coord}
    (h : acc.Nodup) (d : Int × Int) : (neighStep b s acc d).Nodup := by
  simp only [neighStep]
  split
  · exact addCandidate_nodup h _
  · exact h

theorem candStep_nodup {b : PenteGame} {acc : List Coord} (h : acc.Nodup)
    (s : Coord) : (candStep b acc s).Nodup := by
  unfold candStep
  split
  · exact foldl_invariant List.Nodup (neighStep b s) neighborOffsets acc h
      (fun acc2 d h2 => neighStep_nodup h2 d)
  · exact h

theorem smartCandidates_nodup (b : PenteGame) :
    (smartCandidates b).Nodup := by
  unfold smartCandidates
  split
  · exact List.nodup_singleton _
  · exact foldl_invariant List.Nodup (candStep b) allCells [] List.nodup_nil
      (fun acc s h => candStep_nodup h s)

/-- Untruncated coverage: every empty on-board cell within Chebyshev
distance 2 of an occupied on-board cell makes it into the candidate
list. -/
theorem smartCandidates_complete {b : PenteGame} (hmc : ¬ b.move_count = 0)
    (w s : Coord) (hwob : isOnBoard w.1 w.2 = true)
    (hwemp : getCell b.grid w.1 w.2 = EMPTY)
    (hsob : isOnBoard s.1 s.2 = true)
    (hs : ¬ getCell b.grid s.1 s.2 = EMPTY)
    (hd1 : |w.1 - s.1| ≤ 2) (hd2 : |w.2 - s.2| ≤ 2) :
    w ∈ smartCandidates b := by
  unfold smartCandidates
  rw [if_neg hmc]
  have hb := isOnBoard_iff.mp hsob
  have hsAll : s ∈ allCells :=
    mem_allCells hb.1 hb.2.1 hb.2.2.1 hb.2.2.2
  refine foldl_mem_of_mem (fun l => w ∈ l) (candStep b)
    (fun acc z h => candStep_mono h) s ?_ allCells hsAll []
  intro acc
  have habs1 := abs_le.mp hd1
  have habs2 := abs_le.mp hd2
  refine candStep_ins hs (w.1 - s.1, w.2 - s.2)
    (mem_neighborOffsets (by omega) (by omega) (by omega) (by omega))
    ?_ hwob hwemp
  rw [Prod.ext_iff]
  refine ⟨?_, ?_⟩ <;> dsimp only <;> ring

/-- C9 (amended): the alpha-beta variant draws its root candidates from the
very same `_get_smart_candidates` scan used at every interior node and by
the minimax variant: on a non-empty board this list is the duplicate-free
collection of ALL empty on-board cells within Chebyshev distance 2 of some
stone, in board-scan insertion order — no one-ply-heuristic pre-ordering
and no truncation to a fixed count is applied anywhere. -/
theorem foldl_invariant_mem {α σ : Type _} (P : σ → Prop) (f : σ → α → σ) :
    ∀ (l : List α) (s : σ), P s → (∀ s a, a ∈ l → P s → P (f s a)) →
      P (l.foldl f s)
  | [], s, h, _ => h
  | a :: l, s, h, hs =>
    foldl_invariant_mem P f l (f s a) (hs s a (List.mem_cons_self a l) h)
      (fun s' a' ha' h' => hs s' a' (List.mem_cons_of_mem _ ha') h')

theorem allCells_bounds {z : Coord} (hz : z ∈ allCells) :
    0 ≤ z.1 ∧ z.1 < 19 ∧ 0 ≤ z.2 ∧ z.2 < 19 := by
  unfold allCells at hz
  rw [List.mem_flatMap] at hz
  obtain ⟨r, hr, hz⟩ := hz
  rw [List.mem_range] at hr
  rw [List.mem_map] at hz
  obtain ⟨c, hc, hzc⟩ := hz
  rw [List.mem_range] at hc
  subst hzc
  refine ⟨?_, ?_, ?_, ?_⟩ <;> dsimp only <;> omega

theorem neighborOffsets_bounds {d : Int × Int} (hd : d ∈ neighborOffsets) :
    -2 ≤ d.1 ∧ d.1 ≤ 2 ∧ -2 ≤ d.2 ∧ d.2 ≤ 2 := by
  unfold neighborOffsets at hd
  rw [List.mem_flatMap] at hd
  obtain ⟨a, ha, hd⟩ := hd
  rw [List.mem_range] at ha
  rw [List.mem_map] at hd
  obtain ⟨e, he, hde⟩ := hd
  rw [List.mem_range] at he
  subst hde
  refine ⟨?_, ?_, ?_, ?_⟩ <;> dsimp only <;> omega

theorem addCandidate_mem {acc : List Coord} {z w : Coord}
    (h : w ∈ addCandidate acc z) : w ∈ acc ∨ w = z := by
  unfold addCandidate at h
  split at h
  · exact Or.inl h
  · rcases List.mem_append.mp h with hin | hz
    · exact Or.inl hin
    · exact Or.inr (List.mem_singleton.mp hz)

/-- Soundness of the scan: every produced candidate lies within Chebyshev
distance 2 of an occupied on-board cell. -/
theorem smartCandidates_near {b : PenteGame} (hmc : ¬ b.move_count = 0) :
    ∀ w ∈ smartCandidates b, ∃ s : Coord, isOnBoard s.1 s.2 = true ∧
      ¬ getCell b.grid s.1 s.2 = EMPTY ∧
      |w.1 - s.1| ≤ 2 ∧ |w.2 - s.2| ≤ 2 := by
  unfold smartCandidates
  rw [if_neg hmc]
  refine foldl_invariant_mem
    (fun acc => ∀ w ∈ acc, ∃ s : Coord, isOnBoard s.1 s.2 = true ∧
      ¬ getCell b.grid s.1 s.2 = EMPTY ∧
      |w.1 - s.1| ≤ 2 ∧ |w.2 - s.2| ≤ 2)
    (candStep b) allCells []
    (fun w hw => absurd hw (List.not_mem_nil w)) ?_
  intro acc z hzAll hacc
  unfold candStep
  split
  · rename_i hocc
    have hzb := allCells_bounds hzAll
    refine foldl_invariant_mem
      (fun acc2 => ∀ w ∈ acc2, ∃ s : Coord, isOnBoard s.1 s.2 = true ∧
        ¬ getCell b.grid s.1 s.2 = EMPTY ∧
        |w.1 - s.1| ≤ 2 ∧ |w.2 - s.2| ≤ 2)
      (neighStep b z) neighborOffsets acc hacc ?_
    intro acc2 d hd hacc2 w hw
    revert hw
    simp only [neighStep]
    split
    · intro hw
      rcases addCandidate_mem hw with hin | heq
      · exact hacc2 w hin
      · subst heq
        obtain ⟨hd1, hd2, hd3, hd4⟩ := neighborOffsets_bounds hd
        refine ⟨z, ?_, hocc, ?_, ?_⟩
        · rw [isOnBoard_iff]
          exact hzb
        · show |z.1 + d.1 - z.1| ≤ 2
          rw [abs_le]
          omega
        · show |z.2 + d.2 - z.2| ≤ 2
          rw [abs_le]
          omega
    · intro hw
      exact hacc2 w hw
  · exact hacc

/-- C9 (amended): the alpha-beta variant applies no root pre-ordering and
no truncation.  At the root it consults the same `_get_smart_candidates`
scan as every interior node and as the minimax variant (one shared code
path; minimax has no per-node truncation either).  On a non-empty board
that scan produces exactly — membership in both directions — the
duplicate-free set of all empty on-board cells within Chebyshev distance 2
of some occupied cell; iteration order is unspecified (Python set
semantics), and no order-dependent property is claimed. -/
theorem C9_candidate_set (b : PenteGame) (hmc : ¬ b.move_count = 0) :
    (smartCandidates b).Nodup ∧
    ∀ w : Coord, w ∈ smartCandidates b ↔
      (isOnBoard w.1 w.2 = true ∧ getCell b.grid w.1 w.2 = EMPTY ∧
        ∃ s : Coord, isOnBoard s.1 s.2 = true ∧
          ¬ getCell b.grid s.1 s.2 = EMPTY ∧
          |w.1 - s.1| ≤ 2 ∧ |w.2 - s.2| ≤ 2) := by
  refine ⟨smartCandidates_nodup b, fun w => ⟨?_, ?_⟩⟩
  · intro hw
    obtain ⟨hob, hemp⟩ := smartCandidates_good hmc w hw
    exact ⟨hob, hemp, smartCandidates_near hmc w hw⟩
  · rintro ⟨hob, hemp, s, hsob, hsocc, hd1, hd2⟩
    exact smartCandidates_complete hmc w s hob hemp hsob hsocc hd1 hd2

/-- Witness for C9: the amended set characterisation applied to a concrete
one-stone board. -/
theorem C9_witness :
    (smartCandidates (buildBoard [(9, 9, 1)])).Nodup ∧
    ∀ w : Coord, w ∈ smartCandidates (buildBoard [(9, 9, 1)]) ↔
      (isOnBoard w.1 w.2 = true ∧
        getCell (buildBoard [(9, 9, 1)]).grid w.1 w.2 = EMPTY ∧
        ∃ s : Coord, isOnBoard s.1 s.2 = true ∧
          ¬ getCell (buildBoard [(9, 9, 1)]).grid s.1 s.2 = EMPTY ∧
          |w.1 - s.1| ≤ 2 ∧ |w.2 - s.2| ≤ 2) :=
  C9_candidate_set (buildBoard [(9, 9, 1)]) (by decide)

/-! ## C5: alpha-beta computes the minimax value with no more nodes -/

/-- The canonical child board of candidate `z`: `mover` plays `z` on `b`. -/
def childBoard (b : PenteGame) (mover : Int) (z : Coord) : PenteGame :=
  (b.make_move z.1 z.2 mover).2

/-- The minimax value of the child subtree below candidate `z`. -/
def cvFun (h : PenteGame → ℚ) (pc : Int) (d' : Nat) (mover : Int) (m : Bool)
    (b : PenteGame) (z : Coord) : V :=
  (mmRec h pc d' (childBoard b mover z) m).1

/-- The node count of the minimax child subtree below candidate `z`. -/
def cnFun (h : PenteGame → ℚ) (pc : Int) (d' : Nat) (mover : Int) (m : Bool)
    (b : PenteGame) (z : Coord) : Nat :=
  (mmRec h pc d' (childBoard b mover z) m).2.2.1

/-- The child closure built by `mmRec` at an interior node. -/
def mmChild (h : PenteGame → ℚ) (pc : Int) (d' : Nat) (m : Bool)
    (bb : PenteGame) : V × Nat × PenteGame :=
  ((mmRec h pc d' bb m).1, (mmRec h pc d' bb m).2.2.1,
    (mmRec h pc d' bb m).2.2.2)

/-- The child closure built by `abRec` at an interior node. -/
def abChild (h : PenteGame → ℚ) (pc : Int) (d' : Nat) (m : Bool)
    (bb : PenteGame) (a bt : V) : V × Nat × PenteGame :=
  ((abRec h pc d' bb a bt m).1, (abRec h pc d' bb a bt m).2.2.1,
    (abRec h pc d' bb a bt m).2.2.2)

/-- Running maximum of child values, as folded by the maximizing loop. -/
def maxFold (f : Coord → V) : List Coord → V → V
  | [], best => best
  | z :: rest, best => maxFold f rest (max best (f z))

/-- Running minimum of child values, as folded by the minimizing loop. -/
def minFold (f : Coord → V) : List Coord → V → V
  | [], best => best
  | z :: rest, best => minFold f rest (min best (f z))

/-- Total node count of a list of child subtrees. -/
def nodeSum (g : Coord → Nat) : List Coord → Nat
  | [] => 0
  | z :: rest => g z + nodeSum g rest

theorem if_lt_max (a x : V) : (if a < x then x else a) = max a x := by
  split
  · rename_i hlt
    exact (max_eq_right hlt.le).symm
  · rename_i hlt
    exact (max_eq_left (le_of_not_lt hlt)).symm

theorem if_lt_min (a x : V) : (if x < a then x else a) = min a x := by
  split
  · rename_i hlt
    exact (min_eq_right hlt.le).symm
  · rename_i hlt
    exact (min_eq_left (le_of_not_lt hlt)).symm

theorem maxFold_ge (f : Coord → V) :
    ∀ (zs : List Coord) (best : V), best ≤ maxFold f zs best
  | [], best => le_refl best
  | z :: rest, best =>
    le_trans (le_max_left best (f z)) (maxFold_ge f rest (max best (f z)))

theorem minFold_le (f : Coord → V) :
    ∀ (zs : List Coord) (best : V), minFold f zs best ≤ best
  | [], best => le_refl best
  | z :: rest, best =>
    le_trans (minFold_le f rest (min best (f z))) (min_le_left best (f z))

theorem maxFold_mono (f : Coord → V) :
    ∀ (zs : List Coord) {x y : V}, x ≤ y → maxFold f zs x ≤ maxFold f zs y
  | [], _, _, hxy => hxy
  | z :: rest, x, y, hxy =>
    maxFold_mono f rest (max_le_max_right (f z) hxy)

theorem minFold_mono (f : Coord → V) :
    ∀ (zs : List Coord) {x y : V}, x ≤ y → minFold f zs x ≤ minFold f zs y
  | [], _, _, hxy => hxy
  | z :: rest, x, y, hxy =>
    minFold_mono f rest (min_le_min_right (f z) hxy)

theorem maxFold_decomp (f : Coord → V) :
    ∀ (zs : List Coord) (best : V),
      maxFold f zs best = max best (maxFold f zs ⊥)
  | [], best => (max_eq_left bot_le).symm
  | z :: rest, best => by
    show maxFold f rest (max best (f z))
      = max best (maxFold f rest (max ⊥ (f z)))
    rw [maxFold_decomp f rest (max best (f z)),
      maxFold_decomp f rest (max ⊥ (f z)),
      max_eq_right (bot_le : (⊥ : V) ≤ f z), max_assoc]

theorem minFold_decomp (f : Coord → V) :
    ∀ (zs : List Coord) (best : V),
      minFold f zs best = min best (minFold f zs ⊤)
  | [], best => (min_eq_left le_top).symm
  | z :: rest, best => by
    show minFold f rest (min best (f z))
      = min best (minFold f rest (min ⊤ (f z)))
    rw [minFold_decomp f rest (min best (f z)),
      minFold_decomp f rest (min ⊤ (f z)),
      min_eq_right (le_top : f z ≤ (⊤ : V)), min_assoc]

theorem mmLoop_cons_true (child : PenteGame → V × Nat × PenteGame)
    (mover : Int) (z : Coord) (rest : List Coord) (bq : PenteGame)
    (best : V) (bm : Option Coord) (n : Nat) :
    mmLoop child mover true (z :: rest) bq best bm n
      = mmLoop child mover true rest
          ((child (bq.make_move z.1 z.2 mover).2).2.2.undo_move z.1 z.2)
          (max best (child (bq.make_move z.1 z.2 mover).2).1)
          (if best < (child (bq.make_move z.1 z.2 mover).2).1 then some z
            else bm)
          (n + (child (bq.make_move z.1 z.2 mover).2).2.1) := by
  simp only [mmLoop, eq_self_iff_true, if_true]
  split
  · rename_i hlt
    rw [max_eq_right hlt.le]
  · rename_i hlt
    rw [max_eq_left (le_of_not_lt hlt)]

theorem mmLoop_cons_false (child : PenteGame → V × Nat × PenteGame)
    (mover : Int) (z : Coord) (rest : List Coord) (bq : PenteGame)
    (best : V) (bm : Option Coord) (n : Nat) :
    mmLoop child mover false (z :: rest) bq best bm n
      = mmLoop child mover false rest
          ((child (bq.make_move z.1 z.2 mover).2).2.2.undo_move z.1 z.2)
          (min best (child (bq.make_move z.1 z.2 mover).2).1)
          (if (child (bq.make_move z.1 z.2 mover).2).1 < best then some z
            else bm)
          (n + (child (bq.make_move z.1 z.2 mover).2).2.1) := by
  simp only [mmLoop, if_neg Bool.false_ne_true]
  split
  · rename_i hlt
    rw [min_eq_right hlt.le]
  · rename_i hlt
    rw [min_eq_left (le_of_not_lt hlt)]

theorem abLoop_cons_true (child : PenteGame → V → V → V × Nat × PenteGame)
    (mover : Int) (z : Coord) (rest : List Coord) (bq : PenteGame)
    (alpha beta best : V) (bm : Option Coord) (n : Nat) :
    abLoop child mover true (z :: rest) bq alpha beta best bm n
      = (if beta ≤ max alpha (child (bq.make_move z.1 z.2 mover).2 alpha beta).1
         then (max best (child (bq.make_move z.1 z.2 mover).2 alpha beta).1,
           (if best < (child (bq.make_move z.1 z.2 mover).2 alpha beta).1
             then some z else bm),
           n + (child (bq.make_move z.1 z.2 mover).2 alpha beta).2.1,
           ((child (bq.make_move z.1 z.2 mover).2 alpha beta).2.2.undo_move
             z.1 z.2))
         else abLoop child mover true rest
           ((child (bq.make_move z.1 z.2 mover).2 alpha beta).2.2.undo_move
             z.1 z.2)
           (max alpha (child (bq.make_move z.1 z.2 mover).2 alpha beta).1)
           beta
           (max best (child (bq.make_move z.1 z.2 mover).2 alpha beta).1)
           (if best < (child (bq.make_move z.1 z.2 mover).2 alpha beta).1
             then some z else bm)
           (n + (child (bq.make_move z.1 z.2 mover).2 alpha beta).2.1)) := by
  simp only [abLoop, eq_self_iff_true, if_true, if_lt_max]

theorem abLoop_cons_false (child : PenteGame → V → V → V × Nat × PenteGame)
    (mover : Int) (z : Coord) (rest : List Coord) (bq : PenteGame)
    (alpha beta best : V) (bm : Option Coord) (n : Nat) :
    abLoop child mover false (z :: rest) bq alpha beta best bm n
      = (if min beta (child (bq.make_move z.1 z.2 mover).2 alpha beta).1 ≤ alpha
         then (min best (child (bq.make_move z.1 z.2 mover).2 alpha beta).1,
           (if (child (bq.make_move z.1 z.2 mover).2 alpha beta).1 < best
             then some z else bm),
           n + (child (bq.make_move z.1 z.2 mover).2 alpha beta).2.1,
           ((child (bq.make_move z.1 z.2 mover).2 alpha beta).2.2.undo_move
             z.1 z.2))
         else abLoop child mover false rest
           ((child (bq.make_move z.1 z.2 mover).2 alpha beta).2.2.undo_move
             z.1 z.2)
           alpha
           (min beta (child (bq.make_move z.1 z.2 mover).2 alpha beta).1)
           (min best (child (bq.make_move z.1 z.2 mover).2 alpha beta).1)
           (if (child (bq.make_move z.1 z.2 mover).2 alpha beta).1 < best
             then some z else bm)
           (n + (child (bq.make_move z.1 z.2 mover).2 alpha beta).2.1)) := by
  simp only [abLoop, if_neg Bool.false_ne_true, if_lt_min]

/-- The maximizing minimax loop computes the running maximum of the child
subtree values, counts exactly the children's nodes, and hands the board
back up to `last_move`. -/
theorem mmLoop_spec_max (h : PenteGame → ℚ) {pc : Int}
    (hpc : pc = 1 ∨ pc = 2) (d' : Nat) {mover : Int} {b : PenteGame}
    (hok : SearchOK b) (hw : b.winner = none) (hws : b.winning_sequence = [])
    (hmover : mover = 1 ∨ mover = 2) :
    ∀ (zs : List Coord) (l : Option Coord) (best : V) (bm : Option Coord)
      (n : Nat), (∀ z ∈ zs, b.is_valid_move z.1 z.2 mover = true) →
    (mmLoop (mmChild h pc d' false) mover true zs { b with last_move := l }
        best bm n).1
      = maxFold (cvFun h pc d' mover false b) zs best ∧
    (mmLoop (mmChild h pc d' false) mover true zs { b with last_move := l }
        best bm n).2.2.1 = n + nodeSum (cnFun h pc d' mover false b) zs ∧
    ∃ l', (mmLoop (mmChild h pc d' false) mover true zs
        { b with last_move := l } best bm n).2.2.2
      = { b with last_move := l' } := by
  intro zs
  induction zs with
  | nil =>
    intro l best bm n _
    exact ⟨rfl, by simp [mmLoop, nodeSum], ⟨l, rfl⟩⟩
  | cons z rest ih =>
    intro l best bm n hv
    have hvz := hv z (List.mem_cons_self z rest)
    have hvr : ∀ w ∈ rest, b.is_valid_move w.1 w.2 mover = true :=
      fun w hwm => hv w (List.mem_cons_of_mem _ hwm)
    obtain ⟨lc, hlc⟩ := mmRec_board h hpc d'
      ((b.make_move z.1 z.2 mover).2) false
      (make_move_SearchOK hok hw hvz hmover)
    rw [mmLoop_cons_true, make_move_last_irrelevant hvz l]
    simp only [mmChild]
    rw [hlc, undo_move_last, round_trip hok.1 hvz hw hws]
    simp only [maxFold, nodeSum, cvFun, cnFun, childBoard]
    obtain ⟨ih1, ih2, ih3⟩ := ih lc
      (max best (mmRec h pc d' ((b.make_move z.1 z.2 mover).2) false).1)
      (if best < (mmRec h pc d' ((b.make_move z.1 z.2 mover).2) false).1
        then some z else bm)
      (n + (mmRec h pc d' ((b.make_move z.1 z.2 mover).2) false).2.2.1) hvr
    refine ⟨ih1, ?_, ih3⟩
    rw [ih2]
    omega

/-- The minimizing counterpart of `mmLoop_spec_max`. -/
theorem mmLoop_spec_min (h : PenteGame → ℚ) {pc : Int}
    (hpc : pc = 1 ∨ pc = 2) (d' : Nat) {mover : Int} {b : PenteGame}
    (hok : SearchOK b) (hw : b.winner = none) (hws : b.winning_sequence = [])
    (hmover : mover = 1 ∨ mover = 2) :
    ∀ (zs : List Coord) (l : Option Coord) (best : V) (bm : Option Coord)
      (n : Nat), (∀ z ∈ zs, b.is_valid_move z.1 z.2 mover = true) →
    (mmLoop (mmChild h pc d' true) mover false zs { b with last_move := l }
        best bm n).1
      = minFold (cvFun h pc d' mover true b) zs best ∧
    (mmLoop (mmChild h pc d' true) mover false zs { b with last_move := l }
        best bm n).2.2.1 = n + nodeSum (cnFun h pc d' mover true b) zs ∧
    ∃ l', (mmLoop (mmChild h pc d' true) mover false zs
        { b with last_move := l } best bm n).2.2.2
      = { b with last_move := l' } := by
  intro zs
  induction zs with
  | nil =>
    intro l best bm n _
    exact ⟨rfl, by simp [mmLoop, nodeSum], ⟨l, rfl⟩⟩
  | cons z rest ih =>
    intro l best bm n hv
    have hvz := hv z (List.mem_cons_self z rest)
    have hvr : ∀ w ∈ rest, b.is_valid_move w.1 w.2 mover = true :=
      fun w hwm => hv w (List.mem_cons_of_mem _ hwm)
    obtain ⟨lc, hlc⟩ := mmRec_board h hpc d'
      ((b.make_move z.1 z.2 mover).2) true
      (make_move_SearchOK hok hw hvz hmover)
    rw [mmLoop_cons_false, make_move_last_irrelevant hvz l]
    simp only [mmChild]
    rw [hlc, undo_move_last, round_trip hok.1 hvz hw hws]
    simp only [minFold, nodeSum, cvFun, cnFun, childBoard]
    obtain ⟨ih1, ih2, ih3⟩ := ih lc
      (min best (mmRec h pc d' ((b.make_move z.1 z.2 mover).2) true).1)
      (if (mmRec h pc d' ((b.make_move z.1 z.2 mover).2) true).1 < best
        then some z else bm)
      (n + (mmRec h pc d' ((b.make_move z.1 z.2 mover).2) true).2.2.1) hvr
    refine ⟨ih1, ?_, ih3⟩
    rw [ih2]
    omega

/-- The fail-soft alpha-beta contract: inside the window the value is
exact; outside it, the returned value is a bound of the same quality. -/
def ABok (alpha beta v g : V) : Prop :=
  (alpha < v → v < beta → g = v) ∧
  (v ≤ alpha → v ≤ g ∧ g ≤ alpha) ∧
  (beta ≤ v → beta ≤ g ∧ g ≤ v)

theorem ABok_refl (alpha beta v : V) : ABok alpha beta v v :=
  ⟨fun _ _ => rfl, fun hva => ⟨le_rfl, hva⟩, fun hbv => ⟨hbv, le_rfl⟩⟩

theorem qv_finite (q : ℚ) : (⊥ : V) < qv q ∧ qv q < ⊤ := by
  constructor
  · exact WithBot.bot_lt_coe _
  · show ((q : WithTop ℚ) : V) < ((⊤ : WithTop ℚ) : V)
    exact WithBot.coe_lt_coe.mpr (WithTop.coe_lt_top q)

theorem mmLoop_finite (child : PenteGame → V × Nat × PenteGame) (mover : Int)
    (maxi : Bool) (hchild : ∀ bb, ⊥ < (child bb).1 ∧ (child bb).1 < ⊤) :
    ∀ (zs : List Coord) (bq : PenteGame) (best : V) (bm : Option Coord)
      (n : Nat), ⊥ < best → best < ⊤ →
    ⊥ < (mmLoop child mover maxi zs bq best bm n).1 ∧
    (mmLoop child mover maxi zs bq best bm n).1 < ⊤ := by
  intro zs
  induction zs with
  | nil =>
    intro bq best bm n h1 h2
    exact ⟨h1, h2⟩
  | cons z rest ih =>
    intro bq best bm n h1 h2
    cases maxi
    · rw [mmLoop_cons_false]
      exact ih _ _ _ _ (lt_min h1 (hchild _).1)
        (lt_of_le_of_lt (min_le_left _ _) h2)
    · rw [mmLoop_cons_true]
      exact ih _ _ _ _ (lt_of_lt_of_le h1 (le_max_left _ _))
        (max_lt h2 (hchild _).2)

/-- The minimax value is always finite: never `-inf` or `+inf`. -/
theorem mmRec_finite (h : PenteGame → ℚ) (pc : Int) :
    ∀ (d : Nat) (b : PenteGame) (maxi : Bool),
      ⊥ < (mmRec h pc d b maxi).1 ∧ (mmRec h pc d b maxi).1 < ⊤ := by
  intro d
  induction d with
  | zero =>
    intro b maxi
    unfold mmRec
    split
    · exact qv_finite _
    · split
      · exact qv_finite _
      · exact qv_finite _
  | succ d' ih =>
    intro b maxi
    unfold mmRec
    split
    · exact qv_finite _
    · split
      · exact qv_finite _
      · cases hcand : smartCandidates b with
        | nil => exact qv_finite _
        | cons z0 zs =>
          show ⊥ < (mmLoop (mmChild h pc d' (!maxi))
              (if maxi then pc else 3 - pc) maxi (z0 :: zs) b
              (if maxi then (⊥ : V) else ⊤) (some z0) 0).1 ∧
            (mmLoop (mmChild h pc d' (!maxi))
              (if maxi then pc else 3 - pc) maxi (z0 :: zs) b
              (if maxi then (⊥ : V) else ⊤) (some z0) 0).1 < ⊤
          cases maxi
          · rw [mmLoop_cons_false]
            exact mmLoop_finite _ _ _ (fun bb => ih bb true) zs _ _ _ _
              (lt_min bot_lt_top (ih _ true).1)
              (lt_of_le_of_lt (min_le_right _ _) (ih _ true).2)
          · rw [mmLoop_cons_true]
            exact mmLoop_finite _ _ _ (fun bb => ih bb false) zs _ _ _ _
              (lt_of_lt_of_le (ih _ false).1 (le_max_right _ _))
              (max_lt bot_lt_top (ih _ false).2)

/-- Fail-soft correctness and node bound of the maximizing alpha-beta
candidate loop, relative to the minimax child values. -/
theorem abLoopOK_max (h : PenteGame → ℚ) {pc : Int} (hpc : pc = 1 ∨ pc = 2)
    (d' : Nat) {mover : Int} {b : PenteGame} (hok : SearchOK b)
    (hw : b.winner = none) (hws : b.winning_sequence = [])
    (hmover : mover = 1 ∨ mover = 2)
    (hchild : ∀ bb alpha beta, SearchOK bb → alpha < beta →
      ABok alpha beta (mmRec h pc d' bb false).1
        (abRec h pc d' bb alpha beta false).1 ∧
      (abRec h pc d' bb alpha beta false).2.2.1
        ≤ (mmRec h pc d' bb false).2.2.1) :
    ∀ (zs : List Coord) (l : Option Coord) (alpha beta best : V)
      (bm : Option Coord) (n : Nat),
    (∀ z ∈ zs, b.is_valid_move z.1 z.2 mover = true) →
    alpha < beta → best ≤ alpha →
    ABok alpha beta (maxFold (cvFun h pc d' mover false b) zs best)
      (abLoop (abChild h pc d' false) mover true zs { b with last_move := l }
        alpha beta best bm n).1 ∧
    (abLoop (abChild h pc d' false) mover true zs { b with last_move := l }
        alpha beta best bm n).2.2.1
      ≤ n + nodeSum (cnFun h pc d' mover false b) zs ∧
    ∃ l', (abLoop (abChild h pc d' false) mover true zs
        { b with last_move := l } alpha beta best bm n).2.2.2
      = { b with last_move := l' } := by
  intro zs
  induction zs with
  | nil =>
    intro l alpha beta best bm n _ hab hba
    exact ⟨ABok_refl _ _ _, by simp [abLoop, nodeSum], ⟨l, rfl⟩⟩
  | cons z rest ih =>
    intro l alpha beta best bm n hv hab hba
    have hvz := hv z (List.mem_cons_self z rest)
    have hvr : ∀ w ∈ rest, b.is_valid_move w.1 w.2 mover = true :=
      fun w hwm => hv w (List.mem_cons_of_mem _ hwm)
    have hokz := make_move_SearchOK hok hw hvz hmover
    obtain ⟨lc, hlc⟩ := abRec_board h hpc d'
      ((b.make_move z.1 z.2 mover).2) alpha beta false hokz
    obtain ⟨⟨c1, c2, c3⟩, hcn⟩ := hchild ((b.make_move z.1 z.2 mover).2)
      alpha beta hokz hab
    rw [abLoop_cons_true, make_move_last_irrelevant hvz l]
    simp only [abChild]
    have hokz' := hokz
    obtain ⟨lc, hlc⟩ := abRec_board h hpc d'
      ((b.make_move z.1 z.2 mover).2) alpha beta false hokz
    rw [hlc, undo_move_last, round_trip hok.1 hvz hw hws]
    simp only [maxFold, nodeSum, cvFun, cnFun, childBoard]
    generalize hB : (b.make_move z.1 z.2 mover).2 = B
    rw [hB] at hokz
    obtain ⟨⟨c1, c2, c3⟩, hcn⟩ := hchild B alpha beta hokz hab
    by_cases hbreak : beta ≤ max alpha (abRec h pc d' B alpha beta false).1
    · rw [if_pos hbreak]
      have hgc : beta ≤ (abRec h pc d' B alpha beta false).1 :=
        (le_max_iff.mp hbreak).resolve_left (not_le.mpr hab)
      have hcb : beta ≤ (mmRec h pc d' B false).1 := by
        by_contra hcb
        push_neg at hcb
        rcases le_or_lt (mmRec h pc d' B false).1 alpha with hca | hca
        · exact absurd hgc (not_le.mpr (lt_of_le_of_lt (c2 hca).2 hab))
        · rw [c1 hca hcb] at hgc
          exact absurd hgc (not_le.mpr hcb)
      have hvb : beta ≤ maxFold (cvFun h pc d' mover false b) rest
          (max best (mmRec h pc d' B false).1) :=
        le_trans hcb (le_trans (le_max_right _ _) (maxFold_ge _ rest _))
      have hbg : best < (abRec h pc d' B alpha beta false).1 :=
        lt_of_le_of_lt hba (lt_of_lt_of_le hab hgc)
      refine ⟨⟨?_, ?_, ?_⟩, ?_, ⟨lc, rfl⟩⟩
      · intro _ h2
        exact absurd (lt_of_le_of_lt hvb h2) (lt_irrefl beta)
      · intro hva
        exact absurd (le_trans hvb hva) (not_le.mpr hab)
      · intro _
        constructor
        · show beta ≤ max best (abRec h pc d' B alpha beta false).1
          exact le_trans hgc (le_max_right _ _)
        · show max best (abRec h pc d' B alpha beta false).1
            ≤ maxFold (cvFun h pc d' mover false b) rest
              (max best (mmRec h pc d' B false).1)
          rw [max_eq_right hbg.le]
          exact le_trans (c3 hcb).2
            (le_trans (le_max_right _ _) (maxFold_ge _ rest _))
      · show n + (abRec h pc d' B alpha beta false).2.2.1
          ≤ n + ((mmRec h pc d' B false).2.2.1
            + nodeSum (cnFun h pc d' mover false b) rest)
        omega
    · rw [if_neg hbreak]
      have hgb : (abRec h pc d' B alpha beta false).1 < beta := not_le.mp
        (fun hbg => hbreak (le_trans hbg (le_max_right _ _)))
      rcases le_or_lt (mmRec h pc d' B false).1 alpha with hca | hca
      · obtain ⟨hcg, hga⟩ := c2 hca
        rw [max_eq_left hga]
        obtain ⟨⟨i1, i2, i3⟩, inodes, iboard⟩ := ih lc alpha beta
          (max best (abRec h pc d' B alpha beta false).1)
          (if best < (abRec h pc d' B alpha beta false).1 then some z else bm)
          (n + (abRec h pc d' B alpha beta false).2.2.1) hvr hab
          (max_le hba hga)
        refine ⟨⟨?_, ?_, ?_⟩, ?_, iboard⟩
        · intro h1 h2
          have hMa : alpha
              < maxFold (cvFun h pc d' mover false b) rest ⊥ := by
            by_contra hMa
            push_neg at hMa
            refine absurd h1 (not_lt.mpr ?_)
            rw [maxFold_decomp (cvFun h pc d' mover false b) rest
              (max best (mmRec h pc d' B false).1)]
            exact max_le (max_le hba hca) hMa
          have hveq : maxFold (cvFun h pc d' mover false b) rest
              (max best (mmRec h pc d' B false).1)
              = maxFold (cvFun h pc d' mover false b) rest ⊥ := by
            rw [maxFold_decomp (cvFun h pc d' mover false b) rest
              (max best (mmRec h pc d' B false).1)]
            exact max_eq_right (le_trans (max_le hba hca) hMa.le)
          have hweq : maxFold (cvFun h pc d' mover false b) rest
              (max best (abRec h pc d' B alpha beta false).1)
              = maxFold (cvFun h pc d' mover false b) rest ⊥ := by
            rw [maxFold_decomp (cvFun h pc d' mover false b) rest
              (max best (abRec h pc d' B alpha beta false).1)]
            exact max_eq_right (le_trans (max_le hba hga) hMa.le)
          have h1M := hveq ▸ h1
          have h2M := hveq ▸ h2
          rw [hveq, ← hweq]
          exact i1 (by rw [hweq]; exact h1M) (by rw [hweq]; exact h2M)
        · intro hva
          have hMv : maxFold (cvFun h pc d' mover false b) rest ⊥
              ≤ maxFold (cvFun h pc d' mover false b) rest
                (max best (mmRec h pc d' B false).1) := by
            rw [maxFold_decomp (cvFun h pc d' mover false b) rest
              (max best (mmRec h pc d' B false).1)]
            exact le_max_right _ _
          have hMa := le_trans hMv hva
          have hwa : maxFold (cvFun h pc d' mover false b) rest
              (max best (abRec h pc d' B alpha beta false).1) ≤ alpha := by
            rw [maxFold_decomp (cvFun h pc d' mover false b) rest
              (max best (abRec h pc d' B alpha beta false).1)]
            exact max_le (max_le hba hga) hMa
          obtain ⟨hwg, hga'⟩ := i2 hwa
          exact ⟨le_trans (maxFold_mono (cvFun h pc d' mover false b) rest
            (max_le_max le_rfl hcg)) hwg, hga'⟩
        · intro hbv
          have hbM : beta ≤ maxFold (cvFun h pc d' mover false b) rest ⊥ := by
            rw [maxFold_decomp (cvFun h pc d' mover false b) rest
              (max best (mmRec h pc d' B false).1)] at hbv
            rcases le_max_iff.mp hbv with hx | hx
            · exact absurd (le_trans hx (max_le hba hca)) (not_le.mpr hab)
            · exact hx
          have hweq : maxFold (cvFun h pc d' mover false b) rest
              (max best (abRec h pc d' B alpha beta false).1)
              = maxFold (cvFun h pc d' mover false b) rest ⊥ := by
            rw [maxFold_decomp (cvFun h pc d' mover false b) rest
              (max best (abRec h pc d' B alpha beta false).1)]
            exact max_eq_right
              (le_trans (max_le hba hga) (le_trans hab.le hbM))
          have hveq : maxFold (cvFun h pc d' mover false b) rest
              (max best (mmRec h pc d' B false).1)
              = maxFold (cvFun h pc d' mover false b) rest ⊥ := by
            rw [maxFold_decomp (cvFun h pc d' mover false b) rest
              (max best (mmRec h pc d' B false).1)]
            exact max_eq_right
              (le_trans (max_le hba hca) (le_trans hab.le hbM))
          obtain ⟨hbg', hgw⟩ := i3 (by rw [hweq]; exact hbM)
          exact ⟨hbg', by rw [hveq, ← hweq]; exact hgw⟩
        · refine le_trans inodes ?_
          show (n + (abRec h pc d' B alpha beta false).2.2.1)
              + nodeSum (cnFun h pc d' mover false b) rest
            ≤ n + ((mmRec h pc d' B false).2.2.1
              + nodeSum (cnFun h pc d' mover false b) rest)
          omega
      · have hcb : (mmRec h pc d' B false).1 < beta := by
          by_contra hcb
          push_neg at hcb
          exact absurd (c3 hcb).1 (not_le.mpr hgb)
        have hgceq : (abRec h pc d' B alpha beta false).1
            = (mmRec h pc d' B false).1 := c1 hca hcb
        have hae : max alpha (abRec h pc d' B alpha beta false).1
            = (mmRec h pc d' B false).1 := by
          rw [hgceq]
          exact max_eq_right hca.le
        rw [hae]
        have hfold : maxFold (cvFun h pc d' mover false b) rest
            (max best (abRec h pc d' B alpha beta false).1)
            = maxFold (cvFun h pc d' mover false b) rest
              (max best (mmRec h pc d' B false).1) := by
          rw [hgceq]
        obtain ⟨⟨i1, i2, i3⟩, inodes, iboard⟩ := ih lc
          (mmRec h pc d' B false).1 beta
          (max best (abRec h pc d' B alpha beta false).1)
          (if best < (abRec h pc d' B alpha beta false).1 then some z else bm)
          (n + (abRec h pc d' B alpha beta false).2.2.1) hvr hcb
          (by rw [hgceq]; exact max_le (le_trans hba hca.le) le_rfl)
        refine ⟨⟨?_, ?_, ?_⟩, ?_, iboard⟩
        · intro h1 h2
          rcases lt_or_le (mmRec h pc d' B false).1
            (maxFold (cvFun h pc d' mover false b) rest
              (max best (mmRec h pc d' B false).1)) with hcv | hvc
          · exact (i1 (by rw [hfold]; exact hcv)
              (by rw [hfold]; exact h2)).trans hfold
          · have hveq : maxFold (cvFun h pc d' mover false b) rest
                (max best (mmRec h pc d' B false).1)
                = (mmRec h pc d' B false).1 :=
              le_antisymm hvc
                (le_trans (le_max_right _ _) (maxFold_ge _ rest _))
            obtain ⟨hvg, hgc'⟩ := i2 (by rw [hfold]; exact le_of_eq hveq)
            rw [hfold] at hvg
            exact le_antisymm (by rw [hveq]; exact hgc') hvg
        · intro hva
          exact absurd hva (not_le.mpr (lt_of_lt_of_le hca
            (le_trans (le_max_right _ _) (maxFold_ge _ rest _))))
        · intro hbv
          obtain ⟨hbg', hgw⟩ := i3 (by rw [hfold]; exact hbv)
          rw [hfold] at hgw
          exact ⟨hbg', hgw⟩
        · refine le_trans inodes ?_
          show (n + (abRec h pc d' B alpha beta false).2.2.1)
              + nodeSum (cnFun h pc d' mover false b) rest
            ≤ n + ((mmRec h pc d' B false).2.2.1
              + nodeSum (cnFun h pc d' mover false b) rest)
          omega

/-- Fail-soft correctness and node bound of the minimizing alpha-beta
candidate loop, relative to the minimax child values. -/
theorem abLoopOK_min (h : PenteGame → ℚ) {pc : Int} (hpc : pc = 1 ∨ pc = 2)
    (d' : Nat) {mover : Int} {b : PenteGame} (hok : SearchOK b)
    (hw : b.winner = none) (hws : b.winning_sequence = [])
    (hmover : mover = 1 ∨ mover = 2)
    (hchild : ∀ bb alpha beta, SearchOK bb → alpha < beta →
      ABok alpha beta (mmRec h pc d' bb true).1
        (abRec h pc d' bb alpha beta true).1 ∧
      (abRec h pc d' bb alpha beta true).2.2.1
        ≤ (mmRec h pc d' bb true).2.2.1) :
    ∀ (zs : List Coord) (l : Option Coord) (alpha beta best : V)
      (bm : Option Coord) (n : Nat),
    (∀ z ∈ zs, b.is_valid_move z.1 z.2 mover = true) →
    alpha < beta → beta ≤ best →
    ABok alpha beta (minFold (cvFun h pc d' mover true b) zs best)
      (abLoop (abChild h pc d' true) mover false zs { b with last_move := l }
        alpha beta best bm n).1 ∧
    (abLoop (abChild h pc d' true) mover false zs { b with last_move := l }
        alpha beta best bm n).2.2.1
      ≤ n + nodeSum (cnFun h pc d' mover true b) zs ∧
    ∃ l', (abLoop (abChild h pc d' true) mover false zs
        { b with last_move := l } alpha beta best bm n).2.2.2
      = { b with last_move := l' } := by
  intro zs
  induction zs with
  | nil =>
    intro l alpha beta best bm n _ hab hbb
    exact ⟨ABok_refl _ _ _, by simp [abLoop, nodeSum], ⟨l, rfl⟩⟩
  | cons z rest ih =>
    intro l alpha beta best bm n hv hab hbb
    have hvz := hv z (List.mem_cons_self z rest)
    have hvr : ∀ w ∈ rest, b.is_valid_move w.1 w.2 mover = true :=
      fun w hwm => hv w (List.mem_cons_of_mem _ hwm)
    have hokz := make_move_SearchOK hok hw hvz hmover
    rw [abLoop_cons_false, make_move_last_irrelevant hvz l]
    simp only [abChild]
    obtain ⟨lc, hlc⟩ := abRec_board h hpc d'
      ((b.make_move z.1 z.2 mover).2) alpha beta true hokz
    rw [hlc, undo_move_last, round_trip hok.1 hvz hw hws]
    simp only [minFold, nodeSum, cvFun, cnFun, childBoard]
    generalize hB : (b.make_move z.1 z.2 mover).2 = B
    rw [hB] at hokz
    obtain ⟨⟨c1, c2, c3⟩, hcn⟩ := hchild B alpha beta hokz hab
    by_cases hbreak : min beta (abRec h pc d' B alpha beta true).1 ≤ alpha
    · rw [if_pos hbreak]
      have hga : (abRec h pc d' B alpha beta true).1 ≤ alpha :=
        (min_le_iff.mp hbreak).resolve_left (not_le.mpr hab)
      have hca : (mmRec h pc d' B true).1 ≤ alpha := by
        by_contra hca
        push_neg at hca
        rcases lt_or_le (mmRec h pc d' B true).1 beta with hcb | hbc
        · rw [c1 hca hcb] at hga
          exact absurd hga (not_le.mpr hca)
        · exact absurd (le_trans (c3 hbc).1 hga) (not_le.mpr hab)
      have hva : minFold (cvFun h pc d' mover true b) rest
          (min best (mmRec h pc d' B true).1) ≤ alpha :=
        le_trans (minFold_le _ rest _) (le_trans (min_le_right _ _) hca)
      refine ⟨⟨?_, ?_, ?_⟩, ?_, ⟨lc, rfl⟩⟩
      · intro h1 _
        exact absurd h1 (not_lt.mpr hva)
      · intro _
        constructor
        · show minFold (cvFun h pc d' mover true b) rest
              (min best (mmRec h pc d' B true).1)
            ≤ min best (abRec h pc d' B alpha beta true).1
          exact le_min
            (le_trans (minFold_le _ rest _) (min_le_left _ _))
            (le_trans (le_trans (minFold_le _ rest _) (min_le_right _ _))
              (c2 hca).1)
        · show min best (abRec h pc d' B alpha beta true).1 ≤ alpha
          exact le_trans (min_le_right _ _) hga
      · intro hbv
        exact absurd (le_trans hbv hva) (not_le.mpr hab)
      · show n + (abRec h pc d' B alpha beta true).2.2.1
          ≤ n + ((mmRec h pc d' B true).2.2.1
            + nodeSum (cnFun h pc d' mover true b) rest)
        omega
    · rw [if_neg hbreak]
      have hag : alpha < (abRec h pc d' B alpha beta true).1 := not_le.mp
        (fun hga => hbreak (le_trans (min_le_right _ _) hga))
      rcases le_or_lt beta (mmRec h pc d' B true).1 with hbc | hcb
      · obtain ⟨hbg, hgc⟩ := c3 hbc
        rw [min_eq_left hbg]
        obtain ⟨⟨i1, i2, i3⟩, inodes, iboard⟩ := ih lc alpha beta
          (min best (abRec h pc d' B alpha beta true).1)
          (if (abRec h pc d' B alpha beta true).1 < best then some z else bm)
          (n + (abRec h pc d' B alpha beta true).2.2.1) hvr hab
          (le_min hbb hbg)
        refine ⟨⟨?_, ?_, ?_⟩, ?_, iboard⟩
        · intro h1 h2
          have hMb : minFold (cvFun h pc d' mover true b) rest ⊤ < beta := by
            by_contra hMb
            push_neg at hMb
            refine absurd h2 (not_lt.mpr ?_)
            rw [minFold_decomp (cvFun h pc d' mover true b) rest
              (min best (mmRec h pc d' B true).1)]
            exact le_min (le_min hbb hbc) hMb
          have hveq : minFold (cvFun h pc d' mover true b) rest
              (min best (mmRec h pc d' B true).1)
              = minFold (cvFun h pc d' mover true b) rest ⊤ := by
            rw [minFold_decomp (cvFun h pc d' mover true b) rest
              (min best (mmRec h pc d' B true).1)]
            exact min_eq_right (le_trans hMb.le (le_min hbb hbc))
          have hweq : minFold (cvFun h pc d' mover true b) rest
              (min best (abRec h pc d' B alpha beta true).1)
              = minFold (cvFun h pc d' mover true b) rest ⊤ := by
            rw [minFold_decomp (cvFun h pc d' mover true b) rest
              (min best (abRec h pc d' B alpha beta true).1)]
            exact min_eq_right (le_trans hMb.le (le_min hbb hbg))
          have h1M := hveq ▸ h1
          have h2M := hveq ▸ h2
          rw [hveq, ← hweq]
          exact i1 (by rw [hweq]; exact h1M) (by rw [hweq]; exact h2M)
        · intro hva
          have hMa : minFold (cvFun h pc d' mover true b) rest ⊤
              ≤ alpha := by
            rw [minFold_decomp (cvFun h pc d' mover true b) rest
              (min best (mmRec h pc d' B true).1)] at hva
            rcases min_le_iff.mp hva with hx | hx
            · exact absurd (le_trans (le_min hbb hbc) hx) (not_le.mpr hab)
            · exact hx
          have hveq : minFold (cvFun h pc d' mover true b) rest
              (min best (mmRec h pc d' B true).1)
              = minFold (cvFun h pc d' mover true b) rest ⊤ := by
            rw [minFold_decomp (cvFun h pc d' mover true b) rest
              (min best (mmRec h pc d' B true).1)]
            exact min_eq_right
              (le_trans hMa (le_trans hab.le (le_min hbb hbc)))
          have hweq : minFold (cvFun h pc d' mover true b) rest
              (min best (abRec h pc d' B alpha beta true).1)
              = minFold (cvFun h pc d' mover true b) rest ⊤ := by
            rw [minFold_decomp (cvFun h pc d' mover true b) rest
              (min best (abRec h pc d' B alpha beta true).1)]
            exact min_eq_right
              (le_trans hMa (le_trans hab.le (le_min hbb hbg)))
          obtain ⟨hwg, hga'⟩ := i2 (by rw [hweq]; exact hMa)
          exact ⟨by rw [hveq, ← hweq]; exact hwg, hga'⟩
        · intro hbv
          have hbM : beta ≤ minFold (cvFun h pc d' mover true b) rest ⊤ :=
            le_trans hbv (by
              rw [minFold_decomp (cvFun h pc d' mover true b) rest
                (min best (mmRec h pc d' B true).1)]
              exact min_le_right _ _)
          have hwb : beta ≤ minFold (cvFun h pc d' mover true b) rest
              (min best (abRec h pc d' B alpha beta true).1) := by
            rw [minFold_decomp (cvFun h pc d' mover true b) rest
              (min best (abRec h pc d' B alpha beta true).1)]
            exact le_min (le_min hbb hbg) hbM
          obtain ⟨hbg', hgw⟩ := i3 hwb
          exact ⟨hbg', le_trans hgw
            (minFold_mono (cvFun h pc d' mover true b) rest
              (min_le_min le_rfl hgc))⟩
        · refine le_trans inodes ?_
          show (n + (abRec h pc d' B alpha beta true).2.2.1)
              + nodeSum (cnFun h pc d' mover true b) rest
            ≤ n + ((mmRec h pc d' B true).2.2.1
              + nodeSum (cnFun h pc d' mover true b) rest)
          omega
      · have hca : alpha < (mmRec h pc d' B true).1 := by
          by_contra hca
          push_neg at hca
          exact absurd (c2 hca).2 (not_le.mpr hag)
        have hgceq : (abRec h pc d' B alpha beta true).1
            = (mmRec h pc d' B true).1 := c1 hca hcb
        have hbe : min beta (abRec h pc d' B alpha beta true).1
            = (mmRec h pc d' B true).1 := by
          rw [hgceq]
          exact min_eq_right hcb.le
        rw [hbe]
        have hfold : minFold (cvFun h pc d' mover true b) rest
            (min best (abRec h pc d' B alpha beta true).1)
            = minFold (cvFun h pc d' mover true b) rest
              (min best (mmRec h pc d' B true).1) := by
          rw [hgceq]
        obtain ⟨⟨i1, i2, i3⟩, inodes, iboard⟩ := ih lc alpha
          (mmRec h pc d' B true).1
          (min best (abRec h pc d' B alpha beta true).1)
          (if (abRec h pc d' B alpha beta true).1 < best then some z else bm)
          (n + (abRec h pc d' B alpha beta true).2.2.1) hvr hca
          (by rw [hgceq]; exact le_min (le_trans hcb.le hbb) le_rfl)
        refine ⟨⟨?_, ?_, ?_⟩, ?_, iboard⟩
        · intro h1 h2
          rcases lt_or_le (minFold (cvFun h pc d' mover true b) rest
            (min best (mmRec h pc d' B true).1))
            (mmRec h pc d' B true).1 with hvc | hcv
          · exact (i1 (by rw [hfold]; exact h1)
              (by rw [hfold]; exact hvc)).trans hfold
          · have hveq : minFold (cvFun h pc d' mover true b) rest
                (min best (mmRec h pc d' B true).1)
                = (mmRec h pc d' B true).1 :=
              le_antisymm
                (le_trans (minFold_le _ rest _) (min_le_right _ _)) hcv
            obtain ⟨hcg', hgw⟩ := i3 (by rw [hfold]; exact le_of_eq hveq.symm)
            rw [hfold] at hgw
            exact le_antisymm hgw (by rw [hveq]; exact hcg')
        · intro hva
          obtain ⟨hwg, hga'⟩ := i2 (by rw [hfold]; exact hva)
          rw [hfold] at hwg
          exact ⟨hwg, hga'⟩
        · intro hbv
          exact absurd hbv (not_le.mpr (lt_of_le_of_lt
            (le_trans (minFold_le _ rest _) (min_le_right _ _)) hcb))
        · refine le_trans inodes ?_
          show (n + (abRec h pc d' B alpha beta true).2.2.1)
              + nodeSum (cnFun h pc d' mover true b) rest
            ≤ n + ((mmRec h pc d' B true).2.2.1
              + nodeSum (cnFun h pc d' mover true b) rest)
          omega

/-- Depth induction: at every node the alpha-beta recursion satisfies the
fail-soft contract against the minimax value and explores no more nodes. -/
theorem abRec_ok (h : PenteGame → ℚ) {pc : Int} (hpc : pc = 1 ∨ pc = 2) :
    ∀ (d : Nat) (b : PenteGame) (maxi : Bool) (alpha beta : V),
    SearchOK b → alpha < beta →
    ABok alpha beta (mmRec h pc d b maxi).1
      (abRec h pc d b alpha beta maxi).1 ∧
    (abRec h pc d b alpha beta maxi).2.2.1 ≤ (mmRec h pc d b maxi).2.2.1 := by
  intro d
  induction d with
  | zero =>
    intro b maxi alpha beta hok hab
    unfold mmRec abRec
    split
    · exact ⟨ABok_refl _ _ _, le_rfl⟩
    · split
      · exact ⟨ABok_refl _ _ _, le_rfl⟩
      · exact ⟨ABok_refl _ _ _, le_rfl⟩
  | succ d' ih =>
    intro b maxi alpha beta hok hab
    unfold mmRec abRec
    split
    · exact ⟨ABok_refl _ _ _, le_rfl⟩
    · split
      · exact ⟨ABok_refl _ _ _, le_rfl⟩
      · rename_i hnw1 hnw2
        have hw : b.winner = none :=
          winner_none_of_not_terminal hpc hok.2.2.2.1 hnw1 hnw2
        have hws := hok.2.2.2.2 hw
        cases hcand : smartCandidates b with
        | nil => exact ⟨ABok_refl _ _ _, le_rfl⟩
        | cons z0 zs =>
          have hv : ∀ w ∈ z0 :: zs,
              b.is_valid_move w.1 w.2 (if maxi then pc else 3 - pc)
                = true := by
            rw [← hcand]
            exact smartCandidates_valid_all _ hok.2.2.1
          cases maxi
          · have hm32 : (3 - pc) = 1 ∨ (3 - pc) = 2 := by
              rcases hpc with hh | hh <;> subst hh <;> omega
            show ABok alpha beta
                (mmLoop (mmChild h pc d' true) (3 - pc) false (z0 :: zs)
                  { b with last_move := b.last_move } ⊤ (some z0) 0).1
                (abLoop (abChild h pc d' true) (3 - pc) false (z0 :: zs)
                  { b with last_move := b.last_move } alpha beta ⊤
                  (some z0) 0).1
              ∧ 1 + (abLoop (abChild h pc d' true) (3 - pc) false (z0 :: zs)
                  { b with last_move := b.last_move } alpha beta ⊤
                  (some z0) 0).2.2.1
                ≤ 1 + (mmLoop (mmChild h pc d' true) (3 - pc) false
                  (z0 :: zs) { b with last_move := b.last_move } ⊤
                  (some z0) 0).2.2.1
            obtain ⟨hval, hnodes, -⟩ := mmLoop_spec_min h hpc d' hok hw hws
              hm32 (z0 :: zs) b.last_move ⊤ (some z0) 0 hv
            obtain ⟨habok, hnab, -⟩ := abLoopOK_min h hpc d' hok hw hws hm32
              (fun bb a bt hbb habt => ih bb true a bt hbb habt)
              (z0 :: zs) b.last_move alpha beta ⊤ (some z0) 0 hv hab le_top
            constructor
            · rw [hval]
              exact habok
            · rw [hnodes]
              omega
          · show ABok alpha beta
                (mmLoop (mmChild h pc d' false) pc true (z0 :: zs)
                  { b with last_move := b.last_move } ⊥ (some z0) 0).1
                (abLoop (abChild h pc d' false) pc true (z0 :: zs)
                  { b with last_move := b.last_move } alpha beta ⊥
                  (some z0) 0).1
              ∧ 1 + (abLoop (abChild h pc d' false) pc true (z0 :: zs)
                  { b with last_move := b.last_move } alpha beta ⊥
                  (some z0) 0).2.2.1
                ≤ 1 + (mmLoop (mmChild h pc d' false) pc true
                  (z0 :: zs) { b with last_move := b.last_move } ⊥
                  (some z0) 0).2.2.1
            obtain ⟨hval, hnodes, -⟩ := mmLoop_spec_max h hpc d' hok hw hws
              hpc (z0 :: zs) b.last_move ⊥ (some z0) 0 hv
            obtain ⟨habok, hnab, -⟩ := abLoopOK_max h hpc d' hok hw hws hpc
              (fun bb a bt hbb habt => ih bb false a bt hbb habt)
              (z0 :: zs) b.last_move alpha beta ⊥ (some z0) 0 hv hab bot_le
            constructor
            · rw [hval]
              exact habok
            · rw [hnodes]
              omega

/-- C5: with the full window, alpha-beta returns exactly the minimax root
value and explores no more nodes than minimax, for the same position,
depth, heuristic, and candidate enumeration. -/
theorem C5_alphabeta_refines_minimax (h : PenteGame → ℚ) (pc : Int) (d : Nat)
    (b : PenteGame) (hpc : pc = 1 ∨ pc = 2) (hok : SearchOK b) :
    (abRec h pc d b ⊥ ⊤ true).1 = (mmRec h pc d b true).1 ∧
    (abRec h pc d b ⊥ ⊤ true).2.2.1 ≤ (mmRec h pc d b true).2.2.1 := by
  obtain ⟨⟨h1, -, -⟩, hn⟩ := abRec_ok h hpc d b true ⊥ ⊤ hok bot_lt_top
  obtain ⟨hf1, hf2⟩ := mmRec_finite h pc d b true
  exact ⟨h1 hf1 hf2, hn⟩

/-- Witness for C5: a concrete position, heuristic, and depth on which the
refinement theorem applies, with the side conditions checked by
computation. -/
theorem C5_witness :
    (abRec (fun bb => heuristic_1 bb 1) 1 1 (buildBoard [(9, 9, 1)])
        ⊥ ⊤ true).1
      = (mmRec (fun bb => heuristic_1 bb 1) 1 1 (buildBoard [(9, 9, 1)])
        true).1 ∧
    (abRec (fun bb => heuristic_1 bb 1) 1 1 (buildBoard [(9, 9, 1)])
        ⊥ ⊤ true).2.2.1
      ≤ (mmRec (fun bb => heuristic_1 bb 1) 1 1 (buildBoard [(9, 9, 1)])
        true).2.2.1 :=
  C5_alphabeta_refines_minimax (fun bb => heuristic_1 bb 1) 1 1
    (buildBoard [(9, 9, 1)]) (Or.inl rfl)
    ⟨by decide, by decide, by decide, Or.inl (by decide), fun _ => by decide⟩

/-! ## C9, continued: no truncation in either search -/

theorem mmRec_zero_nodes (h : PenteGame → ℚ) (pc : Int) (b : PenteGame)
    (m : Bool) : (mmRec h pc 0 b m).2.2.1 = 1 := by
  unfold mmRec
  split
  · rfl
  · split
    · rfl
    · rfl

theorem abRec_zero (h : PenteGame → ℚ) (pc : Int) (b : PenteGame)
    (a bt : V) (m : Bool) :
    (abRec h pc 0 b a bt m).1 < ⊤ ∧ (abRec h pc 0 b a bt m).2.2.1 = 1 := by
  unfold abRec
  split
  · exact ⟨(qv_finite _).2, rfl⟩
  · split
    · exact ⟨(qv_finite _).2, rfl⟩
    · exact ⟨(qv_finite _).2, rfl⟩

theorem nodeSum_cn_zero (h : PenteGame → ℚ) (pc mover : Int) (m : Bool)
    (b : PenteGame) :
    ∀ zs : List Coord, nodeSum (cnFun h pc 0 mover m b) zs = zs.length
  | [] => rfl
  | z :: rest => by
    show cnFun h pc 0 mover m b z
        + nodeSum (cnFun h pc 0 mover m b) rest = (z :: rest).length
    rw [show cnFun h pc 0 mover m b z = 1 from
      mmRec_zero_nodes h pc (childBoard b mover z) m]
    rw [nodeSum_cn_zero h pc mover m b rest, List.length_cons]
    omega

/-- A depth-1 maximizing minimax node explores its root plus every
candidate: one node per element of the full `_get_smart_candidates`
list — no per-node truncation. -/
theorem mmRec_one_nodes (h : PenteGame → ℚ) {pc : Int}
    (hpc : pc = 1 ∨ pc = 2) (b : PenteGame) (hok : SearchOK b)
    (hw : b.winner = none) (hws : b.winning_sequence = []) :
    (mmRec h pc 1 b true).2.2.1 = 1 + (smartCandidates b).length := by
  have h1 : ¬ b.winner = some pc := by rw [hw]; simp
  have h2 : ¬ b.winner = some (3 - pc) := by rw [hw]; simp
  unfold mmRec
  rw [if_neg h1, if_neg h2]
  cases hcand : smartCandidates b with
  | nil => rfl
  | cons z0 zs =>
    have hv : ∀ z ∈ z0 :: zs, b.is_valid_move z.1 z.2 pc = true := by
      rw [← hcand]
      exact smartCandidates_valid_all pc hok.2.2.1
    show 1 + (mmLoop (mmChild h pc 0 false) pc true (z0 :: zs)
        { b with last_move := b.last_move } ⊥ (some z0) 0).2.2.1
      = 1 + (z0 :: zs).length
    obtain ⟨-, hnodes, -⟩ := mmLoop_spec_max h hpc 0 hok hw hws hpc
      (z0 :: zs) b.last_move ⊥ (some z0) 0 hv
    rw [hnodes, nodeSum_cn_zero h pc pc false b (z0 :: zs)]
    omega

/-- With the full window and finite child values the maximizing alpha-beta
loop never takes its cutoff: it visits every candidate. -/
theorem abLoop_top_nodes {child : PenteGame → V → V → V × Nat × PenteGame}
    {mover : Int}
    (hchild : ∀ bb a bt, (child bb a bt).1 < ⊤ ∧ (child bb a bt).2.1 = 1) :
    ∀ (zs : List Coord) (bq : PenteGame) (alpha best : V)
      (bm : Option Coord) (n : Nat), alpha < ⊤ →
    (abLoop child mover true zs bq alpha ⊤ best bm n).2.2.1 = n + zs.length
  | [], bq, alpha, best, bm, n, _ => by
    show n = n + ([] : List Coord).length
    simp
  | z :: rest, bq, alpha, best, bm, n, ha => by
    rw [abLoop_cons_true]
    rw [if_neg (not_le.mpr (max_lt ha (hchild _ _ _).1))]
    rw [(hchild _ _ _).2]
    rw [abLoop_top_nodes hchild rest _ _ _ _ _
      (max_lt ha (hchild _ _ _).1)]
    rw [List.length_cons]
    omega

/-- A depth-1 alpha-beta root with the full window explores its root plus
every candidate — exactly as many nodes as minimax, with no root
truncation. -/
theorem abRec_one_nodes (h : PenteGame → ℚ) {pc : Int}
    (hpc : pc = 1 ∨ pc = 2) (b : PenteGame) (hok : SearchOK b)
    (hw : b.winner = none) (hws : b.winning_sequence = []) :
    (abRec h pc 1 b ⊥ ⊤ true).2.2.1 = 1 + (smartCandidates b).length := by
  have h1 : ¬ b.winner = some pc := by rw [hw]; simp
  have h2 : ¬ b.winner = some (3 - pc) := by rw [hw]; simp
  unfold abRec
  rw [if_neg h1, if_neg h2]
  cases hcand : smartCandidates b with
  | nil => rfl
  | cons z0 zs =>
    show 1 + (abLoop (abChild h pc 0 false) pc true (z0 :: zs) b ⊥ ⊤ ⊥
        (some z0) 0).2.2.1 = 1 + (z0 :: zs).length
    rw [abLoop_top_nodes
      (fun bb a bt => ⟨(abRec_zero h pc bb a bt false).1,
        (abRec_zero h pc bb a bt false).2⟩)
      (z0 :: zs) b ⊥ ⊥ (some z0) 0 bot_lt_top]
    omega

/-- Nine stones on a sparse lattice: their radius-2 neighbourhoods are
pairwise disjoint, so the scan yields 9 × 24 = 216 candidates. -/
def c9Moves : List (Int × Int × Int) :=
  [(2, 2, 1), (2, 8, 2), (2, 14, 1), (8, 2, 2), (8, 8, 1), (8, 14, 2),
   (14, 2, 1), (14, 8, 2), (14, 14, 1)]

/-- Counterexample for C9 as stated: on a nine-stone position with 216
available candidates, the depth-1 alpha-beta root explores all 216 of
them — exactly as many nodes as the minimax variant at the same node.
There is no truncation of the root list to a fixed count, and no smaller
per-node minimax count for it to exceed; the two variants consume the
same untruncated candidate collection. -/
theorem C9_counterexample :
    (smartCandidates (buildBoard c9Moves)).length = 216 ∧
    (mmRec (fun bb => heuristic_1 bb 1) 1 1 (buildBoard c9Moves)
        true).2.2.1 = 217 ∧
    (abRec (fun bb => heuristic_1 bb 1) 1 1 (buildBoard c9Moves)
        ⊥ ⊤ true).2.2.1 = 217 := by
  have hlen : (smartCandidates (buildBoard c9Moves)).length = 216 := by
    decide
  have hok : SearchOK (buildBoard c9Moves) :=
    ⟨by decide, by decide, by decide, Or.inl (by decide),
      fun _ => by decide⟩
  have hw : (buildBoard c9Moves).winner = none := by decide
  have hws : (buildBoard c9Moves).winning_sequence = [] := by decide
  refine ⟨hlen, ?_, ?_⟩
  · rw [mmRec_one_nodes (fun bb => heuristic_1 bb 1) (Or.inl rfl)
      (buildBoard c9Moves) hok hw hws, hlen]
  · rw [abRec_one_nodes (fun bb => heuristic_1 bb 1) (Or.inl rfl)
      (buildBoard c9Moves) hok hw hws, hlen]
